import Mathlib

/-!
# `configuration/consulconfiguration.go`: the tree materializer `mapify`

A shallow embedding of the Go functions of `consulconfiguration.go` and the
properties of the nested tree that `mapify` builds out of a flat list of
slash-delimited keys.

Modelling conventions.

* A Go `string` is a byte sequence.  It is modelled as a `List Char`, one
  `Char` per byte; the separator `'/'` is the byte `0x2F`.
* A Go `map[string]T` is modelled as an association list kept in strictly
  increasing key order (`GoMap.set` inserts in place).  A Go map is unordered,
  so the order is a choice of representative: two maps with the same entries
  are the same term, and Lean's `=` is Go's deep equality of maps.
* `api.KVPairs` is `[]*api.KVPair`; the pointers that Consul returns are
  distinct and non-nil.  `mapify` is modelled twice: on the list of the
  pointed-to pairs (`mapify`, a `List KVPair`), and on a memory of pairs and a
  list of addresses (`mapifyPtr`), which also gives the memory after the call.
  For distinct pointers the two return the same map (`mapifyPtr_fst`).  Only
  the fields `Key` and `Value` are read by this file.
* The recursion of `mapify` is driven by a fuel argument; `mapify` supplies
  enough fuel (`mapifyFuel_stable`), and satisfies the recursion equation of
  the source (`mapify_unfold`).
-/

namespace configuration

/-! ## Data model -/

/-- Go `string`: a sequence of bytes, one `Char` per byte. -/
abbrev Key := List Char

/-- The separator byte of the key namespace. -/
abbrev sep : Char := '/'

/-- Modelled from the spec: the types `Item`, `Map` and `String` of package
`configuration` are declared outside `consulconfiguration.go`.  An `Item` is
either a `Leaf` (Go: `String(value)`, the raw stored value) or a `Subtree`
(Go: a `Map`, that is `map[string]Item`). -/
inductive Item where
  | Leaf (v : List Char)
  | Subtree (m : List (Key × Item))

/-- Modelled from the spec: `Map` is `map[string]Item`, here the list of its
entries in increasing key order. -/
abbrev Map := List (Key × Item)

/-- The two fields of `api.KVPair` that the package reads.  `Value` is a
`[]byte`; the conversion `String(kvp.Value)` keeps the bytes, so the value of a
leaf is the same byte sequence. -/
structure KVPair where
  Key : Key
  Value : List Char
  deriving DecidableEq

/-- Go `api.KVPairs`. -/
abbrev KVPairs := List KVPair

/-! ## Go maps -/

namespace GoMap

/-- Go `m[k]` (lookup): `none` when the key is absent. -/
def get {α : Type} : List (Key × α) → Key → Option α
  | [], _ => none
  | (k', v) :: rest, k => if k = k' then some v else get rest k

/-- Go `m[k] = v`: replace the entry of `k`, or insert it at its place in the
key order. -/
def set {α : Type} : List (Key × α) → Key → α → List (Key × α)
  | [], k, v => [(k, v)]
  | (k', v') :: rest, k, v =>
      if k = k' then (k, v) :: rest
      else if k < k' then (k, v) :: (k', v') :: rest
      else (k', v') :: set rest k v

/-- The keys of a Go map. -/
def keys {α : Type} (m : List (Key × α)) : List Key := m.map Prod.fst

end GoMap

/-! ## Go string functions -/

/-- Go `strings.IndexByte(s, c)`: index of the first `c` in `s`, or `-1`. -/
def IndexByte (s : Key) (c : Char) : Int :=
  if c ∈ s then (s.indexOf c : Int) else -1

/-- Go `strings.TrimLeft(s, cutset)`: `s` without its leading bytes that belong
to `cutset`. -/
def TrimLeft (s : Key) (cutset : List Char) : Key :=
  s.dropWhile (fun c => decide (c ∈ cutset))

/-- Go `strings.TrimPrefix(s, p)`: `s` without the leading `p`, or `s` itself
when `s` does not start with `p`. -/
def TrimPrefix (s p : Key) : Key :=
  if p.isPrefixOf s then s.drop p.length else s

/-- Go slice `s[:i]`. -/
def sliceTo (s : Key) (i : Int) : Key := s.take i.toNat

/-- Go slice `s[i:]`. -/
def sliceFrom (s : Key) (i : Int) : Key := s.drop i.toNat

/-! ## `formatKey`, `stripRequestKey` -/

/-- Go `formatKey`: trim leading slashes. -/
def formatKey (key : Key) : Key := TrimLeft key [sep]

/-- Go `stripRequestKey`: strip the request key from the front of the response
key. -/
def stripRequestKey (requestKey responseKey : Key) : Key :=
  TrimPrefix responseKey requestKey

/-! ## `mapify` -/

/-- The two accumulators of the loop of `mapify`: the output map `m` and
`prefixSet`. -/
abbrev LoopState := Map × List (Key × KVPairs)

/-- Lines 119-134 of `mapify`: what one iteration does with the pair `kvp` once
the index `i` of its first separator is settled. -/
def mapifyInsert (st : LoopState) (kvp : KVPair) (i : Int) : LoopState :=
  if i = -1 then
    -- m[kvp.Key] = String(kvp.Value)
    (GoMap.set st.1 kvp.Key (Item.Leaf kvp.Value), st.2)
  else
    let pfx := sliceTo kvp.Key i
    let kvp1 : KVPair := { kvp with Key := sliceFrom kvp.Key (i + 1) }
    let prefixSet :=
      if (GoMap.get st.2 pfx).isNone then GoMap.set st.2 pfx [] else st.2
    (st.1, GoMap.set prefixSet pfx ((GoMap.get prefixSet pfx).getD [] ++ [kvp1]))

/-- Lines 107-135 of `mapify`: one iteration of the loop over `kvps`. -/
def mapifyStep (st : LoopState) (kvp : KVPair) : LoopState :=
  let i := IndexByte kvp.Key sep
  if i = 0 then
    let kvp1 : KVPair := { kvp with Key := TrimLeft kvp.Key [sep] }
    if kvp1.Key.length = 0 then
      st -- continue
    else
      mapifyInsert st kvp1 (IndexByte kvp1.Key sep)
  else
    mapifyInsert st kvp i

/-- Lines 100-135 of `mapify`: the loop over `kvps`, from empty accumulators. -/
def mapifyLoop (kvps : KVPairs) : LoopState :=
  kvps.foldl mapifyStep ([], [])

/-- Lines 136-139 of `mapify`: every entry of `prefixSet` is materialized by
the recursive call `recur` and stored in `m` as a subtree.  Go ranges over a
map in an unspecified order; the keys of `prefixSet` are distinct, so every
order stores the same entries, and the model takes the key order. -/
def mapifyFinish (recur : KVPairs → Map) (st : LoopState) : Map :=
  st.2.foldl (fun m e => GoMap.set m e.1 (Item.Subtree (recur e.2))) st.1

/-- The body of `mapify`, with the recursion depth bounded by the fuel.  The
value at fuel 0 is never reached from `mapify` (`mapifyFuel_stable`). -/
def mapifyFuel : Nat → KVPairs → Map
  | 0, _ => []
  | fuel + 1, kvps => mapifyFinish (mapifyFuel fuel) (mapifyLoop kvps)

/-- Number of separators of a key. -/
def sepCount (key : Key) : Nat := key.count sep

/-- The largest number of separators of a key of the list. -/
def maxSeps (kvps : KVPairs) : Nat :=
  kvps.foldr (fun kvp n => max (sepCount kvp.Key) n) 0

/-- Go `mapify`.  Every recursive call works on keys with at least one
separator less, so one unit of fuel per separator of the longest key, plus
one, is enough. -/
def mapify (kvps : KVPairs) : Map :=
  mapifyFuel (maxSeps kvps + 1) kvps

/-- Shorthand for a pair given by two string literals. -/
def kv (k v : String) : KVPair := ⟨k.toList, v.toList⟩

mutual
/-- Decision procedure for equality of items. -/
def Item.decEq : (a b : Item) → Decidable (a = b)
  | .Leaf v, .Leaf w => if h : v = w then isTrue (by rw [h]) else isFalse (by intro e; cases e; exact h rfl)
  | .Leaf _, .Subtree _ => isFalse (by intro e; cases e)
  | .Subtree _, .Leaf _ => isFalse (by intro e; cases e)
  | .Subtree m, .Subtree n =>
      match Item.decEqEntries m n with
      | isTrue h => isTrue (by rw [h])
      | isFalse h => isFalse (by intro e; cases e; exact h rfl)
termination_by structural a => a
/-- Decision procedure for equality of entry lists. -/
def Item.decEqEntries : (a b : List (Key × Item)) → Decidable (a = b)
  | [], [] => isTrue rfl
  | [], _ :: _ => isFalse (by intro e; cases e)
  | _ :: _, [] => isFalse (by intro e; cases e)
  | (k, i) :: r, (k2, j) :: r2 =>
      if hk : k = k2 then
        match Item.decEq i j with
        | isTrue hi =>
            match Item.decEqEntries r r2 with
            | isTrue hr => isTrue (by rw [hk, hi, hr])
            | isFalse hr => isFalse (by intro e; cases e; exact hr rfl)
        | isFalse hi => isFalse (by intro e; cases e; exact hi rfl)
      else isFalse (by intro e; cases e; exact hk rfl)
termination_by structural a => a
end

instance : DecidableEq Item := Item.decEq


/-- A Go map is represented by a list whose keys increase strictly. -/
def GoMap.Sorted {α : Type} (m : List (Key × α)) : Prop := (GoMap.keys m).Pairwise (· < ·)

/-! ## Helper definitions for the proofs -/

/-- The pair that an iteration of the loop stores as a leaf, if it stores one:
the key has no separator once its leading separators are trimmed, and is not a
non-empty run of separators. -/
def leafOf (kvp : KVPair) : Option KVPair :=
  let t := TrimLeft kvp.Key [sep]
  if sep ∈ t then none
  else if t = [] ∧ kvp.Key ≠ [] then none
  else some ⟨t, kvp.Value⟩

/-- The segment and the shortened pair that an iteration of the loop appends to
the accumulator of the segment, if it appends one. -/
def branchOf (kvp : KVPair) : Option (Key × KVPair) :=
  let t := TrimLeft kvp.Key [sep]
  if sep ∈ t then
    some (t.take (t.indexOf sep), ⟨t.drop (t.indexOf sep + 1), kvp.Value⟩)
  else none

/-- The pairs appended to the accumulator of segment `s`, in input order. -/
def group (kvps : KVPairs) (s : Key) : KVPairs :=
  kvps.filterMap (fun kvp =>
    match branchOf kvp with
    | some (s1, q) => if s1 = s then some q else none
    | none => none)

/-- The value of the last pair stored as a leaf under the key `k`. -/
def leafValue : KVPairs → Key → Option (List Char)
  | [], _ => none
  | kvp :: rest, k =>
    match leafValue rest k with
    | some v => some v
    | none =>
      match leafOf kvp with
      | some q => if q.Key = k then some q.Value else none
      | none => none


/-! ## Notions used by the properties -/

/-- The pairs of `kvps` whose key, leading separators removed, starts with the
segment `s` followed by a separator, each with the rest of its key, in input
order. -/
def subKVPairs (kvps : KVPairs) (s : Key) : KVPairs :=
  kvps.filterMap (fun kvp =>
    let t := TrimLeft kvp.Key [sep]
    if (s ++ [sep]).isPrefixOf t then some ⟨t.drop (s.length + 1), kvp.Value⟩ else none)

/-- The value of the last pair of `kvps` whose key is `k`. -/
def lastValue (kvps : KVPairs) (k : Key) : Option (List Char) :=
  (kvps.reverse.find? (fun kvp => kvp.Key = k)).map KVPair.Value

/-- Descend from the map `m` through subtrees along all the segments but the
last one, and look the last one up. -/
def lookupPath : Map → List Key → Option Item
  | _, [] => none
  | m, [s] => GoMap.get m s
  | m, s :: s2 :: rest =>
    match GoMap.get m s with
    | some (Item.Subtree m1) => lookupPath m1 (s2 :: rest)
    | _ => none

/-- The key `s1/.../sn` of the segments `s1, ..., sn`. -/
def joinPath (segs : List Key) : Key := [sep].intercalate segs

/-- A well-formed key: non-empty, not beginning or ending with a separator,
without two adjacent separators. -/
def WellFormedKey (key : Key) : Prop :=
  key ≠ [] ∧ key.head? ≠ some sep ∧ key.getLast? ≠ some sep ∧ ¬ [sep, sep] <:+: key

instance : DecidablePred WellFormedKey := fun key => by
  unfold WellFormedKey
  infer_instance

/-- The non-empty segments of a key, in order: the key is split at every
separator and the empty pieces are left out. -/
def segments (key : Key) : List Key :=
  (key.splitOn sep).filter (fun s => s ≠ [])

mutual
/-- The pairs of the leaves at or below the entry `(k, i)` of a map: the key of
a pair is the path from the entry to the leaf, joined by separators. -/
def flattenItem : Key → Item → KVPairs
  | k, .Leaf v => [⟨k, v⟩]
  | k, .Subtree m => (flattenEntries m).map (fun q => ⟨k ++ sep :: q.Key, q.Value⟩)
termination_by structural _ i => i
/-- The pairs of the leaves of the entries of a map, entry after entry. -/
def flattenEntries : List (Key × Item) → KVPairs
  | [] => []
  | (k, i) :: rest => flattenItem k i ++ flattenEntries rest
termination_by structural m => m
end

/-- The list, for every leaf of the tree, of the pair of its full path (the
segment names joined by separators) and its value. -/
def flatten (m : Map) : KVPairs := flattenEntries m

mutual
/-- No subtree at or below the item is empty. -/
def Item.noEmptySubtree : Item → Bool
  | .Leaf _ => true
  | .Subtree m => !m.isEmpty && entriesNoEmptySubtree m
termination_by structural i => i
/-- No subtree at or below an entry of the map is empty. -/
def entriesNoEmptySubtree : List (Key × Item) → Bool
  | [] => true
  | (_, i) :: rest => i.noEmptySubtree && entriesNoEmptySubtree rest
termination_by structural m => m
end

mutual
/-- Depth of an item: a leaf has depth 0, a subtree has the depth of its map. -/
def Item.depth : Item → Nat
  | .Leaf _ => 0
  | .Subtree m => depthEntries m
termination_by structural i => i
/-- Depth of a map given by its entries: 0 when empty, else one more than the
largest depth of its items. -/
def depthEntries : List (Key × Item) → Nat
  | [] => 0
  | (_, i) :: rest => max (1 + i.depth) (depthEntries rest)
termination_by structural m => m
end

/-- Depth of a map. -/
def depth (m : Map) : Nat := depthEntries m

mutual
/-- Shape of an item built by `mapify`: every map below it has increasing keys
without separator, and the key of a subtree is not empty. -/
def Item.Shaped : Item → Prop
  | .Leaf _ => True
  | .Subtree m => GoMap.Sorted m ∧ entriesShaped m
termination_by structural i => i
/-- Shape of the entries of a map built by `mapify`. -/
def entriesShaped : List (Key × Item) → Prop
  | [] => True
  | (k, i) :: rest =>
    sep ∉ k ∧ ((∃ v, i = Item.Leaf v) ∨ k ≠ []) ∧ i.Shaped ∧ entriesShaped rest
termination_by structural m => m
end

/-- A non-empty key that consists of separators only. -/
def onlySeps (key : Key) : Bool := !key.isEmpty && key.all (fun c => c = sep)

/-- The number of separator-delimited segments of a key. -/
def segmentCount (key : Key) : Nat := (key.splitOn sep).length

/-- The largest number of segments of a key of the list. -/
def maxSegments (kvps : KVPairs) : Nat :=
  kvps.foldr (fun kvp n => max (segmentCount kvp.Key) n) 0

/-- A key without stray separator: it does not begin with a separator and has
no two adjacent separators. -/
def NoStraySep (key : Key) : Prop :=
  key.head? ≠ some sep ∧ ¬ [sep, sep] <:+: key

instance : DecidablePred NoStraySep := fun key => by
  unfold NoStraySep
  infer_instance

/-- Lines 136-139 of `mapify` when the recursive call `recur` may fail for
want of nesting depth: the failure is passed on. -/
def mapifyFinishBounded (recur : KVPairs → Option Map) (st : LoopState) : Option Map :=
  st.2.foldl (fun acc e =>
    match acc, recur e.2 with
    | some m, some t => some (GoMap.set m e.1 (Item.Subtree t))
    | _, _ => none) (some st.1)

/-- The body of `mapify` run with at most `depth` nested calls, the outermost
call included: `none` when a deeper call would be needed. -/
def mapifyBounded : Nat → KVPairs → Option Map
  | 0, _ => none
  | depth + 1, kvps => mapifyFinishBounded (mapifyBounded depth) (mapifyLoop kvps)

/-- The result of `GetRecursive`, together with the calls it made to the
backend. -/
structure GetRecursiveOutcome (ε : Type) where
  /-- The keys with which `kv.List` was called, in order. -/
  listCalls : List Key
  /-- The pair `(value, err)` returned to the caller. -/
  result : Except ε Map

/-- Go `ConsulConfiguration.GetRecursive`.  The backend call
`cc.kv.List(requestKey, nil)` of the Consul client library is the parameter
`kvList`: it returns the listed pairs or an error (the query metadata is
ignored by the code). -/
def GetRecursive {ε : Type} (kvList : Key → Except ε KVPairs) (key : Key) :
    GetRecursiveOutcome ε :=
  let requestKey := formatKey key
  match kvList requestKey with
  | .error err => ⟨[requestKey], .error err⟩
  | .ok kvps =>
    let kvps1 := kvps.map (fun kvp => { kvp with Key := stripRequestKey requestKey kvp.Key })
    ⟨[requestKey], .ok (mapify kvps1)⟩

/-- The remainder `rest` of a response key stripped of the request key `r`
starts at a segment boundary: `r` is empty or ends with a separator, or `rest`
is empty or begins with a separator. -/
def AtSegmentBoundary (r rest : Key) : Prop :=
  r = [] ∨ r.getLast? = some sep ∨ rest = [] ∨ rest.head? = some sep

instance (r rest : Key) : Decidable (AtSegmentBoundary r rest) := by
  unfold AtSegmentBoundary
  infer_instance

/-- An example backend: it stores two keys under `app/`, and reports an error
for every other request key. -/
def exampleList (requestKey : Key) : Except String KVPairs :=
  if requestKey = "app/".toList then .ok [kv "app/a/b" "1", kv "app/c" "2"]
  else .error "no such key"

/-- Lines 108-118 of `mapify`: the key and the index of its first separator
with which an iteration goes on to lines 119-134, or `none` when the iteration
is abandoned (`continue`). -/
def mapifyIndex (kvp : KVPair) : Option (Key × Int) :=
  let i := IndexByte kvp.Key sep
  if i = 0 then
    let key := TrimLeft kvp.Key [sep]
    if key.length = 0 then none else some (key, IndexByte key sep)
  else some (kvp.Key, i)

/-- The Go slice expression `s[lo:hi]` is in bounds (does not panic). -/
def sliceInBounds (s : Key) (lo hi : Int) : Prop :=
  0 ≤ lo ∧ lo ≤ hi ∧ hi ≤ s.length

mutual
/-- The keys mapped to a subtree inside an item, at any depth. -/
def Item.subtreeKeys : Item → List Key
  | .Leaf _ => []
  | .Subtree m => entriesSubtreeKeys m
termination_by structural i => i
/-- The keys mapped to a subtree by a map or by a map nested in it, at any
depth. -/
def entriesSubtreeKeys : List (Key × Item) → List Key
  | [] => []
  | (k, i) :: rest =>
    (match i with
      | .Subtree _ => [k]
      | .Leaf _ => []) ++ i.subtreeKeys ++ entriesSubtreeKeys rest
termination_by structural m => m
end

/-- The key `k1` is the key `k2` with one more separator, put at the front of
`k2` or right after one of its separators, and followed by at least one
byte. -/
def ExtraSep (k1 k2 : Key) : Prop :=
  ∃ P q, q ≠ [] ∧ (P = [] ∨ P.getLast? = some sep) ∧ k1 = P ++ sep :: q ∧ k2 = P ++ q

/-- Two pairs with the same value whose keys are equal up to one such extra
separator. -/
def SameUpToSep (p1 p2 : KVPair) : Prop :=
  p1.Value = p2.Value ∧ (p1.Key = p2.Key ∨ ExtraSep p1.Key p2.Key)

/-! ## `mapify` on pointers

`api.KVPairs` is a slice of pointers, and `mapify` assigns to `kvp.Key` through
them.  The memory that holds the pairs is a list, the address of a pair is its
position, and the slice is the list of the addresses of its pairs. -/

/-- The memory that holds the pairs: the pair at address `a` is `heap[a]`. -/
abbrev Heap := List KVPair

/-- Go `api.KVPairs`, a slice of pointers: the addresses of its pairs. -/
abbrev KVPointers := List Nat

/-- The pair at address `a` (the empty pair outside the memory). -/
def Heap.read (heap : Heap) (a : Nat) : KVPair := heap.getD a ⟨[], []⟩

/-- Go `kvp.Key = key`, for the pointer `kvp` of address `a`. -/
def Heap.writeKey (heap : Heap) (a : Nat) (key : Key) : Heap :=
  heap.set a { heap.read a with Key := key }

/-- The accumulators of the loop of `mapify` and the memory. -/
structure PtrState where
  /-- The output map `m`. -/
  m : Map
  /-- The map `prefixSet`, from segment to slice of pointers. -/
  prefixSet : List (Key × KVPointers)
  /-- The memory that holds the pairs. -/
  heap : Heap

/-- Lines 119-134 of `mapify` for the pointer of address `a`. -/
def mapifyInsertPtr (st : PtrState) (a : Nat) (i : Int) : PtrState :=
  let kvp := st.heap.read a
  if i = -1 then
    { st with m := GoMap.set st.m kvp.Key (Item.Leaf kvp.Value) }
  else
    let pfx := sliceTo kvp.Key i
    let heap := st.heap.writeKey a (sliceFrom kvp.Key (i + 1))
    let prefixSet :=
      if (GoMap.get st.prefixSet pfx).isNone then GoMap.set st.prefixSet pfx []
      else st.prefixSet
    { m := st.m
      prefixSet := GoMap.set prefixSet pfx ((GoMap.get prefixSet pfx).getD [] ++ [a])
      heap := heap }

/-- Lines 107-135 of `mapify`: one iteration, for the pointer of address `a`.
The assignment of line 113 stays in memory when the iteration is abandoned. -/
def mapifyStepPtr (st : PtrState) (a : Nat) : PtrState :=
  let i := IndexByte (st.heap.read a).Key sep
  if i = 0 then
    let st1 : PtrState :=
      { st with heap := st.heap.writeKey a (TrimLeft (st.heap.read a).Key [sep]) }
    if (st1.heap.read a).Key.length = 0 then
      st1 -- continue
    else
      mapifyInsertPtr st1 a (IndexByte (st1.heap.read a).Key sep)
  else
    mapifyInsertPtr st a i

/-- Lines 100-135 of `mapify`, on pointers. -/
def mapifyLoopPtr (heap : Heap) (kvps : KVPointers) : PtrState :=
  kvps.foldl mapifyStepPtr { m := [], prefixSet := [], heap := heap }

/-- Lines 136-139 of `mapify`, on pointers: the recursive calls run one after
the other on the same memory. -/
def mapifyFinishPtr (recur : Heap → KVPointers → Map × Heap) (st : PtrState) : Map × Heap :=
  st.prefixSet.foldl
    (fun acc e =>
      let r := recur acc.2 e.2
      (GoMap.set acc.1 e.1 (Item.Subtree r.1), r.2))
    (st.m, st.heap)

/-- The body of `mapify` on pointers, with the recursion depth bounded by the
fuel: the map that is returned and the memory after the call. -/
def mapifyFuelPtr : Nat → Heap → KVPointers → Map × Heap
  | 0, heap, _ => ([], heap)
  | fuel + 1, heap, kvps => mapifyFinishPtr (mapifyFuelPtr fuel) (mapifyLoopPtr heap kvps)

/-- Go `mapify` on pointers: the map that is returned and the memory after the
call. -/
def mapifyPtr (heap : Heap) (kvps : KVPointers) : Map × Heap :=
  mapifyFuelPtr (maxSeps (kvps.map heap.read) + 1) heap kvps

/-- The memory `h1` comes from the memory `h` by assignments to keys that only
replace a key that has a separator by one of its suffixes. -/
def KeysShortened (h h1 : Heap) : Prop :=
  h1.length = h.length ∧
  ∀ a, (h1.read a).Value = (h.read a).Value ∧ (h1.read a).Key <:+ (h.read a).Key ∧
    ((h1.read a).Key ≠ (h.read a).Key → sep ∈ (h.read a).Key)

/-- The pair behind a pointer after one iteration of the loop on it: the
shortened pair when the iteration appends it to an accumulator, else the pair
with the leading separators of its key trimmed. -/
def afterStep (kvp : KVPair) : KVPair :=
  match branchOf kvp with
  | some (_, q) => q
  | none => { kvp with Key := TrimLeft kvp.Key [sep] }

/-- The pointers appended to the accumulator of segment `s`, in input order. -/
def groupPtr (heap : Heap) (kvps : KVPointers) (s : Key) : KVPointers :=
  kvps.filter (fun a => (branchOf (heap.read a)).map Prod.fst = some s)

/-- The accumulators of pointers read in a memory: every pointer is replaced by
the pair it points to. -/
def deref (heap : Heap) (ps : List (Key × KVPointers)) : List (Key × KVPairs) :=
  ps.map (fun e => (e.1, e.2.map heap.read))

/-- The accumulators of pointers are in order: the keys increase, no pointer
stands twice in an accumulator or in two accumulators, and every pointer
belongs to `seen`. -/
def GroupsDistinct (ps : List (Key × KVPointers)) (seen : KVPointers) : Prop :=
  GoMap.Sorted ps ∧
  (∀ e ∈ ps, e.2.Nodup ∧ ∀ a ∈ e.2, a ∈ seen) ∧
  ps.Pairwise (fun e1 e2 => ∀ a ∈ e1.2, a ∉ e2.2)

/-! ## Go maps: lookup, update, extensionality -/

namespace GoMap
variable {α : Type}


theorem get_set (m : List (Key × α)) (k k' : Key) (v : α) :
    get (set m k v) k' = if k' = k then some v else get m k' := by
  induction m with
  | nil => simp [GoMap.set, GoMap.get]
  | cons e rest ih =>
    obtain ⟨k0, v0⟩ := e
    simp only [GoMap.set]
    by_cases h1 : k = k0
    · subst h1
      by_cases h3 : k' = k <;> simp [GoMap.get, h3]
    · simp only [h1, if_false]
      by_cases h2 : k < k0
      · simp only [h2, if_true, GoMap.get]
      · simp only [h2, if_false, GoMap.get, ih]
        by_cases h3 : k' = k0
        · subst h3
          have : ¬ k' = k := fun e => h1 e.symm
          simp [this]
        · simp [h3]

theorem mem_keys_set (m : List (Key × α)) (k x : Key) (v : α) :
    x ∈ keys (set m k v) ↔ x = k ∨ x ∈ keys m := by
  induction m with
  | nil => simp [GoMap.set, GoMap.keys]
  | cons e rest ih =>
    obtain ⟨k0, v0⟩ := e
    simp only [GoMap.set]
    by_cases h1 : k = k0
    · subst h1
      simp only [GoMap.keys, if_true, List.map_cons, List.mem_cons]
      tauto
    · simp only [h1, if_false]
      by_cases h2 : k < k0
      · simp only [h2, GoMap.keys, if_true, List.map_cons, List.mem_cons]
      · simp only [h2, if_false]
        simp only [GoMap.keys, List.map_cons, List.mem_cons] at ih ⊢
        rw [ih]
        tauto

theorem sorted_set (m : List (Key × α)) (k : Key) (v : α) (h : Sorted m) :
    Sorted (set m k v) := by
  induction m with
  | nil => simp [GoMap.set, GoMap.keys, GoMap.Sorted]
  | cons e rest ih =>
    obtain ⟨k0, v0⟩ := e
    have hp := List.pairwise_cons.mp h
    simp only [GoMap.set]
    by_cases h1 : k = k0
    · subst h1
      rw [if_pos rfl]
      exact h
    · simp only [h1, if_false]
      by_cases h2 : k < k0
      · simp only [h2, if_true]
        refine List.pairwise_cons.mpr ⟨?_, h⟩
        intro x hx
        rcases List.mem_cons.mp hx with hx | hx
        · rw [hx]; exact h2
        · exact lt_trans h2 (hp.1 x hx)
      · simp only [h2, if_false]
        refine List.pairwise_cons.mpr ⟨?_, ih hp.2⟩
        intro x hx
        rcases (mem_keys_set rest k x v).mp hx with hx | hx
        · rw [hx]
          rcases lt_trichotomy k k0 with h3 | h3 | h3
          · exact absurd h3 h2
          · exact absurd h3 h1
          · exact h3
        · exact hp.1 x hx

theorem get_eq_none_iff (m : List (Key × α)) (k : Key) :
    get m k = none ↔ k ∉ keys m := by
  induction m with
  | nil => simp [GoMap.get, GoMap.keys]
  | cons e rest ih =>
    obtain ⟨k0, v0⟩ := e
    by_cases h : k = k0
    · simp only [GoMap.get, GoMap.keys, h, if_true, List.map_cons, List.mem_cons, true_or,
        not_true_eq_false, iff_false]
      exact fun e => Option.noConfusion e
    · simp only [GoMap.get, h, if_false, ih]
      simp only [GoMap.keys, List.map_cons, List.mem_cons, h, false_or]

theorem mem_keys_iff (m : List (Key × α)) (k : Key) :
    k ∈ keys m ↔ ∃ v, get m k = some v := by
  rw [← Option.isSome_iff_exists, ← Option.ne_none_iff_isSome, Ne, get_eq_none_iff, not_not]

theorem get_of_mem (m : List (Key × α)) (hs : Sorted m) (k : Key) (v : α)
    (h : (k, v) ∈ m) : get m k = some v := by
  induction m with
  | nil => simp at h
  | cons e rest ih =>
    obtain ⟨k0, v0⟩ := e
    have hp := List.pairwise_cons.mp hs
    rcases List.mem_cons.mp h with h | h
    · simp only [Prod.mk.injEq] at h
      simp [GoMap.get, h.1, h.2]
    · have hk : k ∈ keys rest := List.mem_map.mpr ⟨(k, v), h, rfl⟩
      have hne : k ≠ k0 := fun e => lt_irrefl k0 (e ▸ hp.1 k hk)
      simp only [GoMap.get, hne, if_false]
      exact ih hp.2 h

theorem mem_of_get (m : List (Key × α)) (k : Key) (v : α)
    (h : get m k = some v) : (k, v) ∈ m := by
  induction m with
  | nil => simp [GoMap.get] at h
  | cons e rest ih =>
    obtain ⟨k0, v0⟩ := e
    by_cases hk : k = k0
    · simp only [GoMap.get, hk, if_true, Option.some.injEq] at h
      simp [hk, h]
    · simp only [GoMap.get, hk, if_false] at h
      exact List.mem_cons_of_mem _ (ih h)

theorem ext (m₁ m₂ : List (Key × α)) (h₁ : Sorted m₁) (h₂ : Sorted m₂)
    (h : ∀ k, get m₁ k = get m₂ k) : m₁ = m₂ := by
  induction m₁ generalizing m₂ with
  | nil =>
    cases m₂ with
    | nil => rfl
    | cons e rest =>
      have := h e.1
      simp [GoMap.get] at this
  | cons e rest ih =>
    obtain ⟨k0, v0⟩ := e
    cases m₂ with
    | nil =>
      have := h k0
      simp [GoMap.get] at this
    | cons e' rest' =>
      obtain ⟨k1, v1⟩ := e'
      have hp₁ := List.pairwise_cons.mp h₁
      have hp₂ := List.pairwise_cons.mp h₂
      have hk : k0 = k1 := by
        by_contra hne
        have a := h k0
        have b := h k1
        simp only [GoMap.get, if_true, hne, if_false] at a
        have hne' : ¬ k1 = k0 := fun e => hne e.symm
        simp only [GoMap.get, if_true, hne', if_false] at b
        have m0 : k0 ∈ keys rest' := (mem_keys_iff _ _).mpr ⟨v0, a.symm⟩
        have m1 : k1 ∈ keys rest := (mem_keys_iff _ _).mpr ⟨v1, b⟩
        exact lt_irrefl k0 (lt_trans (hp₁.1 k1 m1) (hp₂.1 k0 m0))
      subst hk
      have hv : v0 = v1 := by
        have a := h k0
        simpa [GoMap.get] using a
      subst hv
      have hrest : rest = rest' := by
        apply ih rest' hp₁.2 hp₂.2
        intro k
        by_cases hk : k = k0
        · subst hk
          have n1 : get rest k = none := (get_eq_none_iff _ _).mpr (fun hm => lt_irrefl k (hp₁.1 k hm))
          have n2 : get rest' k = none := (get_eq_none_iff _ _).mpr (fun hm => lt_irrefl k (hp₂.1 k hm))
          rw [n1, n2]
        · have a := h k
          simpa [GoMap.get, hk] using a
      rw [hrest]

theorem set_set (m : List (Key × α)) (k : Key) (v w : α) :
    set (set m k v) k w = set m k w := by
  induction m with
  | nil => simp only [GoMap.set, if_true]
  | cons e rest ih =>
    obtain ⟨k0, v0⟩ := e
    simp only [GoMap.set]
    by_cases h1 : k = k0
    · simp only [h1, if_true, GoMap.set]
    · simp only [h1, if_false]
      by_cases h2 : k < k0
      · simp only [h2, if_true, GoMap.set]
      · simp only [h2, if_false, GoMap.set, h1, ih]

theorem nodup_keys (m : List (Key × α)) (h : Sorted m) : (keys m).Nodup := by
  unfold Sorted at h
  exact h.imp (fun hab => ne_of_lt hab)

end GoMap

/-! ## The loop of `mapify` -/

theorem TrimLeft_cons_sep (r : Key) : TrimLeft (sep :: r) [sep] = TrimLeft r [sep] := by
  simp [TrimLeft, List.dropWhile]

theorem TrimLeft_cons_ne (c : Char) (r : Key) (h : c ≠ sep) :
    TrimLeft (c :: r) [sep] = c :: r := by
  simp [TrimLeft, List.dropWhile, h]

theorem TrimLeft_nil : TrimLeft [] [sep] = [] := rfl

theorem TrimLeft_head (key : Key) : ∀ r, TrimLeft key [sep] ≠ sep :: r := by
  induction key with
  | nil => intro r h; simp [TrimLeft] at h
  | cons c t ih =>
    intro r
    by_cases hc : c = sep
    · subst hc; rw [TrimLeft_cons_sep]; exact ih r
    · rw [TrimLeft_cons_ne c t hc]
      intro h
      exact hc (List.cons.inj h).1

theorem IndexByte_eq_zero_iff (key : Key) :
    IndexByte key sep = 0 ↔ ∃ r, key = sep :: r := by
  cases key with
  | nil => simp [IndexByte]
  | cons c t =>
    by_cases hc : c = sep
    · subst hc
      simp [IndexByte]
    · have hc' : ¬ sep = c := fun e => hc e.symm
      constructor
      · intro h
        unfold IndexByte at h
        split_ifs at h with hm
        rw [List.indexOf_cons_ne _ hc] at h
        simp at h
        omega
      · rintro ⟨r, hr⟩
        exact absurd (List.cons.inj hr).1 hc

theorem IndexByte_of_not_mem (t : Key) (h : sep ∉ t) : IndexByte t sep = -1 := by
  simp [IndexByte, h]

theorem IndexByte_of_mem (t : Key) (h : sep ∈ t) : IndexByte t sep = (t.indexOf sep : Int) := by
  simp [IndexByte, h]

theorem mapifyInsert_key (st : LoopState) (t v : List Char) :
    mapifyInsert st ⟨t, v⟩ (IndexByte t sep) =
      if sep ∈ t then
        (st.1, GoMap.set st.2 (t.take (t.indexOf sep))
          ((GoMap.get st.2 (t.take (t.indexOf sep))).getD [] ++ [⟨t.drop (t.indexOf sep + 1), v⟩]))
      else (GoMap.set st.1 t (Item.Leaf v), st.2) := by
  by_cases h : sep ∈ t
  · rw [if_pos h, IndexByte_of_mem t h]
    unfold mapifyInsert
    have h1 : ¬ ((t.indexOf sep : Int) = -1) := by omega
    rw [if_neg h1]
    simp only [sliceTo, sliceFrom]
    have e1 : ((t.indexOf sep : Int)).toNat = t.indexOf sep := by simp
    have e2 : ((t.indexOf sep : Int) + 1).toNat = t.indexOf sep + 1 := by omega
    rw [e1, e2]
    cases hg : GoMap.get st.2 (List.take (List.indexOf sep t) t) with
    | none =>
      simp only [Option.isNone_none, if_true, GoMap.get_set, Option.getD_some, List.nil_append,
        Option.getD_none]
      rw [GoMap.set_set]
    | some g =>
      simp only [Option.isNone_some, Bool.false_eq_true, if_false, hg, Option.getD_some]
  · rw [if_neg h, IndexByte_of_not_mem t h]
    simp [mapifyInsert]

theorem branchOf_some_leafOf (kvp : KVPair) (e : Key × KVPair) (h : branchOf kvp = some e) :
    leafOf kvp = none := by
  unfold branchOf at h
  unfold leafOf
  by_cases hm : sep ∈ TrimLeft kvp.Key [sep]
  · simp only [hm, if_true]
  · simp only [hm, if_false] at h
    exact Option.noConfusion h

theorem mapifyStep_eq (st : LoopState) (kvp : KVPair) :
    mapifyStep st kvp =
      match branchOf kvp with
      | some (s, q) => (st.1, GoMap.set st.2 s ((GoMap.get st.2 s).getD [] ++ [q]))
      | none =>
        match leafOf kvp with
        | some q => (GoMap.set st.1 q.Key (Item.Leaf q.Value), st.2)
        | none => st := by
  obtain ⟨key, v⟩ := kvp
  have main : ∀ t : Key, (t = [] → key = []) → TrimLeft key [sep] = t →
      mapifyInsert st ⟨t, v⟩ (IndexByte t sep) =
      match branchOf ⟨key, v⟩ with
      | some (s, q) => (st.1, GoMap.set st.2 s ((GoMap.get st.2 s).getD [] ++ [q]))
      | none =>
        match leafOf ⟨key, v⟩ with
        | some q => (GoMap.set st.1 q.Key (Item.Leaf q.Value), st.2)
        | none => st := by
    intro t ht htrim
    rw [mapifyInsert_key]
    unfold branchOf leafOf
    simp only [htrim]
    by_cases hm : sep ∈ t
    · simp only [hm, if_true]
    · simp only [hm, if_false]
      have : ¬ (t = [] ∧ key ≠ []) := fun h => h.2 (ht h.1)
      simp only [this, if_false]
  unfold mapifyStep
  simp only
  by_cases h0 : IndexByte key sep = 0
  · rw [if_pos h0]
    by_cases hlen : (TrimLeft key [sep]).length = 0
    · rw [if_pos hlen]
      have ht : TrimLeft key [sep] = [] := List.length_eq_zero.mp hlen
      obtain ⟨r, hr⟩ := (IndexByte_eq_zero_iff key).mp h0
      have hne : key ≠ [] := by rw [hr]; exact List.cons_ne_nil _ _
      unfold branchOf leafOf
      simp only [ht, List.not_mem_nil, if_false, hne, ne_eq, not_false_eq_true, and_self, if_true]
    · rw [if_neg hlen]
      apply main
      · intro h; exact absurd (by rw [h]; rfl) hlen
      · rfl
  · rw [if_neg h0]
    apply main
    · intro h; exact h
    · cases key with
      | nil => rfl
      | cons c r =>
        apply TrimLeft_cons_ne
        intro hc
        exact h0 ((IndexByte_eq_zero_iff _).mpr ⟨r, by rw [hc]⟩)

theorem loop_get_leaf (l : KVPairs) (st : LoopState) (k : Key) :
    GoMap.get (l.foldl mapifyStep st).1 k =
      match leafValue l k with
      | some v => some (Item.Leaf v)
      | none => GoMap.get st.1 k := by
  induction l generalizing st with
  | nil => rfl
  | cons p rest ih =>
    rw [List.foldl_cons, ih]
    simp only [leafValue]
    cases hr : leafValue rest k with
    | some v => rfl
    | none =>
      simp only
      rw [mapifyStep_eq]
      cases hb : branchOf p with
      | some e =>
        rw [branchOf_some_leafOf p e hb]
      | none =>
        simp only
        cases hl : leafOf p with
        | none => rfl
        | some q =>
          simp only [GoMap.get_set]
          by_cases hk : q.Key = k
          · simp [hk]
          · have : ¬ k = q.Key := fun e => hk e.symm
            simp [hk, this]

theorem loop_get_group (l : KVPairs) (st : LoopState) (s : Key) :
    GoMap.get (l.foldl mapifyStep st).2 s =
      if group l s = [] then GoMap.get st.2 s
      else some ((GoMap.get st.2 s).getD [] ++ group l s) := by
  induction l generalizing st with
  | nil => simp [group]
  | cons p rest ih =>
    rw [List.foldl_cons, ih]
    have hg : group (p :: rest) s =
        (match branchOf p with
          | some (s1, q) => if s1 = s then [q] else []
          | none => []) ++ group rest s := by
      unfold group
      rw [List.filterMap_cons]
      cases hb : branchOf p with
      | none => rfl
      | some e =>
        obtain ⟨s1, q⟩ := e
        by_cases hs : s1 = s <;> simp [hs]
    rw [hg, mapifyStep_eq]
    cases hb : branchOf p with
    | none =>
      simp only [List.nil_append]
      cases hl : leafOf p <;> rfl
    | some e =>
      obtain ⟨s1, q⟩ := e
      simp only [GoMap.get_set]
      by_cases hs : s1 = s
      · subst hs
        simp only [if_true, Option.getD_some, List.append_assoc, List.singleton_append,
          List.cons_append, List.nil_append]
        by_cases hr : group rest s1 = []
        · simp [hr]
        · simp [hr]
      · have : ¬ s = s1 := fun e => hs e.symm
        simp only [this, hs, if_false, List.nil_append]

theorem loop_sorted (l : KVPairs) (st : LoopState)
    (h1 : GoMap.Sorted st.1) (h2 : GoMap.Sorted st.2) :
    GoMap.Sorted (l.foldl mapifyStep st).1 ∧ GoMap.Sorted (l.foldl mapifyStep st).2 := by
  induction l generalizing st with
  | nil => exact ⟨h1, h2⟩
  | cons p rest ih =>
    rw [List.foldl_cons]
    apply ih
    · rw [mapifyStep_eq]
      cases hb : branchOf p with
      | some e => exact h1
      | none =>
        cases hl : leafOf p with
        | none => exact h1
        | some q => exact GoMap.sorted_set _ _ _ h1
    · rw [mapifyStep_eq]
      cases hb : branchOf p with
      | some e => exact GoMap.sorted_set _ _ _ h2
      | none =>
        cases hl : leafOf p with
        | none => exact h2
        | some q => exact h2

theorem sorted_nil {α : Type} : GoMap.Sorted ([] : List (Key × α)) := List.Pairwise.nil

theorem mapifyLoop_get_leaf (l : KVPairs) (k : Key) :
    GoMap.get (mapifyLoop l).1 k = (leafValue l k).map Item.Leaf := by
  unfold mapifyLoop
  rw [loop_get_leaf]
  cases leafValue l k <;> rfl

theorem mapifyLoop_get_group (l : KVPairs) (s : Key) :
    GoMap.get (mapifyLoop l).2 s = if group l s = [] then none else some (group l s) := by
  unfold mapifyLoop
  rw [loop_get_group]
  simp [GoMap.get]

theorem mapifyLoop_sorted (l : KVPairs) :
    GoMap.Sorted (mapifyLoop l).1 ∧ GoMap.Sorted (mapifyLoop l).2 :=
  loop_sorted l ([], []) sorted_nil sorted_nil

/-! ## The recursion of `mapify` -/

theorem finish_get (recur : KVPairs → Map) (ps : List (Key × KVPairs)) (m : Map)
    (hs : GoMap.Sorted ps) (s : Key) :
    GoMap.get (mapifyFinish recur (m, ps)) s =
      match GoMap.get ps s with
      | some g => some (Item.Subtree (recur g))
      | none => GoMap.get m s := by
  unfold mapifyFinish
  simp only
  induction ps generalizing m with
  | nil => rfl
  | cons e rest ih =>
    obtain ⟨k0, g0⟩ := e
    have hp := List.pairwise_cons.mp hs
    rw [List.foldl_cons, ih _ hp.2]
    simp only [GoMap.get]
    by_cases hk : s = k0
    · subst hk
      have hn : GoMap.get rest s = none :=
        (GoMap.get_eq_none_iff _ _).mpr (fun hm => lt_irrefl s (hp.1 s hm))
      simp [hn, GoMap.get_set]
    · simp only [hk, if_false, GoMap.get_set]

theorem finish_sorted (recur : KVPairs → Map) (ps : List (Key × KVPairs)) (m : Map)
    (hm : GoMap.Sorted m) : GoMap.Sorted (mapifyFinish recur (m, ps)) := by
  unfold mapifyFinish
  simp only
  induction ps generalizing m with
  | nil => exact hm
  | cons e rest ih =>
    rw [List.foldl_cons]
    exact ih _ (GoMap.sorted_set _ _ _ hm)

theorem finish_congr (f g : KVPairs → Map) (st : LoopState)
    (h : ∀ e ∈ st.2, f e.2 = g e.2) : mapifyFinish f st = mapifyFinish g st := by
  obtain ⟨m, ps⟩ := st
  unfold mapifyFinish
  simp only at h ⊢
  induction ps generalizing m with
  | nil => rfl
  | cons e rest ih =>
    rw [List.foldl_cons, List.foldl_cons, h e (List.mem_cons_self _ _)]
    exact ih _ (fun e he => h e (List.mem_cons_of_mem _ he))

theorem le_maxSeps (l : KVPairs) (p : KVPair) (h : p ∈ l) : sepCount p.Key ≤ maxSeps l := by
  induction l with
  | nil => simp at h
  | cons q rest ih =>
    simp only [maxSeps, List.foldr_cons]
    rcases List.mem_cons.mp h with h | h
    · subst h; exact le_max_left _ _
    · exact le_trans (ih h) (le_max_right _ _)

theorem maxSeps_le (l : KVPairs) (n : Nat) (h : ∀ p ∈ l, sepCount p.Key ≤ n) :
    maxSeps l ≤ n := by
  induction l with
  | nil => simp [maxSeps]
  | cons q rest ih =>
    simp only [maxSeps, List.foldr_cons]
    exact max_le (h q (List.mem_cons_self _ _)) (ih (fun p hp => h p (List.mem_cons_of_mem _ hp)))

theorem sepCount_TrimLeft (key : Key) : sepCount (TrimLeft key [sep]) ≤ sepCount key := by
  unfold sepCount TrimLeft
  exact (List.dropWhile_sublist _).count_le _

theorem take_drop_indexOf (t : Key) (h : sep ∈ t) :
    t = t.take (t.indexOf sep) ++ sep :: t.drop (t.indexOf sep + 1) := by
  induction t with
  | nil => simp at h
  | cons c r ih =>
    by_cases hc : c = sep
    · subst hc
      simp
    · have hr : sep ∈ r := by
        rcases List.mem_cons.mp h with h | h
        · exact absurd h.symm hc
        · exact h
      rw [List.indexOf_cons_ne _ hc]
      simp only [List.take_succ_cons, List.drop_succ_cons, List.cons_append]
      rw [← ih hr]

theorem not_mem_take_indexOf (t : Key) : sep ∉ t.take (t.indexOf sep) := by
  induction t with
  | nil => simp
  | cons c r ih =>
    by_cases hc : c = sep
    · subst hc
      simp
    · rw [List.indexOf_cons_ne _ hc]
      simp only [List.take_succ_cons, List.mem_cons, not_or]
      exact ⟨fun e => hc e.symm, ih⟩

theorem branchOf_sepCount (p : KVPair) (s : Key) (q : KVPair) (h : branchOf p = some (s, q)) :
    sepCount q.Key + 1 ≤ sepCount p.Key := by
  unfold branchOf at h
  by_cases hm : sep ∈ TrimLeft p.Key [sep]
  · simp only [hm, if_true, Option.some.injEq, Prod.mk.injEq] at h
    refine le_trans ?_ (sepCount_TrimLeft p.Key)
    have hd := take_drop_indexOf _ hm
    rw [← h.2]
    simp only
    conv_rhs => rw [hd]
    unfold sepCount
    rw [List.count_append, List.count_cons_self]
    omega
  · simp only [hm, if_false] at h
    exact Option.noConfusion h

theorem mem_group (l : KVPairs) (s : Key) (q : KVPair) :
    q ∈ group l s ↔ ∃ p ∈ l, branchOf p = some (s, q) := by
  unfold group
  rw [List.mem_filterMap]
  constructor
  · rintro ⟨p, hp, h⟩
    refine ⟨p, hp, ?_⟩
    cases hb : branchOf p with
    | none => rw [hb] at h; exact Option.noConfusion h
    | some e =>
      obtain ⟨s1, q1⟩ := e
      rw [hb] at h
      simp only at h
      by_cases hs : s1 = s
      · simp only [hs, if_true, Option.some.injEq] at h
        rw [hs, h]
      · simp only [hs, if_false] at h
        exact Option.noConfusion h
  · rintro ⟨p, hp, h⟩
    exact ⟨p, hp, by rw [h]; simp⟩

theorem maxSeps_group (l : KVPairs) (s : Key) : maxSeps (group l s) + 1 ≤ maxSeps l ∨ group l s = [] := by
  by_cases hg : group l s = []
  · exact Or.inr hg
  · left
    obtain ⟨q0, hq0⟩ := List.exists_mem_of_ne_nil _ hg
    obtain ⟨p0, hp0, hb0⟩ := (mem_group l s q0).mp hq0
    have h1 : 1 ≤ maxSeps l := le_trans (by have := branchOf_sepCount p0 s q0 hb0; omega) (le_maxSeps l p0 hp0)
    have : maxSeps (group l s) ≤ maxSeps l - 1 := by
      apply maxSeps_le
      intro q hq
      obtain ⟨p, hp, hb⟩ := (mem_group l s q).mp hq
      have := branchOf_sepCount p s q hb
      have := le_maxSeps l p hp
      omega
    omega

theorem mem_loop_group (l : KVPairs) (e : Key × KVPairs) (h : e ∈ (mapifyLoop l).2) :
    e.2 = group l e.1 ∧ group l e.1 ≠ [] := by
  have hg := GoMap.get_of_mem _ (mapifyLoop_sorted l).2 e.1 e.2 h
  rw [mapifyLoop_get_group] at hg
  by_cases hn : group l e.1 = []
  · simp [hn] at hg
  · simp only [hn, if_false, Option.some.injEq] at hg
    exact ⟨hg.symm, hn⟩

theorem mapifyFuel_eq (n m : Nat) (l : KVPairs) (hn : maxSeps l < n) (hm : maxSeps l < m) :
    mapifyFuel n l = mapifyFuel m l := by
  induction n generalizing m l with
  | zero => omega
  | succ n ih =>
    cases m with
    | zero => omega
    | succ m =>
      simp only [mapifyFuel]
      apply finish_congr
      intro e he
      obtain ⟨h1, h2⟩ := mem_loop_group l e he
      rw [h1]
      rcases maxSeps_group l e.1 with h | h
      · exact ih m _ (by omega) (by omega)
      · exact absurd h h2

/-- Any fuel above the largest number of separators of a key gives the result
of `mapify`. -/
theorem mapifyFuel_stable (n : Nat) (l : KVPairs) (hn : maxSeps l < n) :
    mapifyFuel n l = mapify l :=
  mapifyFuel_eq n (maxSeps l + 1) l hn (Nat.lt_succ_self _)

/-- The recursion equation of the source: `mapify` runs the loop and stores the
recursive `mapify` of every accumulator. -/
theorem mapify_unfold (l : KVPairs) :
    mapify l = mapifyFinish mapify (mapifyLoop l) := by
  unfold mapify
  simp only [mapifyFuel]
  apply finish_congr
  intro e he
  obtain ⟨h1, h2⟩ := mem_loop_group l e he
  rw [h1]
  rcases maxSeps_group l e.1 with h | h
  · exact mapifyFuel_eq (maxSeps l) (maxSeps (group l e.1) + 1) (group l e.1) (by omega) (by omega)
  · exact absurd h h2

theorem mapify_sorted (l : KVPairs) : GoMap.Sorted (mapify l) := by
  rw [mapify_unfold]
  exact finish_sorted _ _ _ (mapifyLoop_sorted l).1

/-- The entry of `mapify l` under the key `s`: the subtree of the pairs that
continue past `s` when there are any, else the last leaf stored under `s`. -/
theorem get_mapify (l : KVPairs) (s : Key) :
    GoMap.get (mapify l) s =
      if group l s = [] then (leafValue l s).map Item.Leaf
      else some (Item.Subtree (mapify (group l s))) := by
  rw [mapify_unfold]
  have := finish_get mapify (mapifyLoop l).2 (mapifyLoop l).1 (mapifyLoop_sorted l).2 s
  rw [show ((mapifyLoop l).1, (mapifyLoop l).2) = mapifyLoop l from rfl] at this
  rw [this, mapifyLoop_get_group, mapifyLoop_get_leaf]
  by_cases hg : group l s = []
  · simp [hg]
  · simp [hg]

/-! ## The grouping equation -/

theorem indexOf_first_sep (s x : Key) (hs : sep ∉ s) :
    (s ++ sep :: x).indexOf sep = s.length := by
  rw [List.indexOf_append_of_not_mem hs, List.indexOf_cons_self]
  rfl

theorem branchOf_of_eq (p : KVPair) (s x : Key) (hs : sep ∉ s)
    (h : TrimLeft p.Key [sep] = s ++ sep :: x) : branchOf p = some (s, ⟨x, p.Value⟩) := by
  unfold branchOf
  simp only [h]
  have hm : sep ∈ s ++ sep :: x := by simp
  rw [if_pos hm, indexOf_first_sep s x hs]
  simp

theorem eq_of_branchOf (p : KVPair) (s : Key) (q : KVPair) (h : branchOf p = some (s, q)) :
    TrimLeft p.Key [sep] = s ++ sep :: q.Key ∧ sep ∉ s ∧ s ≠ [] ∧ q.Value = p.Value := by
  unfold branchOf at h
  by_cases hm : sep ∈ TrimLeft p.Key [sep]
  · simp only [hm, if_true, Option.some.injEq, Prod.mk.injEq] at h
    obtain ⟨h1, h2⟩ := h
    have hd := take_drop_indexOf _ hm
    rw [h1] at hd
    rw [← h2]
    simp only
    refine ⟨hd, ?_, ?_, trivial⟩
    · rw [← h1]; exact not_mem_take_indexOf _
    · intro hnil
      rw [hnil] at hd
      exact TrimLeft_head p.Key _ hd
  · simp only [hm, if_false] at h
    exact Option.noConfusion h

theorem group_eq_subKVPairs (l : KVPairs) (s : Key) (hs : sep ∉ s) :
    group l s = subKVPairs l s := by
  unfold group subKVPairs
  congr 1
  funext p
  simp only [List.isPrefixOf_iff_prefix]
  by_cases hp : (s ++ [sep]) <+: TrimLeft p.Key [sep]
  · rw [if_pos hp]
    obtain ⟨x, hx⟩ := hp
    have hx' : TrimLeft p.Key [sep] = s ++ sep :: x := by rw [← hx]; simp
    rw [branchOf_of_eq p s x hs hx']
    simp only [if_true, hx']
    congr 2
    simp
  · rw [if_neg hp]
    cases hb : branchOf p with
    | none => rfl
    | some e =>
      obtain ⟨s1, q⟩ := e
      simp only
      by_cases hs1 : s1 = s
      · exfalso
        apply hp
        obtain ⟨h1, _⟩ := eq_of_branchOf p s1 q hb
        rw [h1, hs1]
        exact ⟨q.Key, by simp⟩
      · simp only [hs1, if_false]

theorem get_mapify_of_continues (l : KVPairs) (s : Key) (hs : sep ∉ s)
    (h : ∃ p ∈ l, ∃ rest, TrimLeft p.Key [sep] = s ++ sep :: rest) :
    GoMap.get (mapify l) s = some (Item.Subtree (mapify (subKVPairs l s))) := by
  obtain ⟨p, hp, rest, hr⟩ := h
  have hg : group l s ≠ [] := by
    intro hnil
    have : (⟨rest, p.Value⟩ : KVPair) ∈ group l s :=
      (mem_group l s _).mpr ⟨p, hp, branchOf_of_eq p s rest hs hr⟩
    rw [hnil] at this
    exact List.not_mem_nil _ this
  rw [get_mapify, if_neg hg, group_eq_subKVPairs l s hs]

/-- C1. Recursive grouping equation: when some pair of `l` has a key that,
leading separators removed, is `s` followed by a separator (`s` without
separator), `mapify l` maps `s` to the subtree `mapify (subKVPairs l s)`, the
materialization of the remainders of exactly those pairs, in input order. -/
theorem mapify_grouping_equation (l : KVPairs) (s : Key) (hs : sep ∉ s)
    (h : ∃ p ∈ l, ∃ rest, TrimLeft p.Key [sep] = s ++ sep :: rest) :
    GoMap.get (mapify l) s = some (Item.Subtree (mapify (subKVPairs l s))) :=
  get_mapify_of_continues l s hs h

/-- Witness of C1 on the example of the specification. -/
theorem mapify_grouping_equation_witness :
    sep ∉ "a".toList ∧
    (∃ p ∈ [kv "a/b" "v1", kv "a/c" "v2"], ∃ rest,
      TrimLeft p.Key [sep] = "a".toList ++ sep :: rest) ∧
    subKVPairs [kv "a/b" "v1", kv "a/c" "v2"] "a".toList = [kv "b" "v1", kv "c" "v2"] ∧
    GoMap.get (mapify [kv "a/b" "v1", kv "a/c" "v2"]) "a".toList =
      some (Item.Subtree (mapify (subKVPairs [kv "a/b" "v1", kv "a/c" "v2"] "a".toList))) :=
  ⟨by decide, ⟨kv "a/b" "v1", by decide, "b".toList, by decide⟩, by decide,
    mapify_grouping_equation [kv "a/b" "v1", kv "a/c" "v2"] "a".toList (by decide)
      ⟨kv "a/b" "v1", by decide, "b".toList, by decide⟩⟩

/-! ## Keys without separator -/

theorem lastValue_cons (p : KVPair) (rest : KVPairs) (k : Key) :
    lastValue (p :: rest) k =
      match lastValue rest k with
      | some v => some v
      | none => if p.Key = k then some p.Value else none := by
  unfold lastValue
  rw [List.reverse_cons, List.find?_append]
  cases h : List.find? (fun kvp => decide (kvp.Key = k)) rest.reverse with
  | some q => simp
  | none =>
    by_cases hk : p.Key = k <;> simp [List.find?, hk]

theorem lastValue_some (l : KVPairs) (k : Key) (v : List Char) (h : lastValue l k = some v) :
    ∃ p ∈ l, p.Key = k ∧ p.Value = v := by
  induction l with
  | nil => simp [lastValue] at h
  | cons p rest ih =>
    rw [lastValue_cons] at h
    cases hr : lastValue rest k with
    | some w =>
      rw [hr] at h
      simp only [Option.some.injEq] at h
      obtain ⟨q, hq, hq2⟩ := ih (by rw [hr, h])
      exact ⟨q, List.mem_cons_of_mem _ hq, hq2⟩
    | none =>
      rw [hr] at h
      simp only at h
      by_cases hk : p.Key = k
      · simp only [hk, if_true, Option.some.injEq] at h
        exact ⟨p, List.mem_cons_self _ _, hk, h⟩
      · simp only [hk, if_false] at h
        exact Option.noConfusion h

theorem lastValue_isSome (l : KVPairs) (k : Key) (h : ∃ p ∈ l, p.Key = k) :
    ∃ v, lastValue l k = some v := by
  induction l with
  | nil => obtain ⟨p, hp, _⟩ := h; simp at hp
  | cons p rest ih =>
    rw [lastValue_cons]
    cases hr : lastValue rest k with
    | some w => exact ⟨w, rfl⟩
    | none =>
      obtain ⟨q, hq, hqk⟩ := h
      rcases List.mem_cons.mp hq with hq | hq
      · subst hq
        exact ⟨q.Value, by simp [hqk]⟩
      · obtain ⟨v, hv⟩ := ih ⟨q, hq, hqk⟩
        rw [hr] at hv
        exact Option.noConfusion hv

theorem leafValue_some (l : KVPairs) (k : Key) (v : List Char) (h : leafValue l k = some v) :
    ∃ p ∈ l, leafOf p = some ⟨k, v⟩ := by
  induction l with
  | nil => simp [leafValue] at h
  | cons p rest ih =>
    simp only [leafValue] at h
    cases hr : leafValue rest k with
    | some w =>
      rw [hr] at h
      simp only [Option.some.injEq] at h
      obtain ⟨q, hq, hq2⟩ := ih (by rw [hr, h])
      exact ⟨q, List.mem_cons_of_mem _ hq, hq2⟩
    | none =>
      rw [hr] at h
      simp only at h
      cases hl : leafOf p with
      | none => rw [hl] at h; exact Option.noConfusion h
      | some q =>
        rw [hl] at h
        simp only at h
        by_cases hk : q.Key = k
        · simp only [hk, if_true, Option.some.injEq] at h
          refine ⟨p, List.mem_cons_self _ _, ?_⟩
          rw [hl, ← hk, ← h]
        · simp only [hk, if_false] at h
          exact Option.noConfusion h

theorem TrimLeft_of_head (key : Key) (h : ∀ r, key ≠ sep :: r) : TrimLeft key [sep] = key := by
  cases key with
  | nil => rfl
  | cons c r =>
    apply TrimLeft_cons_ne
    intro hc
    exact h r (by rw [hc])

theorem head_of_no_sep (key : Key) (h : sep ∉ key) : ∀ r, key ≠ sep :: r := by
  intro r hr
  apply h
  rw [hr]
  exact List.mem_cons_self _ _

theorem leafOf_of_no_sep (p : KVPair) (h : sep ∉ p.Key) : leafOf p = some p := by
  unfold leafOf
  have ht := TrimLeft_of_head p.Key (head_of_no_sep p.Key h)
  simp only [ht, h, if_false]
  have : ¬ (p.Key = [] ∧ p.Key ≠ []) := fun hh => hh.2 hh.1
  simp only [this, if_false]

theorem leafOf_of_sep (p : KVPair) (hh : ∀ r, p.Key ≠ sep :: r) (h : sep ∈ p.Key) :
    leafOf p = none := by
  unfold leafOf
  have ht := TrimLeft_of_head p.Key hh
  simp only [ht, h, if_true]

theorem branchOf_of_no_sep (p : KVPair) (h : sep ∉ p.Key) : branchOf p = none := by
  unfold branchOf
  have ht := TrimLeft_of_head p.Key (head_of_no_sep p.Key h)
  simp only [ht, h, if_false]

theorem leafValue_eq_lastValue (l : KVPairs) (k : Key) (hk : sep ∉ k)
    (hh : ∀ p ∈ l, ∀ r, p.Key ≠ sep :: r) : leafValue l k = lastValue l k := by
  induction l with
  | nil => rfl
  | cons p rest ih =>
    rw [lastValue_cons, leafValue, ih (fun q hq => hh q (List.mem_cons_of_mem _ hq))]
    cases hr : lastValue rest k with
    | some w => rfl
    | none =>
      simp only
      by_cases hs : sep ∈ p.Key
      · rw [leafOf_of_sep p (hh p (List.mem_cons_self _ _)) hs]
        have : ¬ p.Key = k := fun e => hk (e ▸ hs)
        simp only [this, if_false]
      · rw [leafOf_of_no_sep p hs]

theorem group_of_flat (l : KVPairs) (h : ∀ p ∈ l, sep ∉ p.Key) (s : Key) : group l s = [] := by
  apply List.eq_nil_iff_forall_not_mem.mpr
  intro q hq
  obtain ⟨p, hp, hb⟩ := (mem_group l s q).mp hq
  rw [branchOf_of_no_sep p (h p hp)] at hb
  exact Option.noConfusion hb

theorem get_mapify_flat (l : KVPairs) (h : ∀ p ∈ l, sep ∉ p.Key) (k : Key) :
    GoMap.get (mapify l) k = (lastValue l k).map Item.Leaf := by
  rw [get_mapify, if_pos (group_of_flat l h k)]
  by_cases hk : sep ∈ k
  · have h1 : leafValue l k = none := by
      cases hv : leafValue l k with
      | none => rfl
      | some v =>
        obtain ⟨p, hp, hl⟩ := leafValue_some l k v hv
        rw [leafOf_of_no_sep p (h p hp)] at hl
        simp only [Option.some.injEq] at hl
        exact absurd (by rw [hl]; exact hk) (h p hp)
    have h2 : lastValue l k = none := by
      cases hv : lastValue l k with
      | none => rfl
      | some v =>
        obtain ⟨p, hp, hpk, _⟩ := lastValue_some l k v hv
        exact absurd (hpk ▸ hk) (h p hp)
    rw [h1, h2]
  · rw [leafValue_eq_lastValue l k hk (fun p hp => head_of_no_sep p.Key (h p hp))]

theorem mapify_nil : mapify [] = [] := rfl

/-- C2. For an input whose keys contain no separator, the keys of `mapify l`
are exactly the keys of `l`, each once, and every key is mapped to the leaf of
the value of the last pair that carries it; `mapify` of the empty sequence is
the empty map. -/
theorem mapify_flat_keys (l : KVPairs) (h : ∀ p ∈ l, sep ∉ p.Key) :
    (∀ k, k ∈ GoMap.keys (mapify l) ↔ ∃ p ∈ l, p.Key = k) ∧
    (GoMap.keys (mapify l)).Nodup ∧
    (∀ k, GoMap.get (mapify l) k = (lastValue l k).map Item.Leaf) ∧
    mapify [] = [] := by
  refine ⟨?_, GoMap.nodup_keys _ (mapify_sorted l), get_mapify_flat l h, mapify_nil⟩
  intro k
  rw [GoMap.mem_keys_iff]
  constructor
  · rintro ⟨i, hi⟩
    rw [get_mapify_flat l h] at hi
    cases hv : lastValue l k with
    | none => rw [hv] at hi; exact Option.noConfusion hi
    | some v =>
      obtain ⟨p, hp, hpk, _⟩ := lastValue_some l k v hv
      exact ⟨p, hp, hpk⟩
  · intro hp
    obtain ⟨v, hv⟩ := lastValue_isSome l k hp
    exact ⟨Item.Leaf v, by rw [get_mapify_flat l h, hv]; rfl⟩

/-- Witness of C2: two pairs share the key `x`, the later value is kept. -/
theorem mapify_flat_keys_witness :
    (∀ p ∈ [kv "x" "v1", kv "y" "v2", kv "x" "v3"], sep ∉ p.Key) ∧
    mapify [kv "x" "v1", kv "y" "v2", kv "x" "v3"] =
      [("x".toList, Item.Leaf "v3".toList), ("y".toList, Item.Leaf "v2".toList)] ∧
    ((∀ k, k ∈ GoMap.keys (mapify [kv "x" "v1", kv "y" "v2", kv "x" "v3"]) ↔
        ∃ p ∈ [kv "x" "v1", kv "y" "v2", kv "x" "v3"], p.Key = k) ∧
      (GoMap.keys (mapify [kv "x" "v1", kv "y" "v2", kv "x" "v3"])).Nodup ∧
      (∀ k, GoMap.get (mapify [kv "x" "v1", kv "y" "v2", kv "x" "v3"]) k =
        (lastValue [kv "x" "v1", kv "y" "v2", kv "x" "v3"] k).map Item.Leaf) ∧
      mapify [] = []) :=
  ⟨by decide, by decide,
    mapify_flat_keys [kv "x" "v1", kv "y" "v2", kv "x" "v3"] (by decide)⟩

/-! ## The tree mirrors the slash structure of well-formed keys -/

theorem group_cons (p : KVPair) (rest : KVPairs) (s : Key) :
    group (p :: rest) s =
      (match branchOf p with
        | some (s1, q) => if s1 = s then [q] else []
        | none => []) ++ group rest s := by
  unfold group
  rw [List.filterMap_cons]
  cases hb : branchOf p with
  | none => rfl
  | some e =>
    obtain ⟨s1, q⟩ := e
    by_cases hs : s1 = s <;> simp [hs]

theorem head_of_head? (key : Key) (h : key.head? ≠ some sep) : ∀ r, key ≠ sep :: r := by
  intro r hr
  apply h
  rw [hr]
  rfl

theorem wellFormedKey_head {key : Key} (h : WellFormedKey key) : ∀ r, key ≠ sep :: r :=
  head_of_head? key h.2.1

theorem lastValue_group (l : KVPairs) (s x : Key) (hs : sep ∉ s)
    (hh : ∀ p ∈ l, ∀ r, p.Key ≠ sep :: r) :
    lastValue (group l s) x = lastValue l (s ++ sep :: x) := by
  induction l with
  | nil => rfl
  | cons p rest ih =>
    have ih' := ih (fun q hq => hh q (List.mem_cons_of_mem _ hq))
    have ht := TrimLeft_of_head p.Key (hh p (List.mem_cons_self _ _))
    rw [group_cons, lastValue_cons]
    cases hb : branchOf p with
    | none =>
      simp only [List.nil_append, ih']
      have : ¬ p.Key = s ++ sep :: x := by
        intro e
        rw [branchOf_of_eq p s x hs (by rw [ht, e])] at hb
        exact Option.noConfusion hb
      simp only [this, if_false]
      cases lastValue rest (s ++ sep :: x) <;> rfl
    | some e =>
      obtain ⟨s1, q⟩ := e
      obtain ⟨h1, h2, h3, h4⟩ := eq_of_branchOf p s1 q hb
      rw [ht] at h1
      simp only
      by_cases hs1 : s1 = s
      · subst hs1
        simp only [if_true, List.singleton_append]
        rw [lastValue_cons, ih']
        have : (q.Key = x) ↔ (p.Key = s1 ++ sep :: x) := by
          rw [h1]
          constructor
          · intro e; rw [e]
          · intro e
            have := List.append_cancel_left e
            exact (List.cons.inj this).2
        by_cases hx : q.Key = x
        · simp only [hx, if_true, this.mp hx, h4]
        · have hx' : ¬ p.Key = s1 ++ sep :: x := fun e => hx (this.mpr e)
          simp only [hx, hx', if_false]
      · simp only [hs1, if_false, List.nil_append, ih']
        have : ¬ p.Key = s ++ sep :: x := by
          intro e
          rw [branchOf_of_eq p s x hs (by rw [ht, e])] at hb
          simp only [Option.some.injEq, Prod.mk.injEq] at hb
          exact hs1 hb.1.symm
        simp only [this, if_false]
        cases lastValue rest (s ++ sep :: x) <;> rfl

theorem mem_group_of_head (l : KVPairs) (s : Key) (q : KVPair)
    (hh : ∀ p ∈ l, ∀ r, p.Key ≠ sep :: r) (hq : q ∈ group l s) :
    ∃ p ∈ l, p.Key = s ++ sep :: q.Key ∧ sep ∉ s ∧ s ≠ [] ∧ q.Value = p.Value := by
  obtain ⟨p, hp, hb⟩ := (mem_group l s q).mp hq
  obtain ⟨h1, h2, h3, h4⟩ := eq_of_branchOf p s q hb
  rw [TrimLeft_of_head p.Key (hh p hp)] at h1
  exact ⟨p, hp, h1, h2, h3, h4⟩

theorem wellFormed_rest (s x : Key) (h : WellFormedKey (s ++ sep :: x)) : WellFormedKey x := by
  obtain ⟨_, _, h3, h4⟩ := h
  have hx : x ≠ [] := by
    intro e
    apply h3
    rw [e]
    simp
  refine ⟨hx, ?_, ?_, ?_⟩
  · intro hh
    apply h4
    cases x with
    | nil => exact absurd rfl hx
    | cons c r =>
      simp only [List.head?_cons, Option.some.injEq] at hh
      rw [hh]
      exact ⟨s, r, by simp⟩
  · intro hl
    apply h3
    rw [List.getLast?_append_of_ne_nil _ (List.cons_ne_nil _ _)]
    cases x with
    | nil => exact absurd rfl hx
    | cons c r => rw [List.getLast?_cons_cons]; exact hl
  · intro hi
    apply h4
    exact hi.trans ⟨s ++ [sep], [], by simp⟩

theorem joinPath_single (s : Key) : joinPath [s] = s := by
  simp [joinPath, List.intercalate]

theorem joinPath_cons_cons (s s2 : Key) (rest : List Key) :
    joinPath (s :: s2 :: rest) = s ++ sep :: joinPath (s2 :: rest) := by
  simp [joinPath, List.intercalate]

theorem lookupPath_mapify (segs : List Key) (hne : segs ≠ []) (hseg : ∀ s ∈ segs, s ≠ [] ∧ sep ∉ s)
    (v : List Char) (l : KVPairs) (hwf : ∀ p ∈ l, WellFormedKey p.Key)
    (hpre : ∀ p ∈ l, ∀ q ∈ l, ¬ (p.Key ++ [sep]) <+: q.Key) :
    lookupPath (mapify l) segs = some (Item.Leaf v) ↔ lastValue l (joinPath segs) = some v := by
  induction segs generalizing l with
  | nil => exact absurd rfl hne
  | cons s tail ih =>
    have hh : ∀ p ∈ l, ∀ r, p.Key ≠ sep :: r := fun p hp => wellFormedKey_head (hwf p hp)
    have hs := (hseg s (List.mem_cons_self _ _)).2
    cases tail with
    | nil =>
      rw [joinPath_single]
      simp only [lookupPath]
      rw [get_mapify]
      constructor
      · intro h
        by_cases hg : group l s = []
        · rw [if_pos hg, leafValue_eq_lastValue l s hs hh] at h
          cases hv : lastValue l s with
          | none => rw [hv] at h; exact Option.noConfusion h
          | some w =>
            rw [hv] at h
            simp only [Option.map_some'] at h
            injection h with h
            injection h with h
            rw [h]
        · rw [if_neg hg] at h
          injection h with h
          exact Item.noConfusion h
      · intro h
        obtain ⟨p, hp, hpk, _⟩ := lastValue_some l s v h
        have hg : group l s = [] := by
          apply List.eq_nil_iff_forall_not_mem.mpr
          intro q hq
          obtain ⟨p2, hp2, hk2, _⟩ := mem_group_of_head l s q hh hq
          apply hpre p hp p2 hp2
          rw [hpk, hk2]
          exact ⟨q.Key, by simp⟩
        rw [if_pos hg, leafValue_eq_lastValue l s hs hh, h]
        rfl
    | cons s2 rest =>
      rw [joinPath_cons_cons]
      simp only [lookupPath]
      rw [get_mapify]
      by_cases hg : group l s = []
      · rw [if_pos hg]
        constructor
        · intro h
          cases hv : leafValue l s with
          | none => rw [hv] at h; exact Option.noConfusion h
          | some w => rw [hv] at h; exact Option.noConfusion h
        · intro h
          exfalso
          obtain ⟨p, hp, hpk, hpv⟩ := lastValue_some l _ v h
          have : (⟨joinPath (s2 :: rest), p.Value⟩ : KVPair) ∈ group l s :=
            (mem_group l s _).mpr ⟨p, hp, branchOf_of_eq p s _ hs
              (by rw [TrimLeft_of_head p.Key (hh p hp), hpk])⟩
          rw [hg] at this
          exact List.not_mem_nil _ this
      · rw [if_neg hg]
        simp only
        rw [← lastValue_group l s _ hs hh]
        apply ih (List.cons_ne_nil _ _)
          (fun x hx => hseg x (List.mem_cons_of_mem _ hx))
        · intro q hq
          obtain ⟨p, hp, hk, _⟩ := mem_group_of_head l s q hh hq
          exact wellFormed_rest s q.Key (hk ▸ hwf p hp)
        · intro q1 hq1 q2 hq2 hpfx
          obtain ⟨p1, hp1, hk1, _⟩ := mem_group_of_head l s q1 hh hq1
          obtain ⟨p2, hp2, hk2, _⟩ := mem_group_of_head l s q2 hh hq2
          apply hpre p1 hp1 p2 hp2
          obtain ⟨x, hx⟩ := hpfx
          rw [hk1, hk2, ← hx]
          exact ⟨x, by simp⟩

/-- C3. The tree mirrors the slash structure of the keys: when every key is
well-formed and no key is a proper segment-wise prefix (`k ++ "/"`) of another
key, descending `mapify l` along the segments `s1 .. s(n-1)` and looking up
`sn` yields `Leaf v` exactly when `s1/.../sn` is a key of `l` and `v` is the
value of the last pair with that key. -/
theorem mapify_mirrors_keys (l : KVPairs) (hwf : ∀ p ∈ l, WellFormedKey p.Key)
    (hpre : ∀ p ∈ l, ∀ q ∈ l, ¬ (p.Key ++ [sep]) <+: q.Key)
    (segs : List Key) (hne : segs ≠ []) (hseg : ∀ s ∈ segs, s ≠ [] ∧ sep ∉ s)
    (v : List Char) :
    lookupPath (mapify l) segs = some (Item.Leaf v) ↔
      ((∃ p ∈ l, p.Key = joinPath segs) ∧ lastValue l (joinPath segs) = some v) := by
  rw [lookupPath_mapify segs hne hseg v l hwf hpre]
  constructor
  · intro h
    obtain ⟨p, hp, hpk, _⟩ := lastValue_some l _ v h
    exact ⟨⟨p, hp, hpk⟩, h⟩
  · exact fun h => h.2

/-- Witness of C3 on the depth-3 example of the specification. -/
theorem mapify_mirrors_keys_witness :
    (∀ p ∈ [kv "a/b/c" "v1", kv "a/d" "v2"], WellFormedKey p.Key) ∧
    (∀ p ∈ [kv "a/b/c" "v1", kv "a/d" "v2"], ∀ q ∈ [kv "a/b/c" "v1", kv "a/d" "v2"],
      ¬ (p.Key ++ [sep]) <+: q.Key) ∧
    lookupPath (mapify [kv "a/b/c" "v1", kv "a/d" "v2"]) ["a".toList, "b".toList, "c".toList] =
      some (Item.Leaf "v1".toList) ∧
    (lookupPath (mapify [kv "a/b/c" "v1", kv "a/d" "v2"]) ["a".toList, "b".toList, "c".toList] =
        some (Item.Leaf "v1".toList) ↔
      ((∃ p ∈ [kv "a/b/c" "v1", kv "a/d" "v2"],
          p.Key = joinPath ["a".toList, "b".toList, "c".toList]) ∧
        lastValue [kv "a/b/c" "v1", kv "a/d" "v2"] (joinPath ["a".toList, "b".toList, "c".toList]) =
          some "v1".toList)) :=
  ⟨by decide, by decide, by decide,
    mapify_mirrors_keys [kv "a/b/c" "v1", kv "a/d" "v2"] (by decide) (by decide)
      ["a".toList, "b".toList, "c".toList] (by decide) (by decide) "v1".toList⟩

/-! ## A key that is both a leaf and a branch -/

/-- C4, counterexample. The pair with key exactly `a` comes last, after a pair
that continues past `a`; `mapify` maps `a` to the subtree, not to the leaf of
the later pair. -/
theorem mapify_later_leaf_loses :
    GoMap.get (mapify [kv "a/b" "1", kv "a" "2"]) "a".toList =
      some (Item.Subtree [("b".toList, Item.Leaf "1".toList)]) ∧
    GoMap.get (mapify [kv "a/b" "1", kv "a" "2"]) "a".toList ≠
      some (Item.Leaf "2".toList) := by
  decide

/-- C4, amended. When `l` contains both a pair whose key is exactly the
segment `s` and a pair whose key continues past `s`, `mapify l` maps `s` to the
subtree of the continuing pairs, wherever the pairs stand in the sequence. -/
theorem mapify_conflict_subtree (l : KVPairs) (s : Key) (hne : s ≠ []) (hs : sep ∉ s)
    (_hleaf : ∃ p ∈ l, p.Key = s)
    (hcont : ∃ q ∈ l, ∃ rest, q.Key = s ++ sep :: rest) :
    GoMap.get (mapify l) s = some (Item.Subtree (mapify (subKVPairs l s))) := by
  obtain ⟨q, hq, rest, hr⟩ := hcont
  apply get_mapify_of_continues l s hs
  refine ⟨q, hq, rest, ?_⟩
  rw [TrimLeft_of_head q.Key, hr]
  intro r hqr
  rw [hr] at hqr
  cases s with
  | nil => exact hne rfl
  | cons c t =>
    apply hs
    rw [(List.cons.inj hqr).1]
    exact List.mem_cons_self _ _

/-- Witness of C4 (amended), the pair with key exactly `a` being the later
one. -/
theorem mapify_conflict_subtree_witness :
    "a".toList ≠ [] ∧ sep ∉ "a".toList ∧
    (∃ p ∈ [kv "a/b" "1", kv "a" "2"], p.Key = "a".toList) ∧
    (∃ q ∈ [kv "a/b" "1", kv "a" "2"], ∃ rest, q.Key = "a".toList ++ sep :: rest) ∧
    GoMap.get (mapify [kv "a/b" "1", kv "a" "2"]) "a".toList =
      some (Item.Subtree (mapify (subKVPairs [kv "a/b" "1", kv "a" "2"] "a".toList))) :=
  ⟨by decide, by decide, ⟨kv "a" "2", by decide, by decide⟩,
    ⟨kv "a/b" "1", by decide, "b".toList, by decide⟩,
    mapify_conflict_subtree [kv "a/b" "1", kv "a" "2"] "a".toList (by decide) (by decide)
      ⟨kv "a" "2", by decide, by decide⟩ ⟨kv "a/b" "1", by decide, "b".toList, by decide⟩⟩

/-! ## Order independence -/

theorem splitOn_cons_sep (r : Key) : (sep :: r).splitOn sep = [] :: r.splitOn sep := by
  have := List.splitOnP_first (· == sep) [] (by simp) sep (by simp) r
  simp only [List.nil_append] at this
  exact this

theorem splitOn_first (s x : Key) (hs : sep ∉ s) :
    (s ++ sep :: x).splitOn sep = s :: x.splitOn sep := by
  have := List.splitOnP_first (· == sep) s
    (by intro c hc; simp only [beq_iff_eq]; intro e; exact hs (e ▸ hc)) sep (by simp) x
  simpa [List.splitOn] using this

theorem splitOn_single (t : Key) (ht : sep ∉ t) : t.splitOn sep = [t] := by
  have := List.splitOnP_eq_single (· == sep) t
    (by intro c hc; simp only [beq_iff_eq]; intro e; exact ht (e ▸ hc))
  simpa [List.splitOn] using this

theorem segments_cons_sep (r : Key) : segments (sep :: r) = segments r := by
  unfold segments
  rw [splitOn_cons_sep]
  simp

theorem segments_TrimLeft (key : Key) : segments (TrimLeft key [sep]) = segments key := by
  induction key with
  | nil => rfl
  | cons c r ih =>
    by_cases hc : c = sep
    · subst hc
      rw [TrimLeft_cons_sep, ih, segments_cons_sep]
    · rw [TrimLeft_cons_ne c r hc]

theorem segments_first (s x : Key) (hs : sep ∉ s) (hne : s ≠ []) :
    segments (s ++ sep :: x) = s :: segments x := by
  unfold segments
  rw [splitOn_first s x hs]
  simp [hne]

theorem segments_single (t : Key) (ht : sep ∉ t) :
    segments t = if t = [] then [] else [t] := by
  unfold segments
  rw [splitOn_single t ht]
  by_cases h : t = [] <;> simp [h]

theorem eq_of_leafOf (p q : KVPair) (h : leafOf p = some q) :
    TrimLeft p.Key [sep] = q.Key ∧ sep ∉ q.Key ∧ q.Value = p.Value := by
  unfold leafOf at h
  by_cases hm : sep ∈ TrimLeft p.Key [sep]
  · simp only [hm, if_true] at h
    exact Option.noConfusion h
  · simp only [hm, if_false] at h
    by_cases hd : TrimLeft p.Key [sep] = [] ∧ p.Key ≠ []
    · simp only [hd, ne_eq, not_false_eq_true, and_self, if_true] at h
      exact Option.noConfusion h
    · simp only [hd, if_false, Option.some.injEq] at h
      rw [← h]
      exact ⟨rfl, hm, rfl⟩

theorem leafValue_isSome (l : KVPairs) (k : Key) (h : ∃ p ∈ l, ∃ v, leafOf p = some ⟨k, v⟩) :
    ∃ w, leafValue l k = some w := by
  induction l with
  | nil => obtain ⟨p, hp, _⟩ := h; simp at hp
  | cons p rest ih =>
    simp only [leafValue]
    cases hr : leafValue rest k with
    | some w => exact ⟨w, rfl⟩
    | none =>
      obtain ⟨q, hq, v, hv⟩ := h
      rcases List.mem_cons.mp hq with hq | hq
      · subst hq
        exact ⟨v, by simp [hv]⟩
      · obtain ⟨w, hw⟩ := ih ⟨q, hq, v, hv⟩
        rw [hr] at hw
        exact Option.noConfusion hw

theorem leafValue_eq_some_iff (l : KVPairs) (k : Key)
    (hU : ∀ p ∈ l, ∀ q ∈ l, ∀ v w, leafOf p = some ⟨k, v⟩ → leafOf q = some ⟨k, w⟩ → v = w)
    (v : List Char) :
    leafValue l k = some v ↔ ∃ p ∈ l, leafOf p = some ⟨k, v⟩ := by
  constructor
  · exact leafValue_some l k v
  · rintro ⟨p, hp, hl⟩
    obtain ⟨w, hw⟩ := leafValue_isSome l k ⟨p, hp, v, hl⟩
    obtain ⟨q, hq, hql⟩ := leafValue_some l k w hw
    rw [hw, hU q hq p hp w v hql hl]

theorem leaf_values_agree (l : KVPairs)
    (hval : ∀ p ∈ l, ∀ q ∈ l, segments p.Key = segments q.Key → p.Value = q.Value) (k : Key) :
    ∀ p ∈ l, ∀ q ∈ l, ∀ v w, leafOf p = some ⟨k, v⟩ → leafOf q = some ⟨k, w⟩ → v = w := by
  intro p hp q hq v w h1 h2
  obtain ⟨a1, _, a3⟩ := eq_of_leafOf p _ h1
  obtain ⟨b1, _, b3⟩ := eq_of_leafOf q _ h2
  simp only at a1 a3 b1 b3
  rw [a3, b3]
  apply hval p hp q hq
  rw [← segments_TrimLeft p.Key, ← segments_TrimLeft q.Key, a1, b1]

theorem group_values_agree (l : KVPairs)
    (hval : ∀ p ∈ l, ∀ q ∈ l, segments p.Key = segments q.Key → p.Value = q.Value) (s : Key) :
    ∀ p ∈ group l s, ∀ q ∈ group l s, segments p.Key = segments q.Key → p.Value = q.Value := by
  intro q1 hq1 q2 hq2 hseg
  obtain ⟨p1, hp1, hb1⟩ := (mem_group l s q1).mp hq1
  obtain ⟨p2, hp2, hb2⟩ := (mem_group l s q2).mp hq2
  obtain ⟨a1, a2, a3, a4⟩ := eq_of_branchOf p1 s q1 hb1
  obtain ⟨b1, _, _, b4⟩ := eq_of_branchOf p2 s q2 hb2
  rw [a4, b4]
  apply hval p1 hp1 p2 hp2
  rw [← segments_TrimLeft p1.Key, ← segments_TrimLeft p2.Key, a1, b1,
    segments_first s _ a2 a3, segments_first s _ a2 a3, hseg]

theorem mapify_perm_aux (n : Nat) (l l' : KVPairs) (hn : maxSeps l < n) (hp : l'.Perm l)
    (hval : ∀ p ∈ l, ∀ q ∈ l, segments p.Key = segments q.Key → p.Value = q.Value) :
    mapify l' = mapify l := by
  induction n generalizing l l' with
  | zero => omega
  | succ n ih =>
    apply GoMap.ext _ _ (mapify_sorted l') (mapify_sorted l)
    intro s
    rw [get_mapify, get_mapify]
    have hg : (group l' s).Perm (group l s) := by
      unfold group
      exact hp.filterMap _
    by_cases hnil : group l s = []
    · have hnil' : group l' s = [] := by
        rw [hnil] at hg
        exact List.perm_nil.mp hg
      rw [if_pos hnil, if_pos hnil']
      congr 1
      have hU := leaf_values_agree l hval s
      have hU' : ∀ p ∈ l', ∀ q ∈ l', ∀ v w,
          leafOf p = some ⟨s, v⟩ → leafOf q = some ⟨s, w⟩ → v = w :=
        fun p hp1 q hq1 => hU p (hp.mem_iff.mp hp1) q (hp.mem_iff.mp hq1)
      apply Option.ext
      intro v
      rw [Option.mem_def, Option.mem_def, leafValue_eq_some_iff l' s hU',
        leafValue_eq_some_iff l s hU]
      constructor
      · rintro ⟨p, hp1, h⟩; exact ⟨p, hp.mem_iff.mp hp1, h⟩
      · rintro ⟨p, hp1, h⟩; exact ⟨p, hp.mem_iff.mpr hp1, h⟩
    · have hnil' : group l' s ≠ [] := by
        intro e
        rw [e] at hg
        exact hnil (List.perm_nil.mp hg.symm)
      rw [if_neg hnil, if_neg hnil']
      congr 2
      apply ih (group l s) (group l' s) _ hg (group_values_agree l hval s)
      rcases maxSeps_group l s with h | h
      · omega
      · exact absurd h hnil

/-- C5, counterexample. Two pairs share the key `a` with different values; no
key is a path prefix of another, and exchanging the two pairs changes the
result. -/
theorem mapify_order_matters :
    (∀ p ∈ [kv "a" "1", kv "a" "2"], ∀ q ∈ [kv "a" "1", kv "a" "2"],
      ¬ (p.Key ++ [sep]) <+: q.Key) ∧
    [kv "a" "2", kv "a" "1"].Perm [kv "a" "1", kv "a" "2"] ∧
    mapify [kv "a" "2", kv "a" "1"] ≠ mapify [kv "a" "1", kv "a" "2"] :=
  ⟨by decide, List.Perm.swap _ _ _, by decide⟩

/-- C5, amended. Order independence: when no key of `l` is a proper path
prefix of another key, and any two pairs of `l` whose keys have the same
non-empty segments carry the same value, every permutation of `l` has the same
`mapify` as `l`. -/
theorem mapify_perm (l l' : KVPairs)
    (_hconf : ∀ p ∈ l, ∀ q ∈ l, ¬ (p.Key ++ [sep]) <+: q.Key)
    (hval : ∀ p ∈ l, ∀ q ∈ l, segments p.Key = segments q.Key → p.Value = q.Value)
    (hp : l'.Perm l) :
    mapify l' = mapify l :=
  mapify_perm_aux (maxSeps l + 1) l l' (Nat.lt_succ_self _) hp hval

/-- Witness of C5 (amended). -/
theorem mapify_perm_witness :
    (∀ p ∈ [kv "a/b" "1", kv "c" "2", kv "a/d" "3"],
      ∀ q ∈ [kv "a/b" "1", kv "c" "2", kv "a/d" "3"], ¬ (p.Key ++ [sep]) <+: q.Key) ∧
    (∀ p ∈ [kv "a/b" "1", kv "c" "2", kv "a/d" "3"],
      ∀ q ∈ [kv "a/b" "1", kv "c" "2", kv "a/d" "3"],
        segments p.Key = segments q.Key → p.Value = q.Value) ∧
    [kv "c" "2", kv "a/b" "1", kv "a/d" "3"].Perm [kv "a/b" "1", kv "c" "2", kv "a/d" "3"] ∧
    mapify [kv "c" "2", kv "a/b" "1", kv "a/d" "3"] =
      mapify [kv "a/b" "1", kv "c" "2", kv "a/d" "3"] :=
  ⟨by decide, by decide, List.Perm.swap _ _ _,
    mapify_perm [kv "a/b" "1", kv "c" "2", kv "a/d" "3"] [kv "c" "2", kv "a/b" "1", kv "a/d" "3"]
      (by decide) (by decide) (List.Perm.swap _ _ _)⟩

/-! ## Induction on trees -/


theorem depth_lt_of_mem (m : Map) (k : Key) (m1 : Map) (h : (k, Item.Subtree m1) ∈ m) :
    depthEntries m1 < depthEntries m := by
  induction m with
  | nil => simp at h
  | cons e rest ih =>
    obtain ⟨k0, i0⟩ := e
    simp only [depthEntries]
    rcases List.mem_cons.mp h with h | h
    · simp only [Prod.mk.injEq] at h
      rw [← h.2]
      simp only [Item.depth]
      omega
    · have := ih h
      omega

/-- Induction on maps: a property holds of every map if it holds of a map
whenever it holds of all its subtrees. -/
theorem map_induction (P : Map → Prop)
    (h : ∀ m, (∀ k m1, (k, Item.Subtree m1) ∈ m → P m1) → P m) : ∀ m, P m := by
  have : ∀ n m, depthEntries m < n → P m := by
    intro n
    induction n with
    | zero => intro m hm; omega
    | succ n ih =>
      intro m hm
      apply h
      intro k m1 hk
      apply ih
      have := depth_lt_of_mem m k m1 hk
      omega
  intro m
  exact this _ m (Nat.lt_succ_self _)

/-! ## Round trip through `flatten` -/

theorem noEmpty_of_mem (m : Map) (k : Key) (m1 : Map) (h : entriesNoEmptySubtree m = true)
    (hk : (k, Item.Subtree m1) ∈ m) : m1 ≠ [] ∧ entriesNoEmptySubtree m1 = true := by
  induction m with
  | nil => simp at hk
  | cons e rest ih =>
    obtain ⟨k0, i0⟩ := e
    simp only [entriesNoEmptySubtree, Bool.and_eq_true] at h
    rcases List.mem_cons.mp hk with hk | hk
    · simp only [Prod.mk.injEq] at hk
      have h1 := h.1
      rw [← hk.2] at h1
      simp only [Item.noEmptySubtree, Bool.and_eq_true, Bool.not_eq_true',
        List.isEmpty_eq_false] at h1
      exact h1
    · exact ih h.2 hk

theorem shaped_of_mem (m : Map) (k : Key) (i : Item) (h : entriesShaped m) (hk : (k, i) ∈ m) :
    sep ∉ k ∧ ((∃ v, i = Item.Leaf v) ∨ k ≠ []) ∧ i.Shaped := by
  induction m with
  | nil => simp at hk
  | cons e rest ih =>
    obtain ⟨k0, i0⟩ := e
    simp only [entriesShaped] at h
    rcases List.mem_cons.mp hk with hk | hk
    · simp only [Prod.mk.injEq] at hk
      rw [hk.1, hk.2]
      exact ⟨h.1, h.2.1, h.2.2.1⟩
    · exact ih h.2.2.2 hk

theorem shaped_of_forall (m : Map)
    (h : ∀ k i, (k, i) ∈ m → sep ∉ k ∧ ((∃ v, i = Item.Leaf v) ∨ k ≠ []) ∧ i.Shaped) :
    entriesShaped m := by
  induction m with
  | nil => simp only [entriesShaped]
  | cons e rest ih =>
    obtain ⟨k0, i0⟩ := e
    simp only [entriesShaped]
    obtain ⟨a, b, c⟩ := h k0 i0 (List.mem_cons_self _ _)
    exact ⟨a, b, c, ih (fun k i hk => h k i (List.mem_cons_of_mem _ hk))⟩

theorem group_append (a b : KVPairs) (s : Key) : group (a ++ b) s = group a s ++ group b s := by
  unfold group
  exact List.filterMap_append _ _ _

theorem leafValue_append (a b : KVPairs) (k : Key) :
    leafValue (a ++ b) k =
      match leafValue b k with
      | some v => some v
      | none => leafValue a k := by
  induction a with
  | nil =>
    simp only [List.nil_append, leafValue]
    cases leafValue b k <;> rfl
  | cons p rest ih =>
    have e : ∀ l : KVPairs, leafValue (p :: l) k =
        match leafValue l k with
        | some v => some v
        | none =>
          match leafOf p with
          | some q => if q.Key = k then some q.Value else none
          | none => none := fun _ => rfl
    rw [List.cons_append, e, ih, e]
    cases leafValue b k with
    | some v => rfl
    | none => rfl

theorem leafValue_none (l : KVPairs) (k : Key) (h : ∀ p ∈ l, leafOf p = none) :
    leafValue l k = none := by
  cases hv : leafValue l k with
  | none => rfl
  | some v =>
    obtain ⟨p, hp, hl⟩ := leafValue_some l k v hv
    rw [h p hp] at hl
    exact Option.noConfusion hl

theorem group_nil_of_forall (l : KVPairs) (s : Key) (h : ∀ p ∈ l, ∀ q, branchOf p ≠ some (s, q)) :
    group l s = [] := by
  apply List.eq_nil_iff_forall_not_mem.mpr
  intro q hq
  obtain ⟨p, hp, hb⟩ := (mem_group l s q).mp hq
  exact h p hp q hb

theorem head_of_segment (k x : Key) (hk : sep ∉ k) (hne : k ≠ []) :
    ∀ r, k ++ sep :: x ≠ sep :: r := by
  intro r hr
  cases k with
  | nil => exact hne rfl
  | cons c t =>
    apply hk
    rw [(List.cons.inj hr).1]
    exact List.mem_cons_self _ _

theorem branchOf_join (k : Key) (q : KVPair) (hk : sep ∉ k) (hne : k ≠ []) :
    branchOf ⟨k ++ sep :: q.Key, q.Value⟩ = some (k, q) :=
  branchOf_of_eq ⟨k ++ sep :: q.Key, q.Value⟩ k q.Key hk
    (TrimLeft_of_head _ (head_of_segment k q.Key hk hne))

theorem group_flattenItem_leaf (k : Key) (v : List Char) (s : Key) (hk : sep ∉ k) :
    group (flattenItem k (Item.Leaf v)) s = [] := by
  simp only [flattenItem]
  apply group_nil_of_forall
  intro p hp q
  rw [List.mem_singleton.mp hp, branchOf_of_no_sep _ hk]
  exact fun e => Option.noConfusion e

theorem group_flattenItem_subtree (k : Key) (m1 : Map) (s : Key) (hk : sep ∉ k) (hne : k ≠ []) :
    group (flattenItem k (Item.Subtree m1)) s = if k = s then flattenEntries m1 else [] := by
  simp only [flattenItem]
  unfold group
  rw [List.filterMap_map]
  by_cases hks : k = s
  · rw [if_pos hks]
    subst hks
    have : ((fun kvp => match branchOf kvp with
          | some (s1, q) => if s1 = k then some q else none
          | none => none) ∘ fun q : KVPair => (⟨k ++ sep :: q.Key, q.Value⟩ : KVPair)) = some := by
      funext q
      simp only [Function.comp, branchOf_join k q hk hne, if_true]
    rw [this, List.filterMap_some]
  · rw [if_neg hks]
    apply List.eq_nil_iff_forall_not_mem.mpr
    intro q hq
    obtain ⟨p, _, h⟩ := List.mem_filterMap.mp hq
    simp only [Function.comp, branchOf_join k p hk hne, hks, if_false] at h
    exact Option.noConfusion h

theorem leafValue_flattenItem_leaf (k : Key) (v : List Char) (s : Key) (hk : sep ∉ k) :
    leafValue (flattenItem k (Item.Leaf v)) s = if k = s then some v else none := by
  simp only [flattenItem, leafValue, leafOf_of_no_sep ⟨k, v⟩ hk]

theorem leafValue_flattenItem_subtree (k : Key) (m1 : Map) (s : Key) (hk : sep ∉ k)
    (hne : k ≠ []) : leafValue (flattenItem k (Item.Subtree m1)) s = none := by
  simp only [flattenItem]
  apply leafValue_none
  intro p hp
  obtain ⟨q, _, hq⟩ := List.mem_map.mp hp
  rw [← hq]
  exact branchOf_some_leafOf _ _ (branchOf_join k q hk hne)

theorem get_none_of_sorted_cons (k : Key) (i : Item) (rest : Map)
    (h : GoMap.Sorted ((k, i) :: rest)) : GoMap.get rest k = none :=
  (GoMap.get_eq_none_iff _ _).mpr
    (fun hm => lt_irrefl k ((List.pairwise_cons.mp h).1 k hm))

theorem subtree_key_ne_nil (k : Key) (m1 : Map)
    (h : (∃ v, Item.Subtree m1 = Item.Leaf v) ∨ k ≠ []) : k ≠ [] := by
  rcases h with ⟨v, hv⟩ | h
  · exact Item.noConfusion hv
  · exact h

theorem group_flattenEntries (m : Map) (s : Key) (hs : GoMap.Sorted m) (hsh : entriesShaped m) :
    group (flattenEntries m) s =
      match GoMap.get m s with
      | some (Item.Subtree m1) => flattenEntries m1
      | _ => [] := by
  induction m with
  | nil => rfl
  | cons e rest ih =>
    obtain ⟨k, i⟩ := e
    simp only [entriesShaped] at hsh
    have hrest := ih (List.pairwise_cons.mp hs).2 hsh.2.2.2
    have hnone := get_none_of_sorted_cons k i rest hs
    simp only [flattenEntries, group_append, GoMap.get]
    by_cases hks : s = k
    · subst hks
      rw [hnone] at hrest
      simp only at hrest
      rw [hrest, List.append_nil, if_pos rfl]
      cases i with
      | Leaf v => exact group_flattenItem_leaf s v s hsh.1
      | Subtree m1 =>
        rw [group_flattenItem_subtree s m1 s hsh.1 (subtree_key_ne_nil s m1 hsh.2.1), if_pos rfl]
    · have hks' : ¬ k = s := fun e => hks e.symm
      rw [if_neg hks, hrest]
      cases i with
      | Leaf v => rw [group_flattenItem_leaf k v s hsh.1, List.nil_append]
      | Subtree m1 =>
        rw [group_flattenItem_subtree k m1 s hsh.1 (subtree_key_ne_nil k m1 hsh.2.1),
          if_neg hks', List.nil_append]

theorem leafValue_flattenEntries (m : Map) (s : Key) (hs : GoMap.Sorted m)
    (hsh : entriesShaped m) :
    leafValue (flattenEntries m) s =
      match GoMap.get m s with
      | some (Item.Leaf v) => some v
      | _ => none := by
  induction m with
  | nil => rfl
  | cons e rest ih =>
    obtain ⟨k, i⟩ := e
    simp only [entriesShaped] at hsh
    have hrest := ih (List.pairwise_cons.mp hs).2 hsh.2.2.2
    have hnone := get_none_of_sorted_cons k i rest hs
    simp only [flattenEntries, leafValue_append, GoMap.get]
    by_cases hks : s = k
    · subst hks
      rw [hnone] at hrest
      simp only at hrest
      rw [hrest, if_pos rfl]
      simp only
      cases i with
      | Leaf v => rw [leafValue_flattenItem_leaf s v s hsh.1, if_pos rfl]
      | Subtree m1 =>
        rw [leafValue_flattenItem_subtree s m1 s hsh.1 (subtree_key_ne_nil s m1 hsh.2.1)]
    · have hks' : ¬ k = s := fun e => hks e.symm
      rw [if_neg hks, hrest]
      have hitem : leafValue (flattenItem k i) s = none := by
        cases i with
        | Leaf v => rw [leafValue_flattenItem_leaf k v s hsh.1, if_neg hks']
        | Subtree m1 =>
          exact leafValue_flattenItem_subtree k m1 s hsh.1 (subtree_key_ne_nil k m1 hsh.2.1)
      rw [hitem]
      cases hg : GoMap.get rest s with
      | none => rfl
      | some j => cases j <;> rfl

theorem flattenEntries_ne_nil : ∀ m : Map, m ≠ [] → entriesNoEmptySubtree m = true →
    flattenEntries m ≠ [] := by
  apply map_induction
  intro m ih hne hno
  cases m with
  | nil => exact absurd rfl hne
  | cons e rest =>
    obtain ⟨k, i⟩ := e
    cases i with
    | Leaf v => simp [flattenEntries, flattenItem]
    | Subtree m1 =>
      obtain ⟨h1, h2⟩ := noEmpty_of_mem _ k m1 hno (List.mem_cons_self _ _)
      have := ih k m1 (List.mem_cons_self _ _) h1 h2
      simp [flattenEntries, flattenItem, this]

theorem mapify_flattenEntries : ∀ m : Map, GoMap.Sorted m → entriesShaped m →
    entriesNoEmptySubtree m = true → mapify (flattenEntries m) = m := by
  apply map_induction
  intro m ih hs hsh hno
  apply GoMap.ext _ _ (mapify_sorted _) hs
  intro s
  rw [get_mapify, group_flattenEntries m s hs hsh, leafValue_flattenEntries m s hs hsh]
  cases hg : GoMap.get m s with
  | none => simp
  | some i =>
    cases i with
    | Leaf v => simp
    | Subtree m1 =>
      have hmem := GoMap.mem_of_get m s _ hg
      obtain ⟨h1, h2⟩ := noEmpty_of_mem m s m1 hno hmem
      obtain ⟨_, _, h3⟩ := shaped_of_mem m s _ hsh hmem
      simp only [Item.Shaped] at h3
      simp only [flattenEntries_ne_nil m1 h1 h2, if_false]
      rw [ih s m1 hmem h3.1 h3.2 h2]

theorem mapify_shaped_aux (n : Nat) (l : KVPairs) (hn : maxSeps l < n) :
    entriesShaped (mapify l) := by
  induction n generalizing l with
  | zero => omega
  | succ n ih =>
    apply shaped_of_forall
    intro k i hk
    have hg := GoMap.get_of_mem _ (mapify_sorted l) k i hk
    rw [get_mapify] at hg
    by_cases hnil : group l k = []
    · rw [if_pos hnil] at hg
      cases hv : leafValue l k with
      | none => rw [hv] at hg; exact Option.noConfusion hg
      | some v =>
        rw [hv] at hg
        simp only [Option.map_some', Option.some.injEq] at hg
        obtain ⟨p, _, hl⟩ := leafValue_some l k v hv
        obtain ⟨_, h2, _⟩ := eq_of_leafOf p _ hl
        rw [← hg]
        exact ⟨h2, Or.inl ⟨v, rfl⟩, by simp only [Item.Shaped]⟩
    · rw [if_neg hnil] at hg
      simp only [Option.some.injEq] at hg
      obtain ⟨q, hq⟩ := List.exists_mem_of_ne_nil _ hnil
      obtain ⟨p, _, hb⟩ := (mem_group l k q).mp hq
      obtain ⟨_, h2, h3, _⟩ := eq_of_branchOf p k q hb
      rw [← hg]
      refine ⟨h2, Or.inr h3, ?_⟩
      simp only [Item.Shaped]
      refine ⟨mapify_sorted _, ih _ ?_⟩
      rcases maxSeps_group l k with h | h
      · omega
      · exact absurd h hnil

/-- Every map built by `mapify`, at any depth, has increasing keys without
separator, and the key of a subtree is never empty. -/
theorem mapify_shaped (l : KVPairs) : entriesShaped (mapify l) :=
  mapify_shaped_aux (maxSeps l + 1) l (Nat.lt_succ_self _)

/-- C6, counterexample. The key `a//` leaves the empty subtree `a` behind: it
has no leaf, `flatten` yields no pair, and the round trip returns the empty
map. -/
theorem mapify_flatten_loses_empty_subtree :
    (∀ p ∈ [kv "a//" "v"], ∀ q ∈ [kv "a//" "v"], ¬ (p.Key ++ [sep]) <+: q.Key) ∧
    mapify [kv "a//" "v"] = [("a".toList, Item.Subtree [])] ∧
    mapify (flatten (mapify [kv "a//" "v"])) = [] ∧
    mapify (flatten (mapify [kv "a//" "v"])) ≠ mapify [kv "a//" "v"] := by
  decide

/-- C6, amended. Round trip: when no key of `l` is a proper path prefix of
another key and no subtree inside `mapify l` is empty, flattening `mapify l`
and materializing the pairs again gives `mapify l`. -/
theorem mapify_flatten_roundtrip (l : KVPairs)
    (_hconf : ∀ p ∈ l, ∀ q ∈ l, ¬ (p.Key ++ [sep]) <+: q.Key)
    (hne : entriesNoEmptySubtree (mapify l) = true) :
    mapify (flatten (mapify l)) = mapify l :=
  mapify_flattenEntries (mapify l) (mapify_sorted l) (mapify_shaped l) hne

/-- Witness of C6 (amended). -/
theorem mapify_flatten_roundtrip_witness :
    (∀ p ∈ [kv "a/b" "1", kv "c" "2", kv "a/d/e" "3"],
      ∀ q ∈ [kv "a/b" "1", kv "c" "2", kv "a/d/e" "3"], ¬ (p.Key ++ [sep]) <+: q.Key) ∧
    entriesNoEmptySubtree (mapify [kv "a/b" "1", kv "c" "2", kv "a/d/e" "3"]) = true ∧
    flatten (mapify [kv "a/b" "1", kv "c" "2", kv "a/d/e" "3"]) =
      [kv "a/b" "1", kv "a/d/e" "3", kv "c" "2"] ∧
    mapify (flatten (mapify [kv "a/b" "1", kv "c" "2", kv "a/d/e" "3"])) =
      mapify [kv "a/b" "1", kv "c" "2", kv "a/d/e" "3"] :=
  ⟨by decide, by decide, by decide,
    mapify_flatten_roundtrip [kv "a/b" "1", kv "c" "2", kv "a/d/e" "3"] (by decide) (by decide)⟩

/-! ## Stray separators -/

theorem mapify_eq_of_loop_eq (l₁ l₂ : KVPairs) (h : mapifyLoop l₁ = mapifyLoop l₂) :
    mapify l₁ = mapify l₂ := by
  rw [mapify_unfold l₁, mapify_unfold l₂, h]

theorem mapifyStep_congr (st : LoopState) (p q : KVPair) (hb : branchOf p = branchOf q)
    (hl : leafOf p = leafOf q) : mapifyStep st p = mapifyStep st q := by
  rw [mapifyStep_eq, mapifyStep_eq, hb, hl]

theorem TrimLeft_replicate_append (n : Nat) (k : Key) :
    TrimLeft (List.replicate n sep ++ k) [sep] = TrimLeft k [sep] := by
  induction n with
  | zero => rfl
  | succ n ih =>
    rw [List.replicate_succ, List.cons_append, TrimLeft_cons_sep, ih]

theorem mapifyLoop_middle (pre post : KVPairs) (p q : KVPair)
    (h : ∀ st, mapifyStep st p = mapifyStep st q) :
    mapifyLoop (pre ++ [p] ++ post) = mapifyLoop (pre ++ [q] ++ post) := by
  unfold mapifyLoop
  simp only [List.foldl_append, List.foldl_cons, List.foldl_nil, h]

/-- C7. Leading separators are ignored: for a non-empty key `k` that does not
begin with a separator, and `n ≥ 1`, replacing the pair of key `k` by the pair
of key `"/"^n ++ k` anywhere in the sequence leaves `mapify` unchanged. -/
theorem mapify_leading_seps (k : Key) (hk : k ≠ []) (hh : k.head? ≠ some sep) (n : Nat)
    (_hn : 1 ≤ n) (v : List Char) (pre post : KVPairs) :
    mapify (pre ++ [⟨List.replicate n sep ++ k, v⟩] ++ post) =
      mapify (pre ++ [⟨k, v⟩] ++ post) := by
  apply mapify_eq_of_loop_eq
  apply mapifyLoop_middle
  intro st
  have ht : TrimLeft (List.replicate n sep ++ k) [sep] = k := by
    rw [TrimLeft_replicate_append, TrimLeft_of_head k (head_of_head? k hh)]
  have ht2 : TrimLeft k [sep] = k := TrimLeft_of_head k (head_of_head? k hh)
  apply mapifyStep_congr
  · unfold branchOf
    simp only [ht, ht2]
  · unfold leafOf
    simp only [ht, ht2, hk, false_and, if_false]

/-- Witness of C7 on the example of the specification, `/x`. -/
theorem mapify_leading_seps_witness :
    "x".toList ≠ [] ∧ "x".toList.head? ≠ some sep ∧ 1 ≤ 1 ∧
    mapify [kv "/x" "v1"] = [("x".toList, Item.Leaf "v1".toList)] ∧
    mapify ([] ++ [⟨List.replicate 1 sep ++ "x".toList, "v1".toList⟩] ++ []) =
      mapify ([] ++ [⟨"x".toList, "v1".toList⟩] ++ []) :=
  ⟨by decide, by decide, by decide, by decide,
    mapify_leading_seps "x".toList (by decide) (by decide) 1 (by decide) "v1".toList [] []⟩

theorem TrimLeft_onlySeps (key : Key) (h : onlySeps key = true) :
    TrimLeft key [sep] = [] ∧ key ≠ [] := by
  unfold onlySeps at h
  simp only [Bool.and_eq_true, Bool.not_eq_true', List.isEmpty_eq_false, List.all_eq_true,
    decide_eq_true_eq] at h
  refine ⟨?_, h.1⟩
  unfold TrimLeft
  rw [List.dropWhile_eq_nil_iff]
  intro c hc
  simp [h.2 c hc]

theorem mapifyStep_onlySeps (st : LoopState) (p : KVPair) (h : onlySeps p.Key = true) :
    mapifyStep st p = st := by
  obtain ⟨h1, h2⟩ := TrimLeft_onlySeps p.Key h
  rw [mapifyStep_eq]
  have hb : branchOf p = none := by
    unfold branchOf
    simp only [h1, List.not_mem_nil, if_false]
  have hl : leafOf p = none := by
    unfold leafOf
    simp only [h1, List.not_mem_nil, if_false, h2, ne_eq, not_false_eq_true, and_self, if_true]
  rw [hb, hl]

theorem foldl_mapifyStep_filter (l : KVPairs) (st : LoopState) :
    l.foldl mapifyStep st = (l.filter (fun p => !onlySeps p.Key)).foldl mapifyStep st := by
  induction l generalizing st with
  | nil => rfl
  | cons p rest ih =>
    rw [List.foldl_cons, List.filter_cons]
    by_cases h : onlySeps p.Key = true
    · simp only [h, Bool.not_true, Bool.false_eq_true, if_false]
      rw [mapifyStep_onlySeps st p h]
      exact ih st
    · simp only [Bool.not_eq_true] at h
      simp only [h, Bool.not_false, if_true, List.foldl_cons]
      exact ih _

/-- C8. Keys made only of separators are dropped: `mapify l` is `mapify` of
`l` without the pairs whose key is a non-empty run of separators; when every
key of `l` is such a run, `mapify l` is the empty map. -/
theorem mapify_drops_sep_keys (l : KVPairs) :
    mapify l = mapify (l.filter (fun p => !onlySeps p.Key)) ∧
    ((∀ p ∈ l, onlySeps p.Key = true) → mapify l = []) := by
  have h1 : mapify l = mapify (l.filter (fun p => !onlySeps p.Key)) :=
    mapify_eq_of_loop_eq _ _ (foldl_mapifyStep_filter l ([], []))
  refine ⟨h1, ?_⟩
  intro h
  have : l.filter (fun p => !onlySeps p.Key) = [] := by
    apply List.filter_eq_nil_iff.mpr
    intro p hp
    simp [h p hp]
  rw [h1, this]
  rfl

/-- Witness of C8 on the example of the specification, `////`. -/
theorem mapify_drops_sep_keys_witness :
    (∀ p ∈ [kv "////" "v1"], onlySeps p.Key = true) ∧
    mapify [kv "////" "v1"] = [] ∧
    mapify [kv "a" "1", kv "//" "2", kv "b/c" "3"] = mapify [kv "a" "1", kv "b/c" "3"] :=
  ⟨by decide, (mapify_drops_sep_keys [kv "////" "v1"]).2 (by decide),
    (mapify_drops_sep_keys [kv "a" "1", kv "//" "2", kv "b/c" "3"]).1⟩

/-! ## Keys of the maps -/

/-- C9, the code at the failing input. An empty key takes the branch of the
keys without separator and becomes a leaf named by the empty string, at the top
level and, for a key with a trailing separator, inside a subtree. -/
theorem mapify_empty_key :
    mapify [kv "" "v"] = [([], Item.Leaf "v".toList)] ∧
    mapify [kv "a/" "v"] = [("a".toList, Item.Subtree [([], Item.Leaf "v".toList)])] ∧
    [] ∈ GoMap.keys (mapify [kv "" "v"]) := by
  decide

/-! ## Depth -/

theorem depthEntries_le_iff (m : Map) (n : Nat) :
    depthEntries m ≤ n ↔ ∀ k i, (k, i) ∈ m → 1 + i.depth ≤ n := by
  induction m with
  | nil => simp [depthEntries]
  | cons e rest ih =>
    obtain ⟨k0, i0⟩ := e
    simp only [depthEntries, max_le_iff, ih]
    constructor
    · rintro ⟨h1, h2⟩ k i hk
      rcases List.mem_cons.mp hk with hk | hk
      · simp only [Prod.mk.injEq] at hk
        rw [hk.2]; exact h1
      · exact h2 k i hk
    · intro h
      exact ⟨h k0 i0 (List.mem_cons_self _ _), fun k i hk => h k i (List.mem_cons_of_mem _ hk)⟩

theorem depth_le_of_mem (m : Map) (k : Key) (i : Item) (h : (k, i) ∈ m) :
    1 + i.depth ≤ depthEntries m :=
  (depthEntries_le_iff m _).mp (le_refl _) k i h

theorem maxSegments_le_iff (l : KVPairs) (n : Nat) :
    maxSegments l ≤ n ↔ ∀ p ∈ l, segmentCount p.Key ≤ n := by
  induction l with
  | nil => simp [maxSegments]
  | cons q rest ih =>
    have e : maxSegments (q :: rest) = max (segmentCount q.Key) (maxSegments rest) := rfl
    rw [e, max_le_iff, ih]
    constructor
    · rintro ⟨h1, h2⟩ p hp
      rcases List.mem_cons.mp hp with hp | hp
      · rw [hp]; exact h1
      · exact h2 p hp
    · intro h
      exact ⟨h q (List.mem_cons_self _ _), fun p hp => h p (List.mem_cons_of_mem _ hp)⟩

theorem le_maxSegments (l : KVPairs) (p : KVPair) (h : p ∈ l) :
    segmentCount p.Key ≤ maxSegments l :=
  (maxSegments_le_iff l _).mp (le_refl _) p h

theorem segmentCount_first (s x : Key) (hs : sep ∉ s) :
    segmentCount (s ++ sep :: x) = 1 + segmentCount x := by
  unfold segmentCount
  rw [splitOn_first s x hs, List.length_cons]
  omega

theorem segmentCount_single (t : Key) (ht : sep ∉ t) : segmentCount t = 1 := by
  unfold segmentCount
  rw [splitOn_single t ht]
  rfl

theorem segmentCount_pos (t : Key) : 1 ≤ segmentCount t := by
  by_cases ht : sep ∈ t
  · have := take_drop_indexOf t ht
    rw [this, segmentCount_first _ _ (not_mem_take_indexOf t)]
    omega
  · rw [segmentCount_single t ht]

theorem noStraySep_head {key : Key} (h : NoStraySep key) : ∀ r, key ≠ sep :: r :=
  head_of_head? key h.1

theorem noStraySep_rest (s x : Key) (h : NoStraySep (s ++ sep :: x)) : NoStraySep x := by
  obtain ⟨_, h2⟩ := h
  constructor
  · intro hh
    apply h2
    cases x with
    | nil => exact Option.noConfusion hh
    | cons c r =>
      simp only [List.head?_cons, Option.some.injEq] at hh
      rw [hh]
      exact ⟨s, r, by simp⟩
  · intro hi
    apply h2
    exact hi.trans ⟨s ++ [sep], [], by simp⟩

theorem depth_mapify_aux (n : Nat) (l : KVPairs) (hn : maxSeps l < n)
    (hns : ∀ p ∈ l, NoStraySep p.Key) :
    depthEntries (mapify l) = maxSegments l := by
  induction n generalizing l with
  | zero => omega
  | succ n ih =>
    have hh : ∀ p ∈ l, ∀ r, p.Key ≠ sep :: r := fun p hp => noStraySep_head (hns p hp)
    have hsub : ∀ s, group l s ≠ [] →
        depthEntries (mapify (group l s)) = maxSegments (group l s) := by
      intro s hnil
      apply ih
      · rcases maxSeps_group l s with h | h
        · omega
        · exact absurd h hnil
      · intro q hq
        obtain ⟨p, hp, hk, _⟩ := mem_group_of_head l s q hh hq
        exact noStraySep_rest s q.Key (hk ▸ hns p hp)
    apply le_antisymm
    · rw [depthEntries_le_iff]
      intro k i hk
      have hg := GoMap.get_of_mem _ (mapify_sorted l) k i hk
      rw [get_mapify] at hg
      by_cases hnil : group l k = []
      · rw [if_pos hnil] at hg
        cases hv : leafValue l k with
        | none => rw [hv] at hg; exact Option.noConfusion hg
        | some v =>
          rw [hv] at hg
          simp only [Option.map_some', Option.some.injEq] at hg
          obtain ⟨p, hp, _⟩ := leafValue_some l k v hv
          rw [← hg]
          simp only [Item.depth]
          exact le_trans (segmentCount_pos p.Key) (le_maxSegments l p hp)
      · rw [if_neg hnil] at hg
        simp only [Option.some.injEq] at hg
        rw [← hg]
        simp only [Item.depth]
        rw [hsub k hnil]
        have : maxSegments (group l k) ≤ maxSegments l - 1 := by
          rw [maxSegments_le_iff]
          intro q hq
          obtain ⟨p, hp, hpk, hs, _⟩ := mem_group_of_head l k q hh hq
          have h1 := le_maxSegments l p hp
          rw [hpk, segmentCount_first k q.Key hs] at h1
          omega
        obtain ⟨q, hq⟩ := List.exists_mem_of_ne_nil _ hnil
        obtain ⟨p, hp, hpk, hs, _⟩ := mem_group_of_head l k q hh hq
        have h1 := le_maxSegments l p hp
        rw [hpk, segmentCount_first k q.Key hs] at h1
        omega
    · rw [maxSegments_le_iff]
      intro p hp
      have ht := TrimLeft_of_head p.Key (hh p hp)
      by_cases hs : sep ∈ p.Key
      · have hd := take_drop_indexOf p.Key hs
        have hns' := not_mem_take_indexOf p.Key
        have hb := branchOf_of_eq p _ _ hns' (by rw [ht]; exact hd)
        have hq := (mem_group l _ _).mpr ⟨p, hp, hb⟩
        have hnil : group l (List.take (List.indexOf sep p.Key) p.Key) ≠ [] :=
          List.ne_nil_of_mem hq
        have hg := get_mapify l (List.take (List.indexOf sep p.Key) p.Key)
        rw [if_neg hnil] at hg
        have h1 := depth_le_of_mem _ _ _ (GoMap.mem_of_get _ _ _ hg)
        simp only [Item.depth] at h1
        rw [hsub _ hnil] at h1
        have h2 := le_maxSegments _ _ hq
        simp only at h2
        rw [hd, segmentCount_first _ _ hns']
        omega
      · rw [segmentCount_single p.Key hs]
        have hg := get_mapify l p.Key
        have : ∃ i, GoMap.get (mapify l) p.Key = some i := by
          by_cases hnil : group l p.Key = []
          · rw [if_pos hnil] at hg
            obtain ⟨w, hw⟩ := leafValue_isSome l p.Key
              ⟨p, hp, p.Value, leafOf_of_no_sep p hs⟩
            rw [hw] at hg
            exact ⟨_, hg⟩
          · rw [if_neg hnil] at hg
            exact ⟨_, hg⟩
        obtain ⟨i, hi⟩ := this
        have h1 := depth_le_of_mem _ _ _ (GoMap.mem_of_get _ _ _ hi)
        omega

/-- C10, counterexample. The depth of the tree of `a/` and `//b` is 2, while
the largest number of separator-delimited segments of a key is 3 (and the
largest number of non-empty segments is 1). -/
theorem mapify_depth_stray_sep :
    [kv "a/" "v", kv "//b" "w"] ≠ [] ∧
    depth (mapify [kv "a/" "v", kv "//b" "w"]) = 2 ∧
    maxSegments [kv "a/" "v", kv "//b" "w"] = 3 ∧
    [kv "a/" "v", kv "//b" "w"].map (fun p => (segments p.Key).length) = [1, 1] ∧
    depth (mapify [kv "a/" "v", kv "//b" "w"]) ≠ maxSegments [kv "a/" "v", kv "//b" "w"] := by
  decide

/-- C10, amended. Depth invariant: for a non-empty input none of whose keys
begins with a separator or contains two adjacent separators, the depth of
`mapify l` is the largest number of separator-delimited segments of a key of
`l`. -/
theorem mapify_depth (l : KVPairs) (_hne : l ≠ [])
    (hns : ∀ p ∈ l, NoStraySep p.Key) :
    depth (mapify l) = maxSegments l :=
  depth_mapify_aux (maxSeps l + 1) l (Nat.lt_succ_self _) hns

/-- Witness of C10 (amended), with a key that is both a leaf and a branch and a
key with a trailing separator. -/
theorem mapify_depth_witness :
    [kv "a" "1", kv "a/b/c" "2", kv "d/" "3"] ≠ [] ∧
    (∀ p ∈ [kv "a" "1", kv "a/b/c" "2", kv "d/" "3"], NoStraySep p.Key) ∧
    maxSegments [kv "a" "1", kv "a/b/c" "2", kv "d/" "3"] = 3 ∧
    depth (mapify [kv "a" "1", kv "a/b/c" "2", kv "d/" "3"]) =
      maxSegments [kv "a" "1", kv "a/b/c" "2", kv "d/" "3"] :=
  ⟨by decide, by decide, by decide,
    mapify_depth [kv "a" "1", kv "a/b/c" "2", kv "d/" "3"] (by decide) (by decide)⟩

/-! ## Termination -/

theorem finishBounded_eq (recur : KVPairs → Option Map) (f : KVPairs → Map) (st : LoopState)
    (h : ∀ e ∈ st.2, recur e.2 = some (f e.2)) :
    mapifyFinishBounded recur st = some (mapifyFinish f st) := by
  obtain ⟨m, ps⟩ := st
  unfold mapifyFinishBounded mapifyFinish
  simp only at h ⊢
  induction ps generalizing m with
  | nil => rfl
  | cons e rest ih =>
    rw [List.foldl_cons, List.foldl_cons, h e (List.mem_cons_self _ _)]
    exact ih _ (fun e he => h e (List.mem_cons_of_mem _ he))

theorem mapifyBounded_eq (n : Nat) (l : KVPairs) (hn : maxSeps l < n) :
    mapifyBounded n l = some (mapify l) := by
  induction n generalizing l with
  | zero => omega
  | succ n ih =>
    rw [mapify_unfold]
    simp only [mapifyBounded]
    apply finishBounded_eq
    intro e he
    obtain ⟨h1, h2⟩ := mem_loop_group l e he
    rw [h1]
    rcases maxSeps_group l e.1 with h | h
    · exact ih _ (by omega)
    · exact absurd h h2

theorem TrimLeft_suffix (key : Key) : TrimLeft key [sep] <:+ key := by
  unfold TrimLeft
  exact List.dropWhile_suffix _

theorem branchOf_shorter (p : KVPair) (s : Key) (q : KVPair) (h : branchOf p = some (s, q)) :
    q.Key <:+ p.Key ∧ q.Key.length < p.Key.length := by
  obtain ⟨h1, _, _, _⟩ := eq_of_branchOf p s q h
  have hs := TrimLeft_suffix p.Key
  rw [h1] at hs
  have h2 : q.Key <:+ s ++ sep :: q.Key := ⟨s ++ [sep], by simp⟩
  refine ⟨h2.trans hs, ?_⟩
  have := hs.length_le
  simp only [List.length_append, List.length_cons] at this
  omega

/-- C11. `mapify` terminates: every key handed to a recursive call is a proper
suffix of a key of the input, strictly shorter and with strictly fewer
separators, and a nesting depth of one plus the largest number of separators
of an input key is enough for `mapify` to return its result. -/
theorem mapify_terminates (l : KVPairs) :
    (∀ e ∈ (mapifyLoop l).2, ∀ q ∈ e.2, ∃ p ∈ l,
      q.Key <:+ p.Key ∧ q.Key.length < p.Key.length ∧ sepCount q.Key < sepCount p.Key) ∧
    (∀ depth, 1 + maxSeps l ≤ depth → mapifyBounded depth l = some (mapify l)) := by
  constructor
  · intro e he q hq
    obtain ⟨h1, _⟩ := mem_loop_group l e he
    rw [h1] at hq
    obtain ⟨p, hp, hb⟩ := (mem_group l e.1 q).mp hq
    obtain ⟨a, b⟩ := branchOf_shorter p e.1 q hb
    have c := branchOf_sepCount p e.1 q hb
    exact ⟨p, hp, a, b, by omega⟩
  · intro depth hd
    exact mapifyBounded_eq depth l (by omega)

/-- Witness of C11: the key `a/b/c` has two separators; a nesting depth of 2 is
not enough, a nesting depth of 3 is. -/
theorem mapify_terminates_witness :
    mapifyBounded 2 [kv "a/b/c" "v"] = none ∧
    1 + maxSeps [kv "a/b/c" "v"] ≤ 3 ∧
    mapifyBounded 3 [kv "a/b/c" "v"] = some (mapify [kv "a/b/c" "v"]) :=
  ⟨by decide, by decide, (mapify_terminates [kv "a/b/c" "v"]).2 3 (by decide)⟩

/-! ## `formatKey`, `stripRequestKey`, `GetRecursive` -/

theorem TrimLeft_decompose (key : Key) :
    ∃ n, key = List.replicate n sep ++ TrimLeft key [sep] := by
  induction key with
  | nil => exact ⟨0, rfl⟩
  | cons c r ih =>
    by_cases hc : c = sep
    · subst hc
      obtain ⟨n, hn⟩ := ih
      refine ⟨n + 1, ?_⟩
      rw [TrimLeft_cons_sep, List.replicate_succ, List.cons_append, ← hn]
    · exact ⟨0, by rw [TrimLeft_cons_ne c r hc]; rfl⟩

/-- C12. `formatKey` removes exactly the leading separators: the key is a run
of separators followed by `formatKey key`, and `formatKey key` is empty or
begins with a character other than the separator. -/
theorem formatKey_spec (key : Key) :
    (∃ n, key = List.replicate n sep ++ formatKey key) ∧
    (formatKey key = [] ∨ ∃ c r, formatKey key = c :: r ∧ c ≠ sep) := by
  refine ⟨TrimLeft_decompose key, ?_⟩
  unfold formatKey
  cases h : TrimLeft key [sep] with
  | nil => exact Or.inl rfl
  | cons c r =>
    right
    refine ⟨c, r, rfl, ?_⟩
    intro hc
    exact TrimLeft_head key r (by rw [h, hc])

theorem TrimPrefix_append (r s : Key) : TrimPrefix (r ++ s) r = s := by
  unfold TrimPrefix
  have : r.isPrefixOf (r ++ s) = true := List.isPrefixOf_iff_prefix.mpr ⟨s, rfl⟩
  rw [if_pos this, List.drop_left]

theorem TrimPrefix_of_not_prefix (k r : Key) (h : ¬ r <+: k) : TrimPrefix k r = k := by
  unfold TrimPrefix
  have : ¬ r.isPrefixOf k = true := fun e => h (List.isPrefixOf_iff_prefix.mp e)
  rw [if_neg this]

/-- C13. `stripRequestKey` removes the request key from the front of a response
key that starts with it, and returns any other response key unchanged. -/
theorem stripRequestKey_spec (r k : Key) :
    (∀ s, k = r ++ s → stripRequestKey r k = s) ∧
    (¬ r <+: k → stripRequestKey r k = k) := by
  constructor
  · intro s hs
    rw [hs]
    exact TrimPrefix_append r s
  · exact TrimPrefix_of_not_prefix k r

/-- Witness of C13, one response key under the request key and one outside. -/
theorem stripRequestKey_spec_witness :
    "app/x".toList = "app/".toList ++ "x".toList ∧
    stripRequestKey "app/".toList "app/x".toList = "x".toList ∧
    ¬ "app/".toList <+: "other".toList ∧
    stripRequestKey "app/".toList "other".toList = "other".toList :=
  ⟨by decide, (stripRequestKey_spec "app/".toList "app/x".toList).1 "x".toList (by decide),
    by decide, (stripRequestKey_spec "app/".toList "other".toList).2 (by decide)⟩

theorem splitOn_ne_nil (x : Key) : x.splitOn sep ≠ [] :=
  List.splitOnP_ne_nil _ x

theorem splitOn_cons_ne (c : Char) (x : Key) (hc : c ≠ sep) :
    (c :: x).splitOn sep = (x.splitOn sep).modifyHead (fun h => c :: h) := by
  have := List.splitOnP_cons (· == sep) c x
  simp only [beq_iff_eq, hc, if_false] at this
  exact this

theorem splitOn_append_sep (x y : Key) :
    (x ++ sep :: y).splitOn sep = x.splitOn sep ++ y.splitOn sep := by
  induction x with
  | nil =>
    rw [List.nil_append, splitOn_cons_sep, List.splitOn_nil]
    rfl
  | cons c x ih =>
    by_cases hc : c = sep
    · subst hc
      rw [List.cons_append, splitOn_cons_sep, splitOn_cons_sep, ih]
      rfl
    · rw [List.cons_append, splitOn_cons_ne c _ hc, splitOn_cons_ne c _ hc, ih]
      cases hx : x.splitOn sep with
      | nil => exact absurd hx (splitOn_ne_nil x)
      | cons h t => rfl

theorem segments_nil : segments [] = [] := by
  decide

theorem segments_append_sep (x y : Key) :
    segments (x ++ sep :: y) = segments x ++ segments y := by
  unfold segments
  rw [splitOn_append_sep, List.filter_append]

theorem segments_append_of_boundary (r s : Key) (h : AtSegmentBoundary r s) :
    segments (r ++ s) = segments r ++ segments s := by
  rcases h with h | h | h | h
  · rw [h, segments_nil]
    rfl
  · obtain ⟨r1, hr1⟩ := List.getLast?_eq_some_iff.mp h
    have e : segments r = segments r1 := by
      rw [hr1]
      have := segments_append_sep r1 []
      rw [segments_nil, List.append_nil] at this
      exact this
    rw [e, hr1, List.append_assoc, List.singleton_append, segments_append_sep]
  · rw [h, segments_nil, List.append_nil, List.append_nil]
  · cases s with
    | nil => exact Option.noConfusion h
    | cons d s1 =>
      simp only [List.head?_cons, Option.some.injEq] at h
      rw [h, segments_append_sep, segments_cons_sep]

theorem segments_length_cons_ne (c d : Char) (y : Key) (hc : c ≠ sep) (hd : d ≠ sep) :
    (segments (c :: d :: y)).length = (segments (d :: y)).length := by
  unfold segments
  rw [splitOn_cons_ne c _ hc, splitOn_cons_ne d _ hd]
  cases hy : y.splitOn sep with
  | nil => exact absurd hy (splitOn_ne_nil y)
  | cons h t => simp [List.filter_cons]

theorem segments_length_cons_sep (c : Char) (y : Key) (hc : c ≠ sep) :
    (segments (c :: sep :: y)).length = (segments (sep :: y)).length + 1 := by
  unfold segments
  rw [splitOn_cons_ne c _ hc, splitOn_cons_sep]
  simp [List.filter_cons]

theorem segments_length_single (c : Char) (hc : c ≠ sep) : (segments [c]).length = 1 := by
  rw [segments_single [c] (by simpa using fun e => hc e.symm)]
  rfl

theorem segments_length_same_head (a e : Char) (X Y : Key) (ha : a ≠ sep) :
    (segments (a :: e :: X)).length + (segments (e :: Y)).length =
      (segments (a :: e :: Y)).length + (segments (e :: X)).length := by
  by_cases he : e = sep
  · subst he
    rw [segments_length_cons_sep a X ha, segments_length_cons_sep a Y ha]
    omega
  · rw [segments_length_cons_ne a e X ha he, segments_length_cons_ne a e Y ha he]
    omega

theorem segments_length_straddle (r1 : Key) (c d : Char) (s1 : Key) (hc : c ≠ sep)
    (hd : d ≠ sep) :
    (segments (r1 ++ [c] ++ d :: s1)).length + 1 =
      (segments (r1 ++ [c])).length + (segments (d :: s1)).length := by
  induction r1 with
  | nil =>
    simp only [List.nil_append, List.singleton_append]
    rw [segments_length_cons_ne c d s1 hc hd, segments_length_single c hc]
    omega
  | cons a r2 ih =>
    by_cases ha : a = sep
    · subst ha
      simp only [List.cons_append] at ih ⊢
      rw [segments_cons_sep, segments_cons_sep]
      exact ih
    · cases r2 with
      | nil =>
        simp only [List.nil_append, List.singleton_append, List.cons_append] at ih ⊢
        have := segments_length_same_head a c (d :: s1) [] ha
        omega
      | cons e r3 =>
        simp only [List.cons_append] at ih ⊢
        have := segments_length_same_head a e (r3 ++ [c] ++ d :: s1) (r3 ++ [c]) ha
        simp only [List.append_assoc, List.singleton_append] at this ih ⊢
        omega

theorem segments_append_iff_boundary (r s : Key) :
    segments (r ++ s) = segments r ++ segments s ↔ AtSegmentBoundary r s := by
  constructor
  · intro h
    by_contra hb
    unfold AtSegmentBoundary at hb
    simp only [not_or] at hb
    obtain ⟨h1, h2, h3, h4⟩ := hb
    obtain ⟨r1, c, hr⟩ : ∃ r1 c, r = r1 ++ [c] := by
      cases hl : r.getLast? with
      | none => exact absurd (List.getLast?_eq_none_iff.mp hl) h1
      | some c => exact ⟨_, c, (List.getLast?_eq_some_iff.mp hl).choose_spec⟩
    have hc : c ≠ sep := by
      intro e
      apply h2
      rw [hr, e]
      simp
    cases s with
    | nil => exact h3 rfl
    | cons d s1 =>
      have hd : d ≠ sep := by
        intro e
        apply h4
        rw [e]
        rfl
      have hlen := segments_length_straddle r1 c d s1 hc hd
      rw [hr] at h
      rw [h, List.length_append] at hlen
      omega
  · exact segments_append_of_boundary r s

/-- C14, counterexample. The stored key `application/x` starts with the request
key `app`; it is stripped to `lication/x`, which does not start at a segment
boundary. -/
theorem stripRequestKey_inside_segment :
    "app".toList <+: "application/x".toList ∧
    stripRequestKey "app".toList "application/x".toList = "lication/x".toList ∧
    ¬ AtSegmentBoundary "app".toList (stripRequestKey "app".toList "application/x".toList) := by
  decide

/-- C14, amended. For a response key `k` that starts with the request key `r`,
`k` is `r` followed by `stripRequestKey r k`.  That remainder starts at a
segment boundary of `k` exactly when `r` is empty or ends with a separator, or
`k` is `r` itself or continues with a separator right after `r`; and exactly
then it is a path relative to `r`: the non-empty segments of `k` are those of
`r` followed by those of the remainder.  For every other response key the
remainder starts inside a segment. -/
theorem stripRequestKey_boundary (r k : Key) (hk : r <+: k) :
    k = r ++ stripRequestKey r k ∧
    (AtSegmentBoundary r (stripRequestKey r k) ↔
      (r = [] ∨ r.getLast? = some sep ∨ k = r ∨ (r ++ [sep]) <+: k)) ∧
    (segments k = segments r ++ segments (stripRequestKey r k) ↔
      AtSegmentBoundary r (stripRequestKey r k)) := by
  obtain ⟨s, hs⟩ := hk
  have hstrip : stripRequestKey r k = s := by
    rw [← hs]
    exact TrimPrefix_append r s
  rw [hstrip]
  refine ⟨hs.symm, ?_, ?_⟩
  · unfold AtSegmentBoundary
    have e1 : s = [] ↔ k = r := by
      rw [← hs]
      constructor
      · intro e; rw [e, List.append_nil]
      · intro e; exact List.append_right_eq_self.mp e
    have e2 : s.head? = some sep ↔ (r ++ [sep]) <+: k := by
      rw [← hs]
      constructor
      · intro e
        cases s with
        | nil => exact Option.noConfusion e
        | cons d s1 =>
          simp only [List.head?_cons, Option.some.injEq] at e
          rw [e]
          exact ⟨s1, by simp⟩
      · rintro ⟨x, hx⟩
        rw [List.append_assoc] at hx
        rw [← List.append_cancel_left hx]
        rfl
    rw [e1, e2]
  · rw [← hs]
    exact segments_append_iff_boundary r s

/-- Witness of C14 (amended): the request key `app`, a response key that
continues with a separator. -/
theorem stripRequestKey_boundary_witness :
    "app".toList <+: "app/x".toList ∧
    stripRequestKey "app".toList "app/x".toList = "/x".toList ∧
    AtSegmentBoundary "app".toList (stripRequestKey "app".toList "app/x".toList) ∧
    segments "app/x".toList = ["app".toList, "x".toList] ∧
    ("app/x".toList = "app".toList ++ stripRequestKey "app".toList "app/x".toList ∧
      (AtSegmentBoundary "app".toList (stripRequestKey "app".toList "app/x".toList) ↔
        ("app".toList = [] ∨ "app".toList.getLast? = some sep ∨
          "app/x".toList = "app".toList ∨ ("app".toList ++ [sep]) <+: "app/x".toList)) ∧
      (segments "app/x".toList =
          segments "app".toList ++ segments (stripRequestKey "app".toList "app/x".toList) ↔
        AtSegmentBoundary "app".toList (stripRequestKey "app".toList "app/x".toList))) :=
  ⟨by decide, by decide, by decide, by decide,
    stripRequestKey_boundary "app".toList "app/x".toList (by decide)⟩

/-- C15. `GetRecursive` is the composition: when the backend lists the request
key `formatKey key` with success, `GetRecursive` returns without error the
`mapify` of the listed pairs, each key stripped of the request key, and the
backend is called once, with the request key. -/
theorem GetRecursive_composition {ε : Type} (kvList : Key → Except ε KVPairs) (key : Key)
    (kvps : KVPairs) (h : kvList (formatKey key) = .ok kvps) :
    (GetRecursive kvList key).result =
      .ok (mapify (kvps.map (fun kvp =>
        ⟨stripRequestKey (formatKey key) kvp.Key, kvp.Value⟩))) ∧
    (GetRecursive kvList key).listCalls = [formatKey key] := by
  constructor <;> simp only [GetRecursive, h]

/-- Witness of C15: the request `/app/` on a backend that stores two keys under
`app/`. -/
theorem GetRecursive_composition_witness :
    exampleList (formatKey "/app/".toList) = .ok [kv "app/a/b" "1", kv "app/c" "2"] ∧
    (GetRecursive exampleList "/app/".toList).result =
      .ok [("a".toList, Item.Subtree [("b".toList, Item.Leaf "1".toList)]),
        ("c".toList, Item.Leaf "2".toList)] ∧
    ((GetRecursive exampleList "/app/".toList).result =
      .ok (mapify ([kv "app/a/b" "1", kv "app/c" "2"].map (fun kvp =>
        ⟨stripRequestKey (formatKey "/app/".toList) kvp.Key, kvp.Value⟩))) ∧
    (GetRecursive exampleList "/app/".toList).listCalls = [formatKey "/app/".toList]) :=
  ⟨rfl, rfl, GetRecursive_composition exampleList "/app/".toList
    [kv "app/a/b" "1", kv "app/c" "2"] rfl⟩

/-- C16, counterexample. A backend that lists no pair and reports no error:
`GetRecursive` returns the empty map, not an error. -/
theorem GetRecursive_empty_list_no_error :
    (GetRecursive (fun _ => (.ok [] : Except String KVPairs)) "app".toList).result = .ok [] ∧
    ∀ err, (GetRecursive (fun _ => (.ok [] : Except String KVPairs)) "app".toList).result ≠
      .error err := by
  constructor
  · rfl
  · intro err h
    cases h

/-- C16, amended. `GetRecursive` passes on, unchanged, the error that the
backend reports for the request key; when the backend lists no pair and
reports no error, `GetRecursive` returns the empty map and no error. -/
theorem GetRecursive_errors {ε : Type} (kvList : Key → Except ε KVPairs) (key : Key) :
    (∀ err, kvList (formatKey key) = .error err →
      (GetRecursive kvList key).result = .error err) ∧
    (kvList (formatKey key) = .ok [] → (GetRecursive kvList key).result = .ok []) := by
  constructor
  · intro err h
    unfold GetRecursive
    simp only [h]
  · intro h
    unfold GetRecursive
    simp only [h]
    rfl

/-- Witness of C16 (amended): a backend that reports an error, and one that
lists no pair. -/
theorem GetRecursive_errors_witness :
    (GetRecursive (fun _ => (.error "not found" : Except String KVPairs)) "app".toList).result =
      .error "not found" ∧
    (GetRecursive (fun _ => (.ok [] : Except String KVPairs)) "app".toList).result = .ok [] :=
  ⟨(GetRecursive_errors (fun _ => (.error "not found" : Except String KVPairs))
      "app".toList).1 "not found" rfl,
    (GetRecursive_errors (fun _ => (.ok [] : Except String KVPairs)) "app".toList).2 rfl⟩

/-! ## The split index and the keys of subtrees -/

theorem mapifyStep_index (st : LoopState) (kvp : KVPair) :
    mapifyStep st kvp =
      match mapifyIndex kvp with
      | none => st
      | some (key, i) => mapifyInsert st ⟨key, kvp.Value⟩ i := by
  unfold mapifyStep mapifyIndex
  simp only
  by_cases h0 : IndexByte kvp.Key sep = 0
  · simp only [h0, if_true]
    by_cases hl : (TrimLeft kvp.Key [sep]).length = 0
    · simp only [hl, if_true]
    · simp only [hl, if_false]
  · simp only [h0, if_false]

theorem indexOf_lt_of_mem (t : Key) (h : sep ∈ t) : t.indexOf sep < t.length :=
  List.indexOf_lt_length.mpr h

theorem index_bounds (t : Key) (hh : ∀ r, t ≠ sep :: r) (i : Int) (hi : IndexByte t sep = i)
    (hne : i ≠ -1) : 1 ≤ i ∧ i < t.length := by
  by_cases hm : sep ∈ t
  · rw [IndexByte_of_mem t hm] at hi
    have h1 := indexOf_lt_of_mem t hm
    have h0 : t.indexOf sep ≠ 0 := by
      intro e
      have h2 : IndexByte t sep = 0 := by rw [IndexByte_of_mem t hm, e]; rfl
      obtain ⟨r, hr⟩ := (IndexByte_eq_zero_iff t).mp h2
      exact hh r hr
    omega
  · rw [IndexByte_of_not_mem t hm] at hi
    exact absurd hi.symm hne

theorem mapifyIndex_bounds (kvp : KVPair) (key : Key) (i : Int)
    (h : mapifyIndex kvp = some (key, i)) (hne : i ≠ -1) : 1 ≤ i ∧ i < key.length := by
  unfold mapifyIndex at h
  simp only at h
  by_cases h0 : IndexByte kvp.Key sep = 0
  · simp only [h0, if_true] at h
    by_cases hl : (TrimLeft kvp.Key [sep]).length = 0
    · simp only [hl, if_true] at h
      exact Option.noConfusion h
    · simp only [hl, if_false, Option.some.injEq, Prod.mk.injEq] at h
      obtain ⟨hk, hi⟩ := h
      rw [← hk]
      exact index_bounds _ (TrimLeft_head kvp.Key) i hi hne
  · simp only [h0, if_false, Option.some.injEq, Prod.mk.injEq] at h
    obtain ⟨hk, hi⟩ := h
    rw [← hk]
    refine index_bounds _ ?_ i hi hne
    intro r hr
    exact h0 ((IndexByte_eq_zero_iff _).mpr ⟨r, hr⟩)

theorem mem_entriesSubtreeKeys (m : Map) (k : Key) (h : k ∈ entriesSubtreeKeys m) :
    ∃ k0 m1, (k0, Item.Subtree m1) ∈ m ∧ (k = k0 ∨ k ∈ entriesSubtreeKeys m1) := by
  induction m with
  | nil => simp [entriesSubtreeKeys] at h
  | cons e rest ih =>
    obtain ⟨k0, i0⟩ := e
    simp only [entriesSubtreeKeys, List.mem_append] at h
    rcases h with (h | h) | h
    · cases i0 with
      | Leaf v => simp at h
      | Subtree m1 =>
        simp only [List.mem_singleton] at h
        exact ⟨k0, m1, List.mem_cons_self _ _, Or.inl h⟩
    · cases i0 with
      | Leaf v => simp [Item.subtreeKeys] at h
      | Subtree m1 =>
        simp only [Item.subtreeKeys] at h
        exact ⟨k0, m1, List.mem_cons_self _ _, Or.inr h⟩
    · obtain ⟨k1, m1, hm, hk⟩ := ih h
      exact ⟨k1, m1, List.mem_cons_of_mem _ hm, hk⟩

theorem subtreeKeys_of_shaped : ∀ m : Map, entriesShaped m →
    ∀ k ∈ entriesSubtreeKeys m, k ≠ [] ∧ sep ∉ k := by
  apply map_induction
  intro m ih hsh k hk
  obtain ⟨k0, m1, hm, hk0⟩ := mem_entriesSubtreeKeys m k hk
  obtain ⟨h1, h2, h3⟩ := shaped_of_mem m k0 _ hsh hm
  rcases hk0 with e | e
  · rw [e]
    exact ⟨subtree_key_ne_nil k0 m1 h2, h1⟩
  · simp only [Item.Shaped] at h3
    exact ih k0 m1 hm h3.2 k e

/-- C18. On the branch of `mapify` where a separator was found, the split index
`i` satisfies `1 ≤ i < len(key)` whatever the input, so that the slices
`key[:i]` and `key[i+1:]` are in bounds; and every key that `mapify` maps to a
subtree, at any depth, is non-empty and contains no separator. -/
theorem mapify_split_index (l : KVPairs) :
    (∀ kvp ∈ l, ∀ key i, mapifyIndex kvp = some (key, i) → i ≠ -1 →
      1 ≤ i ∧ i < key.length ∧ sliceInBounds key 0 i ∧ sliceInBounds key (i + 1) key.length) ∧
    (∀ k ∈ entriesSubtreeKeys (mapify l), k ≠ [] ∧ sep ∉ k) := by
  constructor
  · intro kvp _ key i h hne
    obtain ⟨h1, h2⟩ := mapifyIndex_bounds kvp key i h hne
    refine ⟨h1, h2, ?_, ?_⟩
    · unfold sliceInBounds; omega
    · unfold sliceInBounds; omega
  · exact subtreeKeys_of_shaped (mapify l) (mapify_shaped l)

/-- Witness of C18: the key `/a/b/c` is trimmed to `a/b/c` and split at index
1; the subtrees of its tree are `a` and `b`. -/
theorem mapify_split_index_witness :
    mapifyIndex (kv "/a/b/c" "v") = some ("a/b/c".toList, 1) ∧
    entriesSubtreeKeys (mapify [kv "/a/b/c" "v"]) = ["a".toList, "b".toList] ∧
    ((1 : Int) ≤ 1 ∧ (1 : Int) < "a/b/c".toList.length ∧
      sliceInBounds "a/b/c".toList 0 1 ∧
      sliceInBounds "a/b/c".toList (1 + 1) "a/b/c".toList.length) :=
  ⟨by decide, by decide,
    (mapify_split_index [kv "/a/b/c" "v"]).1 (kv "/a/b/c" "v") (by decide)
      "a/b/c".toList 1 (by decide) (by decide)⟩

/-! ## A subtree overrides a leaf -/

theorem leafOf_eq_some_iff (p : KVPair) (s v : List Char) :
    leafOf p = some ⟨s, v⟩ → TrimLeft p.Key [sep] = s ∧ p.Value = v := by
  intro h
  obtain ⟨a, _, c⟩ := eq_of_leafOf p _ h
  exact ⟨a, c.symm⟩

/-- C19. A subtree overrides a leaf, whatever the order of the pairs: when some
pair of `l` has a key that, leading separators removed, continues past the
segment `s`, `mapify l` maps `s` to the subtree of the continuing pairs; and
`mapify l` maps `s` to a leaf only if some pair has the stripped key `s` and no
pair continues past `s`. -/
theorem mapify_subtree_overrides (l : KVPairs) (s : Key) (hs : sep ∉ s) :
    ((∃ p ∈ l, ∃ rest, TrimLeft p.Key [sep] = s ++ sep :: rest) →
      GoMap.get (mapify l) s = some (Item.Subtree (mapify (subKVPairs l s)))) ∧
    (∀ v, GoMap.get (mapify l) s = some (Item.Leaf v) →
      (∃ p ∈ l, TrimLeft p.Key [sep] = s ∧ p.Value = v) ∧
      ¬ ∃ p ∈ l, ∃ rest, TrimLeft p.Key [sep] = s ++ sep :: rest) := by
  constructor
  · exact get_mapify_of_continues l s hs
  · intro v hv
    constructor
    · rw [get_mapify] at hv
      by_cases hg : group l s = []
      · rw [if_pos hg] at hv
        cases hl : leafValue l s with
        | none => rw [hl] at hv; exact Option.noConfusion hv
        | some w =>
          rw [hl] at hv
          simp only [Option.map_some', Option.some.injEq, Item.Leaf.injEq] at hv
          obtain ⟨p, hp, hlp⟩ := leafValue_some l s w hl
          obtain ⟨a, b⟩ := leafOf_eq_some_iff p s w hlp
          exact ⟨p, hp, a, by rw [b, hv]⟩
      · rw [if_neg hg] at hv
        simp only [Option.some.injEq] at hv
        exact Item.noConfusion hv
    · intro hc
      rw [get_mapify_of_continues l s hs hc] at hv
      simp only [Option.some.injEq] at hv
      exact Item.noConfusion hv

/-- Witness of C19: the pair with key exactly `a` stands after, then before,
the pair that continues past `a`. -/
theorem mapify_subtree_overrides_witness :
    sep ∉ "a".toList ∧
    GoMap.get (mapify [kv "a/b" "1", kv "a" "2"]) "a".toList =
      some (Item.Subtree [("b".toList, Item.Leaf "1".toList)]) ∧
    GoMap.get (mapify [kv "a" "2", kv "a/b" "1"]) "a".toList =
      some (Item.Subtree [("b".toList, Item.Leaf "1".toList)]) ∧
    GoMap.get (mapify [kv "a/b" "1", kv "a" "2"]) "a".toList =
      some (Item.Subtree (mapify (subKVPairs [kv "a/b" "1", kv "a" "2"] "a".toList))) :=
  ⟨by decide, by decide, by decide,
    (mapify_subtree_overrides [kv "a/b" "1", kv "a" "2"] "a".toList (by decide)).1
      ⟨kv "a/b" "1", by decide, "b".toList, by decide⟩⟩

/-! ## Repeated separators -/

theorem extraSep_trim (k1 k2 : Key) (h : ExtraSep k1 k2) :
    k1 ≠ [] ∧ k2 ≠ [] ∧
    (TrimLeft k1 [sep] = TrimLeft k2 [sep] ∨
      ∃ c P q, c ≠ sep ∧ q ≠ [] ∧ (c :: P).getLast? = some sep ∧
        TrimLeft k1 [sep] = c :: P ++ sep :: q ∧ TrimLeft k2 [sep] = c :: P ++ q) := by
  obtain ⟨P, q, hq, hP, h1, h2⟩ := h
  subst h1 h2
  induction P with
  | nil =>
    refine ⟨by simp, by simpa using hq, Or.inl ?_⟩
    rw [List.nil_append, List.nil_append, TrimLeft_cons_sep]
  | cons c P ih =>
    refine ⟨by simp, by simp, ?_⟩
    by_cases hc : c = sep
    · subst hc
      have hP' : P = [] ∨ P.getLast? = some sep := by
        cases P with
        | nil => exact Or.inl rfl
        | cons d P2 =>
          right
          rcases hP with h | h
          · exact absurd h (List.cons_ne_nil _ _)
          · rw [List.getLast?_cons_cons] at h
            exact h
      rw [List.cons_append, List.cons_append, TrimLeft_cons_sep, TrimLeft_cons_sep]
      exact (ih hP').2.2
    · right
      have hl : (c :: P).getLast? = some sep := by
        rcases hP with h | h
        · exact absurd h (List.cons_ne_nil _ _)
        · exact h
      refine ⟨c, P, q, hc, hq, hl, ?_, ?_⟩
      · rw [List.cons_append, TrimLeft_cons_ne c _ hc]
      · rw [List.cons_append, TrimLeft_cons_ne c _ hc]

theorem extraSep_split (c : Char) (P q : Key) (_hc : c ≠ sep) (hq : q ≠ [])
    (hl : (c :: P).getLast? = some sep) :
    ∃ s r1 r2, sep ∉ s ∧ c :: P ++ sep :: q = s ++ sep :: r1 ∧ c :: P ++ q = s ++ sep :: r2 ∧
      ExtraSep r1 r2 := by
  have hm : sep ∈ c :: P := List.mem_of_mem_getLast? hl
  have hd := take_drop_indexOf (c :: P) hm
  have hn := not_mem_take_indexOf (c :: P)
  generalize (c :: P).take ((c :: P).indexOf sep) = s at hd hn
  generalize (c :: P).drop ((c :: P).indexOf sep + 1) = P2 at hd
  refine ⟨s, P2 ++ sep :: q, P2 ++ q, hn, ?_, ?_, ?_⟩
  · rw [hd]; simp
  · rw [hd]; simp
  · refine ⟨P2, q, hq, ?_, rfl, rfl⟩
    cases P2 with
    | nil => exact Or.inl rfl
    | cons d P3 =>
      right
      rw [hd, List.getLast?_append_of_ne_nil _ (List.cons_ne_nil _ _),
        List.getLast?_cons_cons] at hl
      exact hl

theorem sameUpToSep_refl (p : KVPair) : SameUpToSep p p := ⟨rfl, Or.inl rfl⟩

theorem sameUpToSep_action (p1 p2 : KVPair) (h : SameUpToSep p1 p2) :
    (branchOf p1 = branchOf p2 ∧ leafOf p1 = leafOf p2) ∨
    ∃ s q1 q2, branchOf p1 = some (s, q1) ∧ branchOf p2 = some (s, q2) ∧ SameUpToSep q1 q2 := by
  obtain ⟨v1, hk⟩ := h
  obtain ⟨k1, w1⟩ := p1
  obtain ⟨k2, w2⟩ := p2
  simp only at v1 hk
  subst v1
  rcases hk with hk | hk
  · subst hk
    exact Or.inl ⟨rfl, rfl⟩
  · obtain ⟨n1, n2, ht⟩ := extraSep_trim k1 k2 hk
    rcases ht with ht | ⟨c, P, q, hc, hq, hl, t1, t2⟩
    · left
      constructor
      · unfold branchOf
        simp only [ht]
      · unfold leafOf
        simp only [ht, n1, n2, ne_eq, not_false_eq_true, and_true]
    · right
      obtain ⟨s, r1, r2, hs, e1, e2, hr⟩ := extraSep_split c P q hc hq hl
      refine ⟨s, ⟨r1, w1⟩, ⟨r2, w1⟩, ?_, ?_, rfl, Or.inr hr⟩
      · exact branchOf_of_eq ⟨k1, w1⟩ s r1 hs (by rw [t1, e1])
      · exact branchOf_of_eq ⟨k2, w1⟩ s r2 hs (by rw [t2, e2])

theorem sameUpToSep_group (l1 l2 : KVPairs) (h : List.Forall₂ SameUpToSep l1 l2) (s : Key) :
    List.Forall₂ SameUpToSep (group l1 s) (group l2 s) ∧ leafValue l1 s = leafValue l2 s := by
  induction h with
  | nil => exact ⟨List.Forall₂.nil, rfl⟩
  | @cons p1 p2 r1 r2 hp _ ih =>
    rw [group_cons, group_cons]
    simp only [leafValue, ih.2]
    rcases sameUpToSep_action p1 p2 hp with ⟨hb, hl⟩ | ⟨s0, q1, q2, hb1, hb2, hq⟩
    · rw [hb, hl]
      refine ⟨?_, rfl⟩
      cases hb2 : branchOf p2 with
      | none => exact ih.1
      | some e =>
        obtain ⟨s0, q⟩ := e
        simp only
        by_cases hs : s0 = s
        · simp only [hs, if_true, List.singleton_append]
          exact List.Forall₂.cons (sameUpToSep_refl q) ih.1
        · simp only [hs, if_false, List.nil_append]
          exact ih.1
    · rw [hb1, hb2, branchOf_some_leafOf p1 _ hb1, branchOf_some_leafOf p2 _ hb2]
      refine ⟨?_, rfl⟩
      simp only
      by_cases hs : s0 = s
      · simp only [hs, if_true, List.singleton_append]
        exact List.Forall₂.cons hq ih.1
      · simp only [hs, if_false, List.nil_append]
        exact ih.1

theorem mapify_sameUpToSep (n : Nat) (l1 l2 : KVPairs) (hn : maxSeps l1 < n)
    (h : List.Forall₂ SameUpToSep l1 l2) : mapify l1 = mapify l2 := by
  induction n generalizing l1 l2 with
  | zero => omega
  | succ n ih =>
    apply GoMap.ext _ _ (mapify_sorted l1) (mapify_sorted l2)
    intro s
    obtain ⟨hg, hl⟩ := sameUpToSep_group l1 l2 h s
    rw [get_mapify, get_mapify, hl]
    by_cases h1 : group l1 s = []
    · have h2 : group l2 s = [] := by
        have := hg.length_eq
        rw [h1] at this
        exact List.length_eq_zero.mp this.symm
      rw [if_pos h1, if_pos h2]
    · have h2 : group l2 s ≠ [] := by
        intro e
        have := hg.length_eq
        rw [e] at this
        exact h1 (List.length_eq_zero.mp this)
      rw [if_neg h1, if_neg h2]
      congr 2
      apply ih _ _ _ hg
      rcases maxSeps_group l1 s with h | h
      · omega
      · exact absurd h h1

theorem forall₂_sameUpToSep_refl (l : KVPairs) : List.Forall₂ SameUpToSep l l := by
  induction l with
  | nil => exact List.Forall₂.nil
  | cons p r ih => exact List.Forall₂.cons (sameUpToSep_refl p) ih

/-- C20. Repeated interior separators collapse when more key follows: for a
non-empty `q`, replacing the pair of key `p ++ "/" ++ q` by the pair of key
`p ++ "//" ++ q` anywhere in the sequence leaves `mapify` unchanged. -/
theorem mapify_double_sep (p q : Key) (hq : q ≠ []) (v : List Char) (pre post : KVPairs) :
    mapify (pre ++ [⟨p ++ [sep, sep] ++ q, v⟩] ++ post) =
      mapify (pre ++ [⟨p ++ [sep] ++ q, v⟩] ++ post) := by
  apply mapify_sameUpToSep _ _ _ (Nat.lt_succ_self _)
  apply List.rel_append (List.rel_append (forall₂_sameUpToSep_refl pre) _)
    (forall₂_sameUpToSep_refl post)
  refine List.Forall₂.cons ⟨rfl, Or.inr ⟨p ++ [sep], q, hq, Or.inr (by simp), ?_, ?_⟩⟩
    List.Forall₂.nil
  · simp
  · simp

/-- Witness of C20 on the keys `a//b` and `a/b`. -/
theorem mapify_double_sep_witness :
    "b".toList ≠ [] ∧
    mapify [kv "a//b" "v", kv "c" "w"] = mapify [kv "a/b" "v", kv "c" "w"] ∧
    mapify ([] ++ [⟨"a".toList ++ [sep, sep] ++ "b".toList, "v".toList⟩] ++ [kv "c" "w"]) =
      mapify ([] ++ [⟨"a".toList ++ [sep] ++ "b".toList, "v".toList⟩] ++ [kv "c" "w"]) :=
  ⟨by decide, by decide,
    mapify_double_sep "a".toList "b".toList (by decide) "v".toList [] [kv "c" "w"]⟩

/-! ## The effect of `mapify` on its input -/

theorem read_of_le (h : Heap) (a : Nat) (ha : h.length ≤ a) : h.read a = ⟨[], []⟩ := by
  unfold Heap.read
  rw [List.getD_eq_getElem?_getD, List.getElem?_eq_none ha]
  rfl

theorem lt_of_key_ne_nil (h : Heap) (a : Nat) (hk : (h.read a).Key ≠ []) : a < h.length := by
  by_contra hlt
  exact hk (by rw [read_of_le h a (not_lt.mp hlt)])

theorem read_writeKey_self (h : Heap) (a : Nat) (k : Key) (ha : a < h.length) :
    (h.writeKey a k).read a = { h.read a with Key := k } := by
  unfold Heap.writeKey Heap.read
  rw [List.getD_eq_getElem?_getD, List.getElem?_set_self ha]
  rfl

theorem read_writeKey_ne (h : Heap) (a b : Nat) (k : Key) (hab : a ≠ b) :
    (h.writeKey a k).read b = h.read b := by
  unfold Heap.writeKey Heap.read
  rw [List.getD_eq_getElem?_getD, List.getElem?_set_ne hab, List.getD_eq_getElem?_getD]

theorem writeKey_of_le (h : Heap) (a : Nat) (k : Key) (ha : h.length ≤ a) :
    h.writeKey a k = h := by
  unfold Heap.writeKey
  exact List.set_eq_of_length_le ha

theorem length_writeKey (h : Heap) (a : Nat) (k : Key) : (h.writeKey a k).length = h.length := by
  unfold Heap.writeKey
  exact List.length_set _ _ _

theorem keysShortened_refl (h : Heap) : KeysShortened h h :=
  ⟨rfl, fun _ => ⟨rfl, List.suffix_refl _, fun e => absurd rfl e⟩⟩

theorem keysShortened_trans (h1 h2 h3 : Heap) (a : KeysShortened h1 h2)
    (b : KeysShortened h2 h3) : KeysShortened h1 h3 := by
  refine ⟨b.1.trans a.1, fun x => ?_⟩
  obtain ⟨a1, a2, a3⟩ := a.2 x
  obtain ⟨b1, b2, b3⟩ := b.2 x
  refine ⟨b1.trans a1, b2.trans a2, fun hne => ?_⟩
  by_cases e : (h2.read x).Key = (h1.read x).Key
  · rw [← e]
    exact b3 (by rw [e]; exact hne)
  · exact a3 e

theorem keysShortened_writeKey (h : Heap) (a : Nat) (k : Key)
    (hsuf : k <:+ (h.read a).Key) (hsep : k ≠ (h.read a).Key → sep ∈ (h.read a).Key) :
    KeysShortened h (h.writeKey a k) := by
  by_cases ha : a < h.length
  · refine ⟨length_writeKey h a k, fun b => ?_⟩
    by_cases hab : a = b
    · subst hab
      rw [read_writeKey_self h a k ha]
      exact ⟨rfl, hsuf, hsep⟩
    · rw [read_writeKey_ne h a b k hab]
      exact ⟨rfl, List.suffix_refl _, fun e => absurd rfl e⟩
  · rw [writeKey_of_le h a k (not_lt.mp ha)]
    exact keysShortened_refl h

theorem mapifyInsertPtr_heap (st : PtrState) (a : Nat) (i : Int) :
    (mapifyInsertPtr st a i).heap =
      if i = -1 then st.heap else st.heap.writeKey a (sliceFrom (st.heap.read a).Key (i + 1)) := by
  unfold mapifyInsertPtr
  by_cases hi : i = -1
  · simp only [hi, if_true]
  · simp only [hi, if_false]

theorem mapifyInsertPtr_shortened (st : PtrState) (a : Nat) :
    KeysShortened st.heap (mapifyInsertPtr st a (IndexByte (st.heap.read a).Key sep)).heap := by
  rw [mapifyInsertPtr_heap]
  by_cases hm : sep ∈ (st.heap.read a).Key
  · rw [IndexByte_of_mem _ hm]
    have h1 : ¬ (((st.heap.read a).Key.indexOf sep : Int) = -1) := by omega
    rw [if_neg h1]
    apply keysShortened_writeKey
    · unfold sliceFrom
      exact List.drop_suffix _ _
    · exact fun _ => hm
  · rw [IndexByte_of_not_mem _ hm, if_pos rfl]
    exact keysShortened_refl _

theorem TrimLeft_shortened (st : PtrState) (a : Nat)
    (h0 : IndexByte (st.heap.read a).Key sep = 0) :
    KeysShortened st.heap (st.heap.writeKey a (TrimLeft (st.heap.read a).Key [sep])) := by
  apply keysShortened_writeKey
  · exact TrimLeft_suffix _
  · intro _
    obtain ⟨r, hr⟩ := (IndexByte_eq_zero_iff _).mp h0
    rw [hr]
    exact List.mem_cons_self _ _

theorem mapifyStepPtr_shortened (st : PtrState) (a : Nat) :
    KeysShortened st.heap (mapifyStepPtr st a).heap := by
  unfold mapifyStepPtr
  simp only
  by_cases h0 : IndexByte (st.heap.read a).Key sep = 0
  · simp only [h0, if_true]
    have h1 := TrimLeft_shortened st a h0
    split
    · exact h1
    · exact keysShortened_trans _ _ _ h1
        (mapifyInsertPtr_shortened
          { st with heap := st.heap.writeKey a (TrimLeft (st.heap.read a).Key [sep]) } a)
  · simp only [h0, if_false]
    exact mapifyInsertPtr_shortened st a

theorem foldl_step_shortened (kvps : KVPointers) (st : PtrState) :
    KeysShortened st.heap (kvps.foldl mapifyStepPtr st).heap := by
  induction kvps generalizing st with
  | nil => exact keysShortened_refl _
  | cons a rest ih =>
    rw [List.foldl_cons]
    exact keysShortened_trans _ _ _ (mapifyStepPtr_shortened st a) (ih _)

theorem mapifyFinishPtr_shortened (recur : Heap → KVPointers → Map × Heap)
    (hr : ∀ h ks, KeysShortened h (recur h ks).2) (st : PtrState) :
    KeysShortened st.heap (mapifyFinishPtr recur st).2 := by
  unfold mapifyFinishPtr
  generalize st.m = m
  generalize st.heap = h
  induction st.prefixSet generalizing m h with
  | nil => exact keysShortened_refl _
  | cons e rest ih =>
    rw [List.foldl_cons]
    exact keysShortened_trans _ _ _ (hr h e.2) (ih _ _)

theorem mapifyFuelPtr_shortened (n : Nat) (h : Heap) (kvps : KVPointers) :
    KeysShortened h (mapifyFuelPtr n h kvps).2 := by
  induction n generalizing h kvps with
  | zero => exact keysShortened_refl _
  | succ n ih =>
    simp only [mapifyFuelPtr]
    exact keysShortened_trans _ _ _ (foldl_step_shortened kvps _)
      (mapifyFinishPtr_shortened _ ih _)

theorem TrimLeft_length_lt (r : Key) : (TrimLeft (sep :: r) [sep]).length < (sep :: r).length := by
  rw [TrimLeft_cons_sep]
  have := (TrimLeft_suffix r).length_le
  simp only [List.length_cons]
  omega

theorem mapifyStepPtr_shorter (st : PtrState) (a : Nat) (hm : sep ∈ (st.heap.read a).Key) :
    ((mapifyStepPtr st a).heap.read a).Key.length < (st.heap.read a).Key.length := by
  have ha : a < st.heap.length := lt_of_key_ne_nil st.heap a (List.ne_nil_of_mem hm)
  unfold mapifyStepPtr
  simp only
  by_cases h0 : IndexByte (st.heap.read a).Key sep = 0
  · simp only [h0, if_true]
    obtain ⟨r, hr⟩ := (IndexByte_eq_zero_iff _).mp h0
    have hlt : ((st.heap.writeKey a (TrimLeft (st.heap.read a).Key [sep])).read a).Key.length <
        (st.heap.read a).Key.length := by
      rw [read_writeKey_self _ _ _ ha]
      simp only
      rw [hr]
      exact TrimLeft_length_lt r
    split
    · exact hlt
    · have h2 := (mapifyInsertPtr_shortened
        { st with heap := st.heap.writeKey a (TrimLeft (st.heap.read a).Key [sep]) } a).2 a
      have := h2.2.1.length_le
      simp only at this
      omega
  · simp only [h0, if_false]
    rw [mapifyInsertPtr_heap, IndexByte_of_mem _ hm]
    have h1 : ¬ (((st.heap.read a).Key.indexOf sep : Int) = -1) := by omega
    rw [if_neg h1, read_writeKey_self _ _ _ ha]
    simp only [sliceFrom]
    have e2 : (((st.heap.read a).Key.indexOf sep : Int) + 1).toNat =
        (st.heap.read a).Key.indexOf sep + 1 := by omega
    rw [e2, List.length_drop]
    have := indexOf_lt_of_mem _ hm
    omega

theorem keysShortened_length_le (h h1 : Heap) (hs : KeysShortened h h1) (a : Nat) :
    (h1.read a).Key.length ≤ (h.read a).Key.length :=
  (hs.2 a).2.1.length_le

theorem foldl_step_shorter (kvps : KVPointers) (st : PtrState) (a : Nat) (ha : a ∈ kvps)
    (hm : sep ∈ (st.heap.read a).Key) :
    ((kvps.foldl mapifyStepPtr st).heap.read a).Key.length < (st.heap.read a).Key.length := by
  induction kvps generalizing st with
  | nil => simp at ha
  | cons b rest ih =>
    rw [List.foldl_cons]
    have h1 := mapifyStepPtr_shortened st b
    have h2 := keysShortened_length_le _ _ (foldl_step_shortened rest (mapifyStepPtr st b)) a
    by_cases hab : a = b
    · subst hab
      have := mapifyStepPtr_shorter st a hm
      omega
    · have har : a ∈ rest := by
        rcases List.mem_cons.mp ha with h | h
        · exact absurd h hab
        · exact h
      by_cases he : ((mapifyStepPtr st b).heap.read a).Key = (st.heap.read a).Key
      · have := ih (mapifyStepPtr st b) har (by rw [he]; exact hm)
        rw [he] at this
        exact this
      · have hsuf := (h1.2 a).2.1
        have hle := hsuf.length_le
        have hne : ((mapifyStepPtr st b).heap.read a).Key.length ≠ (st.heap.read a).Key.length :=
          fun e => he (hsuf.eq_of_length e)
        omega

theorem mapifyPtr_shortened (heap : Heap) (kvps : KVPointers) :
    KeysShortened heap (mapifyPtr heap kvps).2 :=
  mapifyFuelPtr_shortened _ heap kvps

theorem mapifyPtr_shorter (heap : Heap) (kvps : KVPointers) (a : Nat) (ha : a ∈ kvps)
    (hm : sep ∈ (heap.read a).Key) :
    ((mapifyPtr heap kvps).2.read a).Key.length < (heap.read a).Key.length := by
  unfold mapifyPtr
  simp only [mapifyFuelPtr]
  have h1 : ((mapifyLoopPtr heap kvps).heap.read a).Key.length < (heap.read a).Key.length :=
    foldl_step_shorter kvps { m := [], prefixSet := [], heap := heap } a ha hm
  have h2 := keysShortened_length_le _ _
    (mapifyFinishPtr_shortened (mapifyFuelPtr (maxSeps (kvps.map heap.read)))
      (mapifyFuelPtr_shortened _) (mapifyLoopPtr heap kvps)) a
  omega

/-- C17, counterexample. After `mapify` on the one pair of key `a/b`, the key
of that pair is `b`. -/
theorem mapifyPtr_overwrites_key :
    (mapifyPtr [kv "a/b" "v"] [0]).1 = mapify [kv "a/b" "v"] ∧
    (mapifyPtr [kv "a/b" "v"] [0]).2 = [kv "b" "v"] ∧
    ((mapifyPtr [kv "a/b" "v"] [0]).2.read 0).Key ≠ (Heap.read [kv "a/b" "v"] 0).Key := by
  decide

/-- C17, amended. After `mapify kvps` returns, every pair of `kvps` has the
same `Value` as before the call; it has the same `Key` as before exactly when
that key contains no separator, and otherwise its `Key` has been overwritten
by a strictly shorter suffix of it. -/
theorem mapifyPtr_effect (heap : Heap) (kvps : KVPointers) (a : Nat) (ha : a ∈ kvps) :
    ((mapifyPtr heap kvps).2.read a).Value = (heap.read a).Value ∧
    (((mapifyPtr heap kvps).2.read a).Key = (heap.read a).Key ↔ sep ∉ (heap.read a).Key) ∧
    (sep ∈ (heap.read a).Key →
      ((mapifyPtr heap kvps).2.read a).Key <:+ (heap.read a).Key ∧
      ((mapifyPtr heap kvps).2.read a).Key.length < (heap.read a).Key.length) := by
  obtain ⟨h1, h2, h3⟩ := (mapifyPtr_shortened heap kvps).2 a
  refine ⟨h1, ⟨?_, ?_⟩, fun hm => ⟨h2, mapifyPtr_shorter heap kvps a ha hm⟩⟩
  · intro he hm
    have := mapifyPtr_shorter heap kvps a ha hm
    rw [he] at this
    exact lt_irrefl _ this
  · intro hm
    by_contra hne
    exact hm (h3 hne)

/-- Witness of C17 (amended): of the two pairs, the one with the key `a/b` is
overwritten, the one with the key `c` is not. -/
theorem mapifyPtr_effect_witness :
    (mapifyPtr [kv "a/b" "v", kv "c" "w"] [0, 1]).2 = [kv "b" "v", kv "c" "w"] ∧
    (((mapifyPtr [kv "a/b" "v", kv "c" "w"] [0, 1]).2.read 1).Value =
        (Heap.read [kv "a/b" "v", kv "c" "w"] 1).Value ∧
      (((mapifyPtr [kv "a/b" "v", kv "c" "w"] [0, 1]).2.read 1).Key =
          (Heap.read [kv "a/b" "v", kv "c" "w"] 1).Key ↔
        sep ∉ (Heap.read [kv "a/b" "v", kv "c" "w"] 1).Key) ∧
      (sep ∈ (Heap.read [kv "a/b" "v", kv "c" "w"] 1).Key →
        ((mapifyPtr [kv "a/b" "v", kv "c" "w"] [0, 1]).2.read 1).Key <:+
            (Heap.read [kv "a/b" "v", kv "c" "w"] 1).Key ∧
          ((mapifyPtr [kv "a/b" "v", kv "c" "w"] [0, 1]).2.read 1).Key.length <
            (Heap.read [kv "a/b" "v", kv "c" "w"] 1).Key.length)) :=
  ⟨by decide, mapifyPtr_effect [kv "a/b" "v", kv "c" "w"] [0, 1] 1 (by decide)⟩

/-! ## `mapify` on pointers and `mapify` on pairs -/

theorem mapifyInsertPtr_key (st : PtrState) (b : Nat) :
    mapifyInsertPtr st b (IndexByte (st.heap.read b).Key sep) =
      if sep ∈ (st.heap.read b).Key then
        { m := st.m
          prefixSet := GoMap.set st.prefixSet
            ((st.heap.read b).Key.take ((st.heap.read b).Key.indexOf sep))
            ((GoMap.get st.prefixSet
              ((st.heap.read b).Key.take ((st.heap.read b).Key.indexOf sep))).getD [] ++ [b])
          heap := st.heap.writeKey b
            ((st.heap.read b).Key.drop ((st.heap.read b).Key.indexOf sep + 1)) }
      else
        { st with m := GoMap.set st.m (st.heap.read b).Key (Item.Leaf (st.heap.read b).Value) } := by
  generalize ht : (st.heap.read b).Key = t
  by_cases h : sep ∈ t
  · rw [if_pos h, IndexByte_of_mem t h]
    unfold mapifyInsertPtr
    have h1 : ¬ ((t.indexOf sep : Int) = -1) := by omega
    simp only [ht]
    rw [if_neg h1]
    simp only [sliceTo, sliceFrom]
    have e1 : ((t.indexOf sep : Int)).toNat = t.indexOf sep := by simp
    have e2 : ((t.indexOf sep : Int) + 1).toNat = t.indexOf sep + 1 := by omega
    rw [e1, e2]
    cases hg : GoMap.get st.prefixSet (List.take (List.indexOf sep t) t) with
    | none =>
      simp only [Option.isNone_none, if_true, GoMap.get_set, Option.getD_some, List.nil_append,
        Option.getD_none]
      rw [GoMap.set_set]
    | some g =>
      simp only [Option.isNone_some, Bool.false_eq_true, if_false, hg, Option.getD_some]
  · rw [if_neg h, IndexByte_of_not_mem t h]
    unfold mapifyInsertPtr
    simp only [ht, if_true]

theorem read_eta (h : Heap) (b : Nat) : (⟨(h.read b).Key, (h.read b).Value⟩ : KVPair) = h.read b :=
  rfl

theorem insertPtr_spec (s1 : PtrState) (b : Nat) (kvp : KVPair)
    (hv : (s1.heap.read b).Value = kvp.Value)
    (ht : (s1.heap.read b).Key = TrimLeft kvp.Key [sep])
    (hnil : TrimLeft kvp.Key [sep] = [] → kvp.Key = [])
    (hb : sep ∈ TrimLeft kvp.Key [sep] → b < s1.heap.length) :
    (mapifyInsertPtr s1 b (IndexByte (s1.heap.read b).Key sep)).m =
      (match branchOf kvp with
        | some _ => s1.m
        | none =>
          match leafOf kvp with
          | some q => GoMap.set s1.m q.Key (Item.Leaf q.Value)
          | none => s1.m) ∧
    (mapifyInsertPtr s1 b (IndexByte (s1.heap.read b).Key sep)).prefixSet =
      (match branchOf kvp with
        | some e => GoMap.set s1.prefixSet e.1 ((GoMap.get s1.prefixSet e.1).getD [] ++ [b])
        | none => s1.prefixSet) ∧
    ∀ a, (mapifyInsertPtr s1 b (IndexByte (s1.heap.read b).Key sep)).heap.read a =
      if a = b then afterStep kvp else s1.heap.read a := by
  rw [mapifyInsertPtr_key]
  unfold afterStep branchOf leafOf
  simp only [ht, hv]
  by_cases hm : sep ∈ TrimLeft kvp.Key [sep]
  · simp only [hm, if_true, true_and]
    intro a
    by_cases hab : a = b
    · subst hab
      rw [if_pos rfl, read_writeKey_self _ _ _ (hb hm)]
      simp only [hv]
    · rw [if_neg hab, read_writeKey_ne _ _ _ _ (fun e => hab e.symm)]
  · have hn : ¬ (TrimLeft kvp.Key [sep] = [] ∧ kvp.Key ≠ []) := fun h => h.2 (hnil h.1)
    simp only [hm, if_false, hn, true_and]
    intro a
    by_cases hab : a = b
    · subst hab
      rw [if_pos rfl, ← ht, ← hv]
    · rw [if_neg hab]

theorem mapifyStepPtr_spec (st : PtrState) (b : Nat) :
    (mapifyStepPtr st b).m =
      (match branchOf (st.heap.read b) with
        | some _ => st.m
        | none =>
          match leafOf (st.heap.read b) with
          | some q => GoMap.set st.m q.Key (Item.Leaf q.Value)
          | none => st.m) ∧
    (mapifyStepPtr st b).prefixSet =
      (match branchOf (st.heap.read b) with
        | some e => GoMap.set st.prefixSet e.1 ((GoMap.get st.prefixSet e.1).getD [] ++ [b])
        | none => st.prefixSet) ∧
    ∀ a, (mapifyStepPtr st b).heap.read a =
      if a = b then afterStep (st.heap.read b) else st.heap.read a := by
  unfold mapifyStepPtr
  simp only
  by_cases h0 : IndexByte (st.heap.read b).Key sep = 0
  · simp only [h0, if_true]
    obtain ⟨r, hr⟩ := (IndexByte_eq_zero_iff _).mp h0
    have hne : (st.heap.read b).Key ≠ [] := by rw [hr]; exact List.cons_ne_nil _ _
    have hb : b < st.heap.length := lt_of_key_ne_nil st.heap b hne
    have hread : (st.heap.writeKey b (TrimLeft (st.heap.read b).Key [sep])).read b =
        { st.heap.read b with Key := TrimLeft (st.heap.read b).Key [sep] } :=
      read_writeKey_self _ _ _ hb
    by_cases hl : ((st.heap.writeKey b (TrimLeft (st.heap.read b).Key [sep])).read b).Key.length = 0
    · rw [if_pos hl]
      rw [hread] at hl
      simp only at hl
      have ht : TrimLeft (st.heap.read b).Key [sep] = [] := List.length_eq_zero.mp hl
      unfold afterStep branchOf leafOf
      simp only [ht, List.not_mem_nil, if_false, hne, ne_eq, not_false_eq_true, and_self,
        if_true, true_and]
      intro a
      by_cases hab : a = b
      · subst hab
        rw [if_pos rfl, read_writeKey_self _ _ _ hb]
      · rw [if_neg hab, read_writeKey_ne _ _ _ _ (fun e => hab e.symm)]
    · rw [if_neg hl]
      have hsp := insertPtr_spec
        { st with heap := st.heap.writeKey b (TrimLeft (st.heap.read b).Key [sep]) } b
        (st.heap.read b) (by simp only [hread]) (by simp only [hread])
        (by
          intro e
          rw [hread] at hl
          simp only at hl
          exact absurd (by rw [e]; rfl) hl)
        (by intro _; simp only [length_writeKey]; exact hb)
      obtain ⟨a1, a2, a3⟩ := hsp
      refine ⟨a1, a2, ?_⟩
      intro a
      rw [a3 a]
      by_cases hab : a = b
      · rw [if_pos hab, if_pos hab]
      · rw [if_neg hab, if_neg hab]
        simp only
        exact read_writeKey_ne _ _ _ _ (fun e => hab e.symm)
  · simp only [h0, if_false]
    have hh : ∀ r, (st.heap.read b).Key ≠ sep :: r :=
      fun r hr => h0 ((IndexByte_eq_zero_iff _).mpr ⟨r, hr⟩)
    have ht := TrimLeft_of_head _ hh
    exact insertPtr_spec st b (st.heap.read b) rfl ht.symm
      (by rw [ht]; exact fun e => e)
      (by
        rw [ht]
        intro hm
        exact lt_of_key_ne_nil st.heap b (List.ne_nil_of_mem hm))

theorem get_map_values {α β : Type} (f : α → β) (m : List (Key × α)) (k : Key) :
    GoMap.get (m.map (fun e => (e.1, f e.2))) k = (GoMap.get m k).map f := by
  induction m with
  | nil => rfl
  | cons e rest ih =>
    obtain ⟨k0, v0⟩ := e
    simp only [List.map_cons, GoMap.get]
    by_cases h : k = k0
    · simp only [h, if_true, Option.map_some']
    · simp only [h, if_false, ih]

theorem set_map_values {α β : Type} (f : α → β) (m : List (Key × α)) (k : Key) (v : α) :
    (GoMap.set m k v).map (fun e => (e.1, f e.2)) =
      GoMap.set (m.map (fun e => (e.1, f e.2))) k (f v) := by
  induction m with
  | nil => rfl
  | cons e rest ih =>
    obtain ⟨k0, v0⟩ := e
    simp only [List.map_cons, GoMap.set]
    by_cases h1 : k = k0
    · simp only [h1, if_true, List.map_cons]
    · simp only [h1, if_false]
      by_cases h2 : k < k0
      · simp only [h2, if_true, List.map_cons]
      · simp only [h2, if_false, List.map_cons, ih]

theorem mem_set {α : Type} (m : List (Key × α)) (k : Key) (v : α) (e : Key × α)
    (h : e ∈ GoMap.set m k v) : e = (k, v) ∨ e ∈ m := by
  induction m with
  | nil =>
    simp only [GoMap.set, List.mem_singleton] at h
    exact Or.inl h
  | cons e0 rest ih =>
    obtain ⟨k0, v0⟩ := e0
    simp only [GoMap.set] at h
    by_cases h1 : k = k0
    · simp only [h1, if_true, List.mem_cons] at h
      rcases h with h | h
      · left; rw [h, h1]
      · exact Or.inr (List.mem_cons_of_mem _ h)
    · simp only [h1, if_false] at h
      by_cases h2 : k < k0
      · simp only [h2, if_true, List.mem_cons] at h
        rcases h with h | h | h
        · exact Or.inl h
        · right; rw [h]; exact List.mem_cons_self _ _
        · exact Or.inr (List.mem_cons_of_mem _ h)
      · simp only [h2, if_false, List.mem_cons] at h
        rcases h with h | h
        · right; rw [h]; exact List.mem_cons_self _ _
        · rcases ih h with h | h
          · exact Or.inl h
          · exact Or.inr (List.mem_cons_of_mem _ h)

theorem mem_getD_get (ps : List (Key × KVPointers)) (s : Key) (a : Nat)
    (h : a ∈ (GoMap.get ps s).getD []) : ∃ e ∈ ps, a ∈ e.2 := by
  cases hg : GoMap.get ps s with
  | none => rw [hg] at h; simp at h
  | some g =>
    rw [hg] at h
    exact ⟨(s, g), GoMap.mem_of_get ps s g hg, h⟩

theorem deref_congr (h1 h2 : Heap) (ps : List (Key × KVPointers))
    (h : ∀ e ∈ ps, ∀ a ∈ e.2, h1.read a = h2.read a) : deref h1 ps = deref h2 ps := by
  unfold deref
  apply List.map_congr_left
  intro e he
  congr 1
  apply List.map_congr_left
  exact h e he

theorem sorted_deref (h : Heap) (ps : List (Key × KVPointers)) (hs : GoMap.Sorted ps) :
    GoMap.Sorted (deref h ps) := by
  unfold GoMap.Sorted GoMap.keys deref at *
  rw [List.map_map]
  exact hs

/-- The invariant of the loop on pointers: what the accumulators and the memory
are, next to the accumulators of the loop on the pairs. -/
theorem loopPtr_corr (kvps : KVPointers) (st : PtrState) (pst : LoopState)
    (hnd : kvps.Nodup) (hm : pst.1 = st.m) (hps : pst.2 = deref st.heap st.prefixSet)
    (hfresh : ∀ e ∈ st.prefixSet, ∀ a ∈ e.2, a ∉ kvps) :
    (kvps.map st.heap.read).foldl mapifyStep pst =
      ((kvps.foldl mapifyStepPtr st).m,
        deref (kvps.foldl mapifyStepPtr st).heap (kvps.foldl mapifyStepPtr st).prefixSet) := by
  induction kvps generalizing st pst with
  | nil =>
    simp only [List.map_nil, List.foldl_nil]
    rw [← hm, ← hps]
  | cons b rest ih =>
    have hb : b ∉ rest := (List.nodup_cons.mp hnd).1
    obtain ⟨s1, s2, s3⟩ := mapifyStepPtr_spec st b
    have hrest : rest.map (mapifyStepPtr st b).heap.read = rest.map st.heap.read := by
      apply List.map_congr_left
      intro a ha
      rw [s3 a, if_neg (fun (e : a = b) => hb (e ▸ ha))]
    have hbfresh : ∀ e ∈ st.prefixSet, b ∉ e.2 :=
      fun e he hbe => hfresh e he b hbe (List.mem_cons_self _ _)
    have hderef : deref (mapifyStepPtr st b).heap st.prefixSet = deref st.heap st.prefixSet := by
      apply deref_congr
      intro e he a ha
      rw [s3 a, if_neg (fun (e1 : a = b) => hbfresh e he (e1 ▸ ha))]
    rw [List.map_cons, List.foldl_cons, List.foldl_cons, ← hrest]
    apply ih _ _ (List.nodup_cons.mp hnd).2
    · rw [mapifyStep_eq, s1]
      cases hbr : branchOf (st.heap.read b) with
      | some e => exact hm
      | none =>
        simp only
        cases hl : leafOf (st.heap.read b) with
        | none => exact hm
        | some q => simp only [hm]
    · rw [mapifyStep_eq, s2]
      cases hbr : branchOf (st.heap.read b) with
      | some e =>
        obtain ⟨s, q⟩ := e
        simp only
        unfold deref
        rw [set_map_values]
        have e1 : List.map (fun e => (e.1, List.map (mapifyStepPtr st b).heap.read e.2))
            st.prefixSet = pst.2 := by
          rw [hps]; exact hderef
        rw [e1]
        congr 1
        rw [hps]
        unfold deref
        rw [get_map_values, List.map_append, List.map_singleton]
        have e2 : (mapifyStepPtr st b).heap.read b = q := by
          rw [s3 b, if_pos rfl]
          unfold afterStep
          rw [hbr]
        rw [e2]
        congr 1
        cases hg : GoMap.get st.prefixSet s with
        | none => rfl
        | some g =>
          simp only [Option.getD_some, Option.map_some']
          apply List.map_congr_left
          intro a ha
          rw [s3 a, if_neg]
          intro (e3 : a = b)
          exact hbfresh (s, g) (GoMap.mem_of_get _ _ _ hg) (e3 ▸ ha)
      | none =>
        simp only
        rw [hderef]
        cases hl : leafOf (st.heap.read b) <;> exact hps
    · intro e he a ha har
      rw [s2] at he
      cases hbr : branchOf (st.heap.read b) with
      | none =>
        rw [hbr] at he
        exact hfresh e he a ha (List.mem_cons_of_mem _ har)
      | some e0 =>
        rw [hbr] at he
        simp only at he
        rcases mem_set _ _ _ _ he with h | h
        · rw [h] at ha
          simp only [List.mem_append, List.mem_singleton] at ha
          rcases ha with ha | ha
          · obtain ⟨e1, he1, ha1⟩ := mem_getD_get _ _ _ ha
            exact hfresh e1 he1 a ha1 (List.mem_cons_of_mem _ har)
          · exact hb (ha ▸ har)
        · exact hfresh e h a ha (List.mem_cons_of_mem _ har)

theorem pairwise_set_append (ps : List (Key × KVPointers)) (s : Key) (b : Nat)
    (hs : GoMap.Sorted ps) (hpw : ps.Pairwise (fun e1 e2 => ∀ a ∈ e1.2, a ∉ e2.2))
    (hfresh : ∀ e ∈ ps, b ∉ e.2) :
    (GoMap.set ps s ((GoMap.get ps s).getD [] ++ [b])).Pairwise
      (fun e1 e2 => ∀ a ∈ e1.2, a ∉ e2.2) := by
  induction ps with
  | nil =>
    simp only [GoMap.set]
    exact List.pairwise_singleton _ _
  | cons e0 rest ih =>
    obtain ⟨k0, v0⟩ := e0
    have hs' := List.pairwise_cons.mp hs
    have hpw' := List.pairwise_cons.mp hpw
    simp only [GoMap.set, GoMap.get]
    by_cases h1 : s = k0
    · simp only [h1, if_true, Option.getD_some]
      refine List.pairwise_cons.mpr ⟨?_, hpw'.2⟩
      intro e he a ha
      rcases List.mem_append.mp ha with ha | ha
      · exact hpw'.1 e he a ha
      · rw [List.mem_singleton.mp ha]
        exact hfresh e (List.mem_cons_of_mem _ he)
    · simp only [h1, if_false]
      by_cases h2 : s < k0
      · simp only [h2, if_true]
        have hn : GoMap.get rest s = none := by
          rw [GoMap.get_eq_none_iff]
          intro hm
          exact lt_irrefl s (lt_trans h2 (hs'.1 s hm))
        rw [hn]
        refine List.pairwise_cons.mpr ⟨?_, hpw⟩
        intro e he a ha
        simp only [Option.getD_none, List.nil_append, List.mem_singleton] at ha
        rw [ha]
        exact hfresh e he
      · simp only [h2, if_false]
        refine List.pairwise_cons.mpr ⟨?_, ih hs'.2 hpw'.2
          (fun e he => hfresh e (List.mem_cons_of_mem _ he))⟩
        intro e he a ha
        rcases mem_set _ _ _ _ he with h | h
        · rw [h]
          intro hmem
          rcases List.mem_append.mp hmem with hmem | hmem
          · obtain ⟨e1, he1, ha1⟩ := mem_getD_get _ _ _ hmem
            exact hpw'.1 e1 he1 a ha ha1
          · rw [List.mem_singleton.mp hmem] at ha
            exact hfresh (k0, v0) (List.mem_cons_self _ _) ha
        · exact hpw'.1 e h a ha

theorem groupsDistinct_mono (ps : List (Key × KVPointers)) (seen seen1 : KVPointers)
    (h : GroupsDistinct ps seen) (hsub : ∀ a ∈ seen, a ∈ seen1) : GroupsDistinct ps seen1 :=
  ⟨h.1, fun e he => ⟨(h.2.1 e he).1, fun a ha => hsub a ((h.2.1 e he).2 a ha)⟩, h.2.2⟩

theorem groupsDistinct_step (st : PtrState) (b : Nat) (seen : KVPointers) (hb : b ∉ seen)
    (h : GroupsDistinct st.prefixSet seen) :
    GroupsDistinct (mapifyStepPtr st b).prefixSet (b :: seen) := by
  obtain ⟨_, s2, _⟩ := mapifyStepPtr_spec st b
  rw [s2]
  have hfresh : ∀ e ∈ st.prefixSet, b ∉ e.2 := fun e he hbe => hb ((h.2.1 e he).2 b hbe)
  cases hbr : branchOf (st.heap.read b) with
  | none => exact groupsDistinct_mono _ _ _ h (fun a ha => List.mem_cons_of_mem _ ha)
  | some e0 =>
    simp only
    refine ⟨GoMap.sorted_set _ _ _ h.1, ?_, pairwise_set_append _ _ _ h.1 h.2.2 hfresh⟩
    intro e he
    rcases mem_set _ _ _ _ he with he | he
    · rw [he]
      simp only
      constructor
      · rw [List.nodup_append]
        refine ⟨?_, List.nodup_singleton _, ?_⟩
        · cases hg : GoMap.get st.prefixSet e0.1 with
          | none => exact List.nodup_nil
          | some g => exact (h.2.1 _ (GoMap.mem_of_get _ _ _ hg)).1
        · intro a ha hab
          rw [List.mem_singleton.mp hab] at ha
          obtain ⟨e1, he1, ha1⟩ := mem_getD_get _ _ _ ha
          exact hfresh e1 he1 ha1
      · intro a ha
        rcases List.mem_append.mp ha with ha | ha
        · obtain ⟨e1, he1, ha1⟩ := mem_getD_get _ _ _ ha
          exact List.mem_cons_of_mem _ ((h.2.1 e1 he1).2 a ha1)
        · rw [List.mem_singleton.mp ha]
          exact List.mem_cons_self _ _
    · exact ⟨(h.2.1 e he).1, fun a ha => List.mem_cons_of_mem _ ((h.2.1 e he).2 a ha)⟩

theorem groupsDistinct_foldl (kvps : KVPointers) (st : PtrState) (seen : KVPointers)
    (hnd : kvps.Nodup) (hfresh : ∀ a ∈ kvps, a ∉ seen)
    (h : GroupsDistinct st.prefixSet seen) :
    GroupsDistinct (kvps.foldl mapifyStepPtr st).prefixSet (kvps.reverse ++ seen) := by
  induction kvps generalizing st seen with
  | nil => exact h
  | cons b rest ih =>
    rw [List.foldl_cons, List.reverse_cons, List.append_assoc]
    apply ih _ _ (List.nodup_cons.mp hnd).2
    · intro a ha hmem
      rcases List.mem_cons.mp hmem with hmem | hmem
      · exact (List.nodup_cons.mp hnd).1 (hmem ▸ ha)
      · exact hfresh a (List.mem_cons_of_mem _ ha) hmem
    · exact groupsDistinct_step st b seen (hfresh b (List.mem_cons_self _ _)) h

theorem groupsDistinct_loop (heap : Heap) (kvps : KVPointers) (hnd : kvps.Nodup) :
    GroupsDistinct (mapifyLoopPtr heap kvps).prefixSet kvps := by
  have := groupsDistinct_foldl kvps { m := [], prefixSet := [], heap := heap } [] hnd
    (fun _ _ h => List.not_mem_nil _ h)
    ⟨sorted_nil, fun _ he => absurd he (List.not_mem_nil _), List.Pairwise.nil⟩
  exact groupsDistinct_mono _ _ _ this (fun a ha => by simpa using ha)

theorem foldl_step_frame (kvps : KVPointers) (st : PtrState) (a : Nat) (ha : a ∉ kvps) :
    (kvps.foldl mapifyStepPtr st).heap.read a = st.heap.read a := by
  induction kvps generalizing st with
  | nil => rfl
  | cons b rest ih =>
    rw [List.foldl_cons, ih _ (fun h => ha (List.mem_cons_of_mem _ h)),
      (mapifyStepPtr_spec st b).2.2 a, if_neg (fun (e : a = b) => ha (e ▸ List.mem_cons_self _ _))]

theorem finishPtr_frame (recur : Heap → KVPointers → Map × Heap) (a : Nat)
    (hr : ∀ h ks, ks.Nodup → a ∉ ks → (recur h ks).2.read a = h.read a)
    (ps : List (Key × KVPointers)) (m : Map) (h : Heap)
    (hps : ∀ e ∈ ps, e.2.Nodup ∧ a ∉ e.2) :
    (ps.foldl (fun acc e => (GoMap.set acc.1 e.1 (Item.Subtree (recur acc.2 e.2).1),
      (recur acc.2 e.2).2)) (m, h)).2.read a = h.read a := by
  induction ps generalizing m h with
  | nil => rfl
  | cons e rest ih =>
    rw [List.foldl_cons, ih _ _ (fun e1 he1 => hps e1 (List.mem_cons_of_mem _ he1))]
    exact hr h e.2 (hps e (List.mem_cons_self _ _)).1 (hps e (List.mem_cons_self _ _)).2

theorem mapifyFuelPtr_frame (n : Nat) (h : Heap) (ks : KVPointers) (hnd : ks.Nodup) (a : Nat)
    (ha : a ∉ ks) : (mapifyFuelPtr n h ks).2.read a = h.read a := by
  induction n generalizing h ks with
  | zero => rfl
  | succ n ih =>
    simp only [mapifyFuelPtr]
    have hg := groupsDistinct_loop h ks hnd
    have := finishPtr_frame (mapifyFuelPtr n) a (fun h1 ks1 hnd1 ha1 => ih h1 ks1 hnd1 ha1)
      (mapifyLoopPtr h ks).prefixSet (mapifyLoopPtr h ks).m (mapifyLoopPtr h ks).heap
      (fun e he => ⟨(hg.2.1 e he).1, fun hae => ha ((hg.2.1 e he).2 a hae)⟩)
    unfold mapifyFinishPtr
    rw [this]
    exact foldl_step_frame ks _ a ha

theorem finishPtr_corr (recur : Heap → KVPointers → Map × Heap) (f : KVPairs → Map)
    (hr1 : ∀ h ks, ks.Nodup → (recur h ks).1 = f (ks.map h.read))
    (hr2 : ∀ h ks a, ks.Nodup → a ∉ ks → (recur h ks).2.read a = h.read a)
    (ps : List (Key × KVPointers)) (m : Map) (h : Heap)
    (hnd : ∀ e ∈ ps, e.2.Nodup)
    (hpw : ps.Pairwise (fun e1 e2 => ∀ a ∈ e1.2, a ∉ e2.2)) :
    (ps.foldl (fun acc e => (GoMap.set acc.1 e.1 (Item.Subtree (recur acc.2 e.2).1),
      (recur acc.2 e.2).2)) (m, h)).1 =
    (deref h ps).foldl (fun m e => GoMap.set m e.1 (Item.Subtree (f e.2))) m := by
  induction ps generalizing m h with
  | nil => rfl
  | cons e rest ih =>
    have hpw' := List.pairwise_cons.mp hpw
    have hnde := hnd e (List.mem_cons_self _ _)
    rw [List.foldl_cons, ih _ _ (fun e1 he1 => hnd e1 (List.mem_cons_of_mem _ he1)) hpw'.2]
    have hd : deref (recur h e.2).2 rest = deref h rest := by
      apply deref_congr
      intro e1 he1 a ha
      exact hr2 h e.2 a hnde (fun hae => hpw'.1 e1 he1 a hae ha)
    rw [hd, hr1 h e.2 hnde]
    rfl

/-- For distinct pointers, the map that `mapify` on pointers returns is the
map that `mapify` returns on the list of the pairs pointed to, at every
fuel. -/
theorem mapifyFuelPtr_fst (n : Nat) (h : Heap) (ks : KVPointers) (hnd : ks.Nodup) :
    (mapifyFuelPtr n h ks).1 = mapifyFuel n (ks.map h.read) := by
  induction n generalizing h ks with
  | zero => rfl
  | succ n ih =>
    simp only [mapifyFuelPtr, mapifyFuel]
    have hg := groupsDistinct_loop h ks hnd
    have hc := loopPtr_corr ks { m := [], prefixSet := [], heap := h } ([], []) hnd rfl rfl
      (fun _ he => absurd he (List.not_mem_nil _))
    have hl : mapifyLoop (ks.map h.read) =
        ((mapifyLoopPtr h ks).m, deref (mapifyLoopPtr h ks).heap (mapifyLoopPtr h ks).prefixSet) :=
      hc
    rw [hl]
    unfold mapifyFinishPtr mapifyFinish
    exact finishPtr_corr (mapifyFuelPtr n) (mapifyFuel n) ih
      (fun h1 ks1 a hnd1 ha1 => mapifyFuelPtr_frame n h1 ks1 hnd1 a ha1)
      _ _ _ (fun e he => (hg.2.1 e he).1) hg.2.2

/-- For distinct pointers, `mapify` on pointers returns the map that `mapify`
returns on the list of the pairs pointed to, and touches no other pair. -/
theorem mapifyPtr_fst (h : Heap) (ks : KVPointers) (hnd : ks.Nodup) :
    (mapifyPtr h ks).1 = mapify (ks.map h.read) ∧
    ∀ a, a ∉ ks → (mapifyPtr h ks).2.read a = h.read a :=
  ⟨mapifyFuelPtr_fst _ h ks hnd, fun a ha => mapifyFuelPtr_frame _ h ks hnd a ha⟩

theorem finishPtr_congr (r1 r2 : Heap → KVPointers → Map × Heap) (h0 : Heap)
    (hframe : ∀ h ks a, ks.Nodup → a ∉ ks → (r1 h ks).2.read a = h.read a)
    (ps : List (Key × KVPointers)) (m : Map) (h : Heap)
    (hsame : ∀ e ∈ ps, ∀ a ∈ e.2, h.read a = h0.read a)
    (hnd : ∀ e ∈ ps, e.2.Nodup)
    (hpw : ps.Pairwise (fun e1 e2 => ∀ a ∈ e1.2, a ∉ e2.2))
    (hr : ∀ e ∈ ps, ∀ h1, (∀ a ∈ e.2, h1.read a = h0.read a) → r1 h1 e.2 = r2 h1 e.2) :
    ps.foldl (fun acc e => (GoMap.set acc.1 e.1 (Item.Subtree (r1 acc.2 e.2).1),
      (r1 acc.2 e.2).2)) (m, h) =
    ps.foldl (fun acc e => (GoMap.set acc.1 e.1 (Item.Subtree (r2 acc.2 e.2).1),
      (r2 acc.2 e.2).2)) (m, h) := by
  induction ps generalizing m h with
  | nil => rfl
  | cons e rest ih =>
    have hpw' := List.pairwise_cons.mp hpw
    have hnde := hnd e (List.mem_cons_self _ _)
    have he := hr e (List.mem_cons_self _ _) h (hsame e (List.mem_cons_self _ _))
    rw [List.foldl_cons, List.foldl_cons, ← he]
    apply ih _ _ _ (fun e1 he1 => hnd e1 (List.mem_cons_of_mem _ he1)) hpw'.2
      (fun e1 he1 => hr e1 (List.mem_cons_of_mem _ he1))
    intro e1 he1 a ha
    rw [hframe h e.2 a hnde (fun hae => hpw'.1 e1 he1 a hae ha)]
    exact hsame e1 (List.mem_cons_of_mem _ he1) a ha

theorem mapifyFuelPtr_eq (n m : Nat) (h : Heap) (ks : KVPointers) (hnd : ks.Nodup)
    (hn : maxSeps (ks.map h.read) < n) (hm : maxSeps (ks.map h.read) < m) :
    mapifyFuelPtr n h ks = mapifyFuelPtr m h ks := by
  induction n generalizing m h ks with
  | zero => omega
  | succ n ih =>
    cases m with
    | zero => omega
    | succ m =>
      simp only [mapifyFuelPtr]
      have hg := groupsDistinct_loop h ks hnd
      have hc : mapifyLoop (ks.map h.read) =
          ((mapifyLoopPtr h ks).m,
            deref (mapifyLoopPtr h ks).heap (mapifyLoopPtr h ks).prefixSet) :=
        loopPtr_corr ks { m := [], prefixSet := [], heap := h } ([], []) hnd rfl rfl
          (fun _ he => absurd he (List.not_mem_nil _))
      unfold mapifyFinishPtr
      apply finishPtr_congr (mapifyFuelPtr n) (mapifyFuelPtr m) (mapifyLoopPtr h ks).heap
        (fun h1 ks1 a hnd1 ha1 => mapifyFuelPtr_frame n h1 ks1 hnd1 a ha1)
        _ _ _ (fun _ _ _ _ => rfl) (fun e he => (hg.2.1 e he).1) hg.2.2
      intro e he h1 hsame
      have hmap : e.2.map h1.read = e.2.map (mapifyLoopPtr h ks).heap.read :=
        List.map_congr_left hsame
      have hmem : (e.1, e.2.map (mapifyLoopPtr h ks).heap.read) ∈
          (mapifyLoop (ks.map h.read)).2 := by
        rw [hc]
        exact List.mem_map.mpr ⟨e, he, rfl⟩
      obtain ⟨g1, g2⟩ := mem_loop_group _ _ hmem
      simp only at g1 g2
      have hlt : maxSeps (e.2.map h1.read) + 1 ≤ maxSeps (ks.map h.read) := by
        rw [hmap, g1]
        rcases maxSeps_group (ks.map h.read) e.1 with hh | hh
        · exact hh
        · exact absurd hh g2
      exact ih m h1 e.2 (hg.2.1 e he).1 (by omega) (by omega)

/-- For distinct pointers, any fuel above the largest number of separators of
a key gives the result of `mapifyPtr`, map and memory. -/
theorem mapifyFuelPtr_stable (n : Nat) (h : Heap) (ks : KVPointers) (hnd : ks.Nodup)
    (hn : maxSeps (ks.map h.read) < n) : mapifyFuelPtr n h ks = mapifyPtr h ks :=
  mapifyFuelPtr_eq n _ h ks hnd hn (Nat.lt_succ_self _)

end configuration
